import Mathlib

/-! # ascii-to-html: the strict recogniser, the template pipeline and the converter

A shallow embedding of the grid accessor, the box detector, the horizontal
arrow detector and the rendering of `ascii2html.js`, of the template pipeline of
`src/src` (`parser.js`, `layout.js`, `renderer.js`, `style.js`, `index.js`) and of
the class `ASCII2SVG` of `ascii2svg-converter.js`, and theorems about them.

Strings are lists of characters (one `Char` per UTF-16 code unit; every glyph the
program tests is a single code unit).  Coordinates handed to `chAt` and `boxAt`
are integers, because the arrow scan reaches column `-1`.
-/

namespace Ascii2Html

/-! ## Input text -/

/-- `text.replace(/\r\n/g, '\n')`. -/
def replaceCRLF : List Char → List Char
  | [] => []
  | [c] => [c]
  | c :: d :: rest =>
    if c = '\r' ∧ d = '\n' then '\n' :: replaceCRLF rest else c :: replaceCRLF (d :: rest)

/-- `s.split('\n')`: the pieces between line feeds; never an empty array. -/
def splitNL : List Char → List (List Char)
  | [] => [[]]
  | c :: rest =>
    if c = '\n' then [] :: splitNL rest
    else
      match splitNL rest with
      | l :: ls => (c :: l) :: ls
      | [] => [[c]]

/-- `lines` of the program: `readAll(..).replace(/\r\n/g, '\n').split('\n')`. -/
def linesOf (text : List Char) : List (List Char) :=
  splitNL (replaceCRLF text)

/-- `height = lines.length`. -/
def height (lines : List (List Char)) : Nat := lines.length

/-- `width = Math.max(...lines.map(l => l.length))`; `lines` is never empty in the program. -/
def width (lines : List (List Char)) : Nat :=
  (lines.map List.length).foldl max 0

/-! ## Grid accessor and glyph classes -/

/-- `chAt(x, y)`. -/
def chAt (lines : List (List Char)) (x y : Int) : Char :=
  if y < 0 ∨ y ≥ (height lines : Int) then ' '
  else
    let line := lines.getD y.toNat []
    if x < 0 ∨ x ≥ (line.length : Int) then ' ' else line.getD x.toNat ' '

/-- `isHLine(c)`. -/
def isHLine (c : Char) : Bool :=
  c == '─' || c == '-' || c == '━' || c == '—'

/-- `isVLine(c)`. -/
def isVLine (c : Char) : Bool :=
  c == '│' || c == '|' || c == '┃' || c == '├' || c == '┤' || c == '┼'

/-! ## String helpers used by the label extraction -/

/-- The characters matched by `\s` and removed by `trim()`. -/
def isWs (c : Char) : Bool :=
  c == ' ' || c == '\t' || c == '\n' || c == '\r' || c.toNat == 0x0B || c.toNat == 0x0C ||
  c.toNat == 0xA0 || c.toNat == 0x1680 || (0x2000 ≤ c.toNat && c.toNat ≤ 0x200A) ||
  c.toNat == 0x2028 || c.toNat == 0x2029 || c.toNat == 0x202F || c.toNat == 0x205F ||
  c.toNat == 0x3000 || c.toNat == 0xFEFF

/-- `s.replace(/\s+$/, '')`: the string without its trailing whitespace run. -/
def trimEndWs (s : List Char) : List Char :=
  (s.reverse.dropWhile isWs).reverse

/-- `s.trim()`. -/
def jsTrim (s : List Char) : List Char :=
  trimEndWs (s.dropWhile isWs)

/-- `s.match(/^ */)[0].length`: the number of leading spaces. -/
def leadingSpaces (s : List Char) : Nat :=
  (s.takeWhile (fun c => c == ' ')).length

/-- `s.slice(a, b)` for `0 <= a`. -/
def slice (s : List Char) (a b : Nat) : List Char :=
  (s.drop a).take (b - a)

/-- `rows.join('\n')`. -/
def joinNL : List (List Char) → List Char
  | [] => []
  | [r] => r
  | r :: r2 :: rest => r ++ '\n' :: joinNL (r2 :: rest)

/-- The `reduce` of `leftPad`: `none` stands for `Infinity`. -/
def minPad (acc : Option Nat) (s : List Char) : Option Nat :=
  match acc with
  | none => some (leadingSpaces s)
  | some m => some (min m (leadingSpaces s))

/-- `leftPad`: the least number of leading spaces over the rows with `s.trim().length > 0`. -/
def leftPad (inner : List (List Char)) : Option Nat :=
  (inner.filter (fun s => decide ((jsTrim s).length > 0))).foldl minPad none

/-- `labelLines`. -/
def labelLines (inner : List (List Char)) : List (List Char) :=
  (inner.map (fun s => match leftPad inner with
    | none => s
    | some m => s.drop m)).map trimEndWs

/-- `label = labelLines.join('\n').trim()`. -/
def labelOf (inner : List (List Char)) : List Char :=
  jsTrim (joinNL (labelLines inner))

/-- `inner`: for `yi` from `y + 1` below `yb`, `(lines[yi] || '').slice(x + 1, xr)`. -/
def innerRows (lines : List (List Char)) (x y xr yb : Nat) : List (List Char) :=
  (List.range' (y + 1) (yb - (y + 1))).map (fun yi => slice (lines.getD yi []) (x + 1) xr)

/-! ## Boxes -/

/-- A detected box; `cx`, `cy`, `w`, `h` of the source record are functions of the corners. -/
structure Box where
  x : Nat
  y : Nat
  xr : Nat
  yb : Nat
  label : List Char
  deriving DecidableEq, Repr

/-- Field `w` of the record: `xr - x`. -/
def Box.w (b : Box) : Int := (b.xr : Int) - b.x

/-- Field `h` of the record: `yb - y`. -/
def Box.h (b : Box) : Int := (b.yb : Int) - b.y

/-- The loop `while (i < bound && p(i)) i++` run for at most `fuel` iterations; the value of `i`
when it stops.  With `fuel >= bound - i` the loop always leaves through its own test. -/
def whileUp (bound : Nat) (p : Nat → Bool) : Nat → Nat → Nat
  | 0, i => i
  | fuel + 1, i => if i < bound ∧ p i = true then whileUp bound p fuel (i + 1) else i

/-- `let xr = x + 1; while (xr < width && isHLine(chAt(xr, y))) xr++`. -/
def scanTop (lines : List (List Char)) (x y : Nat) : Nat :=
  whileUp (width lines) (fun xr => isHLine (chAt lines xr y)) (width lines - (x + 1)) (x + 1)

/-- `let yb = y + 1; while (yb < height && isVLine(chAt(x, yb))) yb++`. -/
def scanLeftEdge (lines : List (List Char)) (x y : Nat) : Nat :=
  whileUp (height lines) (fun yb => isVLine (chAt lines x yb)) (height lines - (y + 1)) (y + 1)

/-- The first border loop: every `xi` with `x < xi < xr` is a horizontal line on rows `y`, `yb`. -/
def okRows (lines : List (List Char)) (x y xr yb : Nat) : Bool :=
  (List.range' (x + 1) (xr - (x + 1))).all
    (fun xi => isHLine (chAt lines xi y) && isHLine (chAt lines xi yb))

/-- The second border loop: every `yi` with `y < yi < yb` is a vertical line on columns `x`, `xr`. -/
def okCols (lines : List (List Char)) (x y xr yb : Nat) : Bool :=
  (List.range' (y + 1) (yb - (y + 1))).all
    (fun yi => isVLine (chAt lines x yi) && isVLine (chAt lines xr yi))

/-- The state of the two loops of `detectBoxes`: `boxes` and the keys in `used`. -/
structure DetectState where
  boxes : List Box
  used : List (Nat × Nat)

/-- One pass of the inner loop body of `detectBoxes` at cell `(x, y)`. -/
def detectStep (lines : List (List Char)) (y : Nat) (st : DetectState) (x : Nat) : DetectState :=
  if chAt lines x y ≠ '┌' then st
  else if (x, y) ∈ st.used then st
  else
    let xr := scanTop lines x y
    if chAt lines xr y ≠ '┐' then st
    else
      let yb := scanLeftEdge lines x y
      if chAt lines x yb ≠ '└' then st
      else if chAt lines xr yb ≠ '┘' then st
      else if okRows lines x y xr yb = false then st
      else if okCols lines x y xr yb = false then st
      else
        { boxes := st.boxes ++ [{ x := x, y := y, xr := xr, yb := yb,
                                  label := labelOf (innerRows lines x y xr yb) }],
          used := (x, y) :: st.used }

/-- The inner loop of `detectBoxes` over `x` for one row `y`. -/
def detectRow (lines : List (List Char)) (st : DetectState) (y : Nat) : DetectState :=
  (List.range (width lines)).foldl (detectStep lines y) st

/-- `detectBoxes()`. -/
def detectBoxes (lines : List (List Char)) : List Box :=
  ((List.range (height lines)).foldl (detectRow lines) { boxes := [], used := [] }).boxes

/-- The box that the loop body of `detectBoxes` pushes at cell `(x, y)` when the key of the cell is
not in `used`; `none` when the body takes one of its `continue`s. -/
def cornerBox (lines : List (List Char)) (x y : Nat) : Option Box :=
  if chAt lines x y ≠ '┌' then none
  else
    let xr := scanTop lines x y
    if chAt lines xr y ≠ '┐' then none
    else
      let yb := scanLeftEdge lines x y
      if chAt lines x yb ≠ '└' then none
      else if chAt lines xr yb ≠ '┘' then none
      else if okRows lines x y xr yb = false then none
      else if okCols lines x y xr yb = false then none
      else some { x := x, y := y, xr := xr, yb := yb, label := labelOf (innerRows lines x y xr yb) }

/-- The closure conditions of a rectangle with corners `(x, y)`, `(xr, y)`, `(x, yb)`, `(xr, yb)`. -/
def Closed (lines : List (List Char)) (x y xr yb : Nat) : Prop :=
  x < xr ∧ y < yb ∧
  chAt lines x y = '┌' ∧ chAt lines xr y = '┐' ∧ chAt lines x yb = '└' ∧ chAt lines xr yb = '┘' ∧
  (∀ xi : Nat, x < xi → xi < xr →
    isHLine (chAt lines xi y) = true ∧ isHLine (chAt lines xi yb) = true) ∧
  (∀ yi : Nat, y < yi → yi < yb →
    isVLine (chAt lines x yi) = true ∧ isVLine (chAt lines xr yi) = true)

/-! ## Horizontal arrows -/

/-- A connection `{ from, to, y, kind }`. -/
structure Edge where
  from_ : Int
  to_ : Int
  y : Nat
  kind : Char
  deriving DecidableEq, Repr

/-- `boxAt(x, y)`: the index of the first box whose closed rectangle holds the cell, else `-1`.
The loop index `i` is carried as an offset. -/
def boxAtFrom (x y : Int) : Nat → List Box → Int
  | _, [] => -1
  | i, b :: rest =>
    if x ≥ b.x ∧ x ≤ b.xr ∧ y ≥ b.y ∧ y ≤ b.yb then (i : Int) else boxAtFrom x y (i + 1) rest

/-- `boxAt(x, y)`. -/
def boxAt (boxes : List Box) (x y : Int) : Int := boxAtFrom x y 0 boxes

/-- `let xl = x - 1; while (xl >= 0 && (isHLine(chAt(xl, y)) || chAt(xl, y) === ' ')) xl--`.
The argument is `xl + 1`: at `0` the test `xl >= 0` fails and the loop leaves with `xl = -1`. -/
def scanLeft (lines : List (List Char)) (y : Nat) : Nat → Int
  | 0 => -1
  | k + 1 =>
    if isHLine (chAt lines k y) = true ∨ chAt lines k y = ' ' then scanLeft lines y k else (k : Int)

/-- `let xr = x + 1; while (xr < width && (isHLine(chAt(xr, y)) || chAt(xr, y) === ' ')) xr++`. -/
def scanRight (lines : List (List Char)) (y x : Nat) : Nat :=
  whileUp (width lines) (fun xr => isHLine (chAt lines xr y) || chAt lines xr y == ' ')
    (width lines - (x + 1)) (x + 1)

/-- The box resolved on the left of column `x`: `boxAt(xl, y) >= 0 ? boxAt(xl, y) : boxAt(xl + 1, y)`. -/
def leftBox (lines : List (List Char)) (boxes : List Box) (x y : Nat) : Int :=
  let xl := scanLeft lines y x
  if boxAt boxes xl y ≥ 0 then boxAt boxes xl y else boxAt boxes (xl + 1) y

/-- The box resolved on the right of column `x`: `boxAt(xr, y) >= 0 ? boxAt(xr, y) : boxAt(xr - 1, y)`. -/
def rightBox (lines : List (List Char)) (boxes : List Box) (x y : Nat) : Int :=
  let xr := scanRight lines y x
  if boxAt boxes xr y ≥ 0 then boxAt boxes xr y else boxAt boxes ((xr : Int) - 1) y

/-- The connections pushed by the loop body of `detectHorizontalArrows` at cell `(x, y)`. -/
def arrowAt (lines : List (List Char)) (boxes : List Box) (y x : Nat) : List Edge :=
  let c := chAt lines x y
  if c ≠ '▶' ∧ c ≠ '◀' ∧ c ≠ '>' ∧ c ≠ '<' then []
  else if c = '▶' ∨ c = '>' then
    let srcBox := leftBox lines boxes x y
    let dstBox := rightBox lines boxes x y
    if srcBox ≥ 0 ∧ dstBox ≥ 0 ∧ srcBox ≠ dstBox then
      [{ from_ := srcBox, to_ := dstBox, y := y, kind := '→' }]
    else []
  else if c = '◀' ∨ c = '<' then
    let srcBox := rightBox lines boxes x y
    let dstBox := leftBox lines boxes x y
    if srcBox ≥ 0 ∧ dstBox ≥ 0 ∧ srcBox ≠ dstBox then
      [{ from_ := srcBox, to_ := dstBox, y := y, kind := '←' }]
    else []
  else []

/-- The array `edges` before de-duplication: both loops, row by row. -/
def rawEdges (lines : List (List Char)) (boxes : List Box) : List Edge :=
  (List.range (height lines)).flatMap (fun y =>
    (List.range ((lines.getD y []).length)).flatMap (fun x => arrowAt lines boxes y x))

/-- The key of the map `uniq`; the string `from->to@y` determines the triple. -/
def Edge.key (e : Edge) : Int × Int × Nat := (e.from_, e.to_, e.y)

/-- `if (!uniq.has(k)) uniq.set(k, e)` on the entries of the map, kept in insertion order. -/
def uniqSet (uniq : List ((Int × Int × Nat) × Edge)) (e : Edge) : List ((Int × Int × Nat) × Edge) :=
  if e.key ∈ uniq.map Prod.fst then uniq else uniq ++ [(e.key, e)]

/-- `Array.from(uniq.values())` after `edges.forEach(..)`. -/
def dedupEdges (edges : List Edge) : List Edge :=
  (edges.foldl uniqSet []).map Prod.snd

/-- `detectHorizontalArrows(boxes)`. -/
def detectHorizontalArrows (lines : List (List Char)) (boxes : List Box) : List Edge :=
  dedupEdges (rawEdges lines boxes)

/-! ## Rendering: the values that `toHTML` interpolates into its template

Numbers are doubles in the program.  Every value below is an integer or half of an integer of
small size, on which double arithmetic is exact; the rectangle geometry is computed in `Int`
and the path endpoints, which go through a division by 2, in `ℚ`. -/

/-- `CELL_W`, px per column. -/
def CELL_W : Int := 12

/-- `CELL_H`, px per row. -/
def CELL_H : Int := 22

/-- `PAD`, the inner padding inside boxes. -/
def PAD : Int := 12

/-- `OFFSET`, the shift of the path endpoints. -/
def OFFSET : ℚ := 6

/-- `W = Math.max(width, 60) * CELL_W + 100`. -/
def svgW (lines : List (List Char)) : Int := (max (width lines) 60 : Nat) * CELL_W + 100

/-- `H = Math.max(height, 20) * CELL_H + 100`. -/
def svgH (lines : List (List Char)) : Int := (max (height lines) 20 : Nat) * CELL_H + 100

/-- `escapeHTML(s)`: `s.replace(/[&<>"]/g, m => ...)`. -/
def escapeHTML (s : List Char) : List Char :=
  s.flatMap (fun m =>
    if m = '&' then "&amp;".toList
    else if m = '<' then "&lt;".toList
    else if m = '>' then "&gt;".toList
    else if m = '"' then "&quot;".toList
    else [m])

/-- The values written into one `<g class="node">` group. -/
structure NodeGroup where
  dataId : Nat
  rectX : Int
  rectY : Int
  rectWidth : Int
  rectHeight : Int
  foX : Int
  foY : Int
  foWidth : Int
  foHeight : Int
  labelHtml : List Char
  title : List Char
  deriving DecidableEq, Repr

/-- The callback of `boxes.map((b, i) => ...)` in `toHTML`. -/
def nodeGroup (b : Box) (i : Nat) : NodeGroup :=
  let x := (b.x : Int) * CELL_W
  let y := (b.y : Int) * CELL_H
  let w := ((b.xr : Int) - b.x) * CELL_W
  let h := ((b.yb : Int) - b.y) * CELL_H
  let label := if b.label = [] then "Node ".toList ++ (Nat.repr (i + 1)).toList else b.label
  { dataId := i,
    rectX := x + 1, rectY := y + 1, rectWidth := w - 2, rectHeight := h - 2,
    foX := x + PAD, foY := y + PAD,
    foWidth := max 0 (w - 2 * PAD), foHeight := max 0 (h - 2 * PAD),
    labelHtml := (escapeHTML label).flatMap (fun c => if c = '\n' then "<br/>".toList else [c]),
    title := escapeHTML label }

/-- `boxes.map((b, i) => ...)` with the index `i` carried as an offset. -/
def boxRectsFrom : Nat → List Box → List NodeGroup
  | _, [] => []
  | i, b :: rest => nodeGroup b i :: boxRectsFrom (i + 1) rest

/-- `boxRects`: one node group per box. -/
def boxRects (boxes : List Box) : List NodeGroup := boxRectsFrom 0 boxes

/-- The endpoints of one `<path d="M x1 y1 L x2 y2">`. -/
structure EdgePath where
  x1 : ℚ
  y1 : ℚ
  x2 : ℚ
  y2 : ℚ
  deriving DecidableEq

/-- `boxes[i]` for a number `i`: `undefined` (here `none`) outside the array. -/
def boxLookup (boxes : List Box) (i : Int) : Option Box :=
  if i < 0 then none else boxes[i.toNat]?

/-- The callback of `edges.map((e) => ...)` in `toHTML`; `none` stands for the empty string
returned when `from` or `to` is missing. -/
def edgeLine (boxes : List Box) (e : Edge) : Option EdgePath :=
  match boxLookup boxes e.from_, boxLookup boxes e.to_ with
  | some fromBox, some toBox =>
    let x1 : ℚ := (fromBox.xr : ℚ) * (CELL_W : ℚ)
    let y1 : ℚ := ((fromBox.y : ℚ) + (fromBox.yb : ℚ)) / 2 * (CELL_H : ℚ)
    let x2 : ℚ := (toBox.x : ℚ) * (CELL_W : ℚ)
    let y2 : ℚ := ((toBox.y : ℚ) + (toBox.yb : ℚ)) / 2 * (CELL_H : ℚ)
    let x1 : ℚ := if e.kind = '←' then (fromBox.x : ℚ) * (CELL_W : ℚ) else x1
    let y1 : ℚ := if e.kind = '←' then ((fromBox.y : ℚ) + (fromBox.yb : ℚ)) / 2 * (CELL_H : ℚ) else y1
    let x2 : ℚ := if e.kind = '←' then (toBox.xr : ℚ) * (CELL_W : ℚ) else x2
    let y2 : ℚ := if e.kind = '←' then ((toBox.y : ℚ) + (toBox.yb : ℚ)) / 2 * (CELL_H : ℚ) else y2
    let x1b : ℚ := if e.kind = '→' then x1 + OFFSET else x1
    let x2b : ℚ := if e.kind = '→' then x2 - OFFSET else x2
    let x1c : ℚ := if e.kind = '←' then x1b - OFFSET else x1b
    let x2c : ℚ := if e.kind = '←' then x2b + OFFSET else x2b
    some { x1 := x1c, y1 := y1, x2 := x2c, y2 := y2 }
  | _, _ => none

/-- `edgeLines`: `edges.map((e) => ...)`. -/
def edgeLines (boxes : List Box) (edges : List Edge) : List (Option EdgePath) :=
  edges.map (edgeLine boxes)

/-! ## The template pipeline of `src/src`: `parser.js`

Of the model that `parseASCII` returns, the field `boxes` is embedded.  The fields `title`,
`headers` and `labels` are computed from `lines` alone by string searches that neither read nor
write `boxes`, and they never throw.  `grid = lines.map(l => l.split(''))` is `lines` itself,
a string being the list of its code units.  A result `none` stands for a run that does not
return: a scan that never stops, or a read of `lines[yi]` outside the array. -/

/-- `chAt(x, y)` of `parser.js`. -/
def Parser.chAt (grid : List (List Char)) (x y : Int) : Char :=
  if y ≥ 0 ∧ y < (grid.length : Int) ∧ x ≥ 0 ∧ x < ((grid.getD y.toNat []).length : Int) then
    (grid.getD y.toNat []).getD x.toNat ' '
  else ' '

/-- `isH(c)` of `parser.js`. -/
def Parser.isH (c : Char) : Bool :=
  c == '─' || c == '-'

/-- `isV(c)` of `parser.js`. -/
def Parser.isV (c : Char) : Bool :=
  c == '│' || c == '|' || c == '├' || c == '┤' || c == '┼'

/-- `while (p(i)) i++` started at `i`, with no bound on `i`: the value of `i` after the loop,
or `none` when `fuel` tests do not reach a cell where `p` fails. -/
def scanWhile (p : Nat → Bool) : Nat → Nat → Option Nat
  | 0, _ => none
  | fuel + 1, i => if p i = true then scanWhile p fuel (i + 1) else some i

/-- `let xr = x+1; while (isH(chAt(xr,y))) xr++`. -/
def Parser.scanRight (grid : List (List Char)) (x y : Nat) : Option Nat :=
  scanWhile (fun xr => Parser.isH (Parser.chAt grid xr y)) ((grid.getD y []).length + 1) (x + 1)

/-- `let yb = y+1; while (isV(chAt(x,yb))) yb++`. -/
def Parser.scanDown (grid : List (List Char)) (x y : Nat) : Option Nat :=
  scanWhile (fun yb => Parser.isV (Parser.chAt grid x yb)) (grid.length + 1) (y + 1)

/-- A record `{ x, y, xr, yb, content }` pushed on `boxes` by `parseASCII`. -/
structure ParsedBox where
  x : Nat
  y : Nat
  xr : Nat
  yb : Nat
  content : List (List Char)
  deriving DecidableEq, Repr

/-- The loop `for (let yi = y+1; yi < yb; yi++)` that fills `content`, over the list of its
indices `yi`; `lines[yi]` outside the array makes `.slice` throw. -/
def Parser.content (lines : List (List Char)) (x xr : Nat) : List Nat → Option (List (List Char))
  | [] => some []
  | yi :: rest =>
    match lines[yi]? with
    | none => none
    | some line =>
      let row := trimEndWs (slice line (x + 1) xr)
      match Parser.content lines x xr rest with
      | none => none
      | some tail => if (jsTrim row).length ≠ 0 then some (jsTrim row :: tail) else some tail

/-- The body of the inner loop of `parseASCII` at cell `(x, y)`: the boxes it pushes, none after a
`continue` and one otherwise. -/
def Parser.boxesAt (lines : List (List Char)) (x y : Nat) : Option (List ParsedBox) :=
  if Parser.chAt lines x y ≠ '┌' then some []
  else
    match Parser.scanRight lines x y with
    | none => none
    | some xr =>
      if Parser.chAt lines xr y ≠ '┐' then some []
      else
        match Parser.scanDown lines x y with
        | none => none
        | some yb =>
          if Parser.chAt lines x yb ≠ '└' then some []
          else if Parser.chAt lines xr yb ≠ '┘' then some []
          else
            match Parser.content lines x xr (List.range' (y + 1) (yb - (y + 1))) with
            | none => none
            | some content => some [{ x := x, y := y, xr := xr, yb := yb, content := content }]

/-- A loop `for (i of indices) boxes.push(...body(i))` whose body may fail to return. -/
def pushAll {α : Type} (body : Nat → Option (List α)) : List Nat → Option (List α)
  | [] => some []
  | i :: rest =>
    match body i with
    | none => none
    | some pushed =>
      match pushAll body rest with
      | none => none
      | some later => some (pushed ++ later)

/-- The field `boxes` of `parseASCII(ascii)`: both loops, `y < height` and `x < width`. -/
def Parser.parseASCII (ascii : List Char) : Option (List ParsedBox) :=
  let lines := splitNL (replaceCRLF ascii)
  pushAll (fun y => pushAll (fun x => Parser.boxesAt lines x y) (List.range (width lines)))
    (List.range lines.length)

/-! ## The template pipeline of `src/src`: `style.js`, `layout.js`, `renderer.js`, `index.js`

The rendered document is embedded as the values that depend on the boxes: the size of the root
element and the three calls of `boxBlock`, next to the rectangle of the legend.  The title, the
headers, the arrows, the circles and the legend texts are constants of the template or texts
computed from the lines alone. -/

/-- A rectangle `{ x, y, w, h }` of `TEMPLATE_POS`. -/
structure Rect where
  x : Int
  y : Int
  w : Int
  h : Int
  deriving DecidableEq, Repr

/-- `SVG_SIZE.width`. -/
def SVG_SIZE.width : Nat := 900

/-- `SVG_SIZE.height`. -/
def SVG_SIZE.height : Nat := 500

/-- `TEMPLATE_POS.boxes.host`. -/
def TEMPLATE_POS.boxes.host : Rect := { x := 50, y := 90, w := 200, h := 120 }

/-- `TEMPLATE_POS.boxes.plugin`. -/
def TEMPLATE_POS.boxes.plugin : Rect := { x := 350, y := 90, w := 200, h := 140 }

/-- `TEMPLATE_POS.boxes.conductor`. -/
def TEMPLATE_POS.boxes.conductor : Rect := { x := 650, y := 90, w := 200, h := 120 }

/-- `TEMPLATE_POS.legend.rect`. -/
def TEMPLATE_POS.legend.rect : Rect := { x := 50, y := 320, w := 800, h := 120 }

/-- One step of a stable sort with the comparator `(a,b)=>a.x-b.x`: `a`, which comes before
every element of the sorted list in the original order, goes in front of the first element
whose `x` is not smaller. -/
def insertByX (a : ParsedBox) : List ParsedBox → List ParsedBox
  | [] => [a]
  | b :: rest => if a.x ≤ b.x then a :: b :: rest else b :: insertByX a rest

/-- `[...model.boxes].sort((a,b)=>a.x-b.x)`: `Array.prototype.sort` is stable and the
comparator is a total preorder, which fixes the result whatever algorithm the engine runs; it
is computed here by insertion from the right. -/
def sortByX : List ParsedBox → List ParsedBox
  | [] => []
  | a :: rest => insertByX a (sortByX rest)

/-- An entry `{ content, x, y, w, h }` of `boxes` in the view model. -/
structure LayoutBox where
  content : List (List Char)
  x : Int
  y : Int
  w : Int
  h : Int
  deriving DecidableEq, Repr

/-- The field `boxes` of the view model. -/
structure LayoutBoxes where
  host : LayoutBox
  plugin : LayoutBox
  conductor : LayoutBox
  deriving DecidableEq, Repr

/-- `(sorted[i] || { content: [] }).content`. -/
def contentAt (sorted : List ParsedBox) (i : Nat) : List (List Char) :=
  match sorted[i]? with
  | some b => b.content
  | none => []

/-- The field `boxes` of `layoutTemplate(model)`. -/
def layoutTemplate (boxes : List ParsedBox) : LayoutBoxes :=
  let sorted := sortByX boxes
  { host :=
      { content := contentAt sorted 0, x := TEMPLATE_POS.boxes.host.x,
        y := TEMPLATE_POS.boxes.host.y, w := TEMPLATE_POS.boxes.host.w,
        h := TEMPLATE_POS.boxes.host.h },
    plugin :=
      { content := contentAt sorted 1, x := TEMPLATE_POS.boxes.plugin.x,
        y := TEMPLATE_POS.boxes.plugin.y, w := TEMPLATE_POS.boxes.plugin.w,
        h := TEMPLATE_POS.boxes.plugin.h },
    conductor :=
      { content := contentAt sorted 2, x := TEMPLATE_POS.boxes.conductor.x,
        y := TEMPLATE_POS.boxes.conductor.y, w := TEMPLATE_POS.boxes.conductor.w,
        h := TEMPLATE_POS.boxes.conductor.h } }

/-- `s.replace(/c/g, rep)` for a single character `c`. -/
def replaceChar (c : Char) (rep : List Char) (s : List Char) : List Char :=
  s.flatMap (fun d => if d = c then rep else [d])

/-- `escape(s)` of `renderer.js`. -/
def Renderer.escape (s : List Char) : List Char :=
  replaceChar '>' "&gt;".toList (replaceChar '<' "&lt;".toList (replaceChar '&' "&amp;".toList s))

/-- A `<text>` element written by `boxBlock`: its `x`, its `y`, whether its weight is `bold`,
and its escaped text. -/
structure TextLine where
  x : ℚ
  y : Int
  bold : Bool
  text : List Char
  deriving DecidableEq

/-- The callback of `box.content.forEach((line, idx) => ...)`, from index `idx` on. -/
def boxTextsFrom (box : LayoutBox) : Nat → List (List Char) → List TextLine
  | _, [] => []
  | idx, line :: rest =>
    { x := (box.x : ℚ) + (box.w : ℚ) / 2, y := box.y + 25 + (idx : Int) * 20,
      bold := idx == 0, text := Renderer.escape line } :: boxTextsFrom box (idx + 1) rest

/-- What `boxBlock(box, style)` writes: one `<rect>` and one `<text>` for each content line. -/
structure BoxBlock where
  x : Int
  y : Int
  width : Int
  height : Int
  texts : List TextLine
  deriving DecidableEq

/-- `boxBlock(box, style)`. -/
def boxBlock (box : LayoutBox) : BoxBlock :=
  { x := box.x, y := box.y, width := box.w, height := box.h,
    texts := boxTextsFrom box 0 box.content }

/-- The document written by `renderSVG`: the attributes of the root element, the box blocks in
the order they are written, and the rectangle of the legend. -/
structure SvgDoc where
  width : Nat
  height : Nat
  boxes : List BoxBlock
  legendRect : Rect
  deriving DecidableEq

/-- `renderSVG(vm)`. -/
def renderSVG (vm : LayoutBoxes) : SvgDoc :=
  { width := SVG_SIZE.width, height := SVG_SIZE.height,
    boxes := [boxBlock vm.host, boxBlock vm.plugin, boxBlock vm.conductor],
    legendRect := TEMPLATE_POS.legend.rect }

/-- `convert(asciiText)` of `index.js`. -/
def convert (asciiText : List Char) : Option SvgDoc :=
  match Parser.parseASCII asciiText with
  | none => none
  | some boxes => some (renderSVG (layoutTemplate boxes))

/-! ## The converter `ascii2svg-converter.js`: state, grid and box detection

An instance of the class `ASCII2SVG` is a record of its six mutable fields; a method is a
function from the state before the call to the state after it.  The options are the defaults
of the constructor.  A read `this.grid[y][x]` is `cellAt`, which is `none` outside the grid;
a method that performs such a read returns `none`.  Calls of `console.log` are left out. -/

/-- A record pushed on `this.boxes`. -/
structure LooseBox where
  x : Nat
  y : Nat
  width : Int
  height : Int
  content : List (List Char)
  styleIndex : Nat
  deriving DecidableEq, Repr

/-- A record pushed on `this.arrows`; its `type` is always `horizontal`. -/
structure Arrow where
  startX : Nat
  startY : Nat
  endX : Nat
  endY : Nat
  deriving DecidableEq, Repr

/-- A record pushed on `this.labels`. -/
structure Label where
  text : List Char
  x : Nat
  y : Nat
  priority : Nat
  deriving DecidableEq, Repr

/-- The mutable fields of an instance of the class `ASCII2SVG`. -/
structure ASCII2SVG where
  grid : List (List Char)
  boxes : List LooseBox
  arrows : List Arrow
  labels : List Label
  width : Nat
  height : Nat
  deriving DecidableEq, Repr

/-- The state set up by the constructor. -/
def ASCII2SVG.new : ASCII2SVG :=
  { grid := [], boxes := [], arrows := [], labels := [], width := 0, height := 0 }

/-- `options.cellWidth`. -/
def cellWidth : Nat := 8

/-- `options.cellHeight`. -/
def cellHeight : Nat := 20

/-- `options.padding`. -/
def padding : Nat := 40

/-- `options.boxPadding`. -/
def boxPadding : Nat := 16

/-- `options.boxStyles.length`. -/
def boxStylesLength : Nat := 5

/-- `line.padEnd(n, ' ')`. -/
def padEnd (line : List Char) (n : Nat) : List Char :=
  line ++ List.replicate (n - line.length) ' '

/-- The `lines` of `parseASCII(text)`: the non-blank lines of the text, both kinds of line
ending taken as line feeds. -/
def ASCII2SVG.linesOf (text : List Char) : List (List Char) :=
  (splitNL (replaceChar '\r' ['\n'] (replaceCRLF text))).filter
    (fun line => decide ((jsTrim line).length > 0))

/-- `parseASCII(text)`. -/
def ASCII2SVG.parseASCII (s : ASCII2SVG) (text : List Char) : ASCII2SVG :=
  let lines := ASCII2SVG.linesOf text
  if lines.length = 0 then s
  else
    let maxWidth := (lines.map List.length).foldl max 0
    { s with grid := lines.map (fun line => padEnd line maxWidth),
             width := maxWidth, height := lines.length }

/-- A read `this.grid[y][x]`; `none` when the row or the cell does not exist. -/
def cellAt (grid : List (List Char)) (x y : Nat) : Option Char :=
  match grid[y]? with
  | none => none
  | some row => row[x]?

/-- A loop that reads the cells of the indices in turn and stops with `true` at the first one
whose character satisfies `p`; `false` when there is none. -/
def anyCell (read : Nat → Option Char) (p : Char → Bool) : List Nat → Option Bool
  | [] => some false
  | i :: rest =>
    match read i with
    | none => none
    | some c => if p c = true then some true else anyCell read p rest

/-- `topLeftChars.includes(char)`. -/
def isTopLeftChar (c : Char) : Bool :=
  c == '┌' || c == '┏' || c == '╔' || c == '╭' || c == '+' || c == '┼'

/-- `couldBeTopLeft(x, y)`. -/
def ASCII2SVG.couldBeTopLeft (s : ASCII2SVG) (x y : Nat) : Option Bool :=
  match cellAt s.grid x y with
  | none => none
  | some char =>
    if isTopLeftChar char = false then some false
    else
      match anyCell (fun i => cellAt s.grid i y)
          (fun c => c == '─' || c == '━' || c == '═' || c == '-' || c == '┬' || c == '┼')
          (List.range' (x + 1) (min (x + 5) s.width - (x + 1))) with
      | none => none
      | some hasHorizontal =>
        match anyCell (fun i => cellAt s.grid x i)
            (fun c => c == '│' || c == '┃' || c == '║' || c == '|' || c == '├' || c == '┼')
            (List.range' (y + 1) (min (y + 5) s.height - (y + 1))) with
        | none => none
        | some hasVertical => some (hasHorizontal && hasVertical)

/-- A loop `for (i of indices) { if (p(read(i))) last = i; else break; }`: the final value of
`last`. -/
def runEnd (read : Nat → Option Char) (p : Char → Bool) : Nat → List Nat → Option Nat
  | last, [] => some last
  | last, i :: rest =>
    match read i with
    | none => none
    | some c => if p c = true then runEnd read p i rest else some last

/-- The glyphs that continue the top border in `findBoxFromCorner`. -/
def isTopRunChar (c : Char) : Bool :=
  c == '─' || c == '━' || c == '═' || c == '-' || c == '┌' || c == '┬' || c == '┐' ||
  c == '┼' || c == '+'

/-- The glyphs that continue the left border in `findBoxFromCorner`. -/
def isLeftRunChar (c : Char) : Bool :=
  c == '│' || c == '┃' || c == '║' || c == '|' || c == '┌' || c == '├' || c == '└' ||
  c == '┼' || c == '+'

/-- The glyphs taken as a bottom-right corner in `findBoxFromCorner`. -/
def isBottomRightChar (c : Char) : Bool :=
  c == '┘' || c == '┛' || c == '╝' || c == '╯' || c == '+' || c == '┼'

/-- The first loop of `findBoxFromCorner`: `endX` after the scan of the top border. -/
def ASCII2SVG.topRunEnd (s : ASCII2SVG) (startX startY : Nat) : Option Nat :=
  runEnd (fun x => cellAt s.grid x startY) isTopRunChar startX
    (List.range' startX (s.width - startX))

/-- The second loop of `findBoxFromCorner`: `endY` after the scan of the left border. -/
def ASCII2SVG.leftRunEnd (s : ASCII2SVG) (startX startY : Nat) : Option Nat :=
  runEnd (fun y => cellAt s.grid startX y) isLeftRunChar startY
    (List.range' startY (s.height - startY))

/-- The offsets `(dx, dy)` in the order the two loops `dy = -2..2`, `dx = -2..2` visit them. -/
def offsets : List (Int × Int) :=
  ([-2, -1, 0, 1, 2] : List Int).flatMap (fun dy =>
    ([-2, -1, 0, 1, 2] : List Int).map (fun dx => (dx, dy)))

/-- The search of the neighbourhood of `(endX, endY)` over the given offsets: the first cell
inside the grid that holds a bottom-right glyph, `some none` when there is none. -/
def ASCII2SVG.searchBottomRight (s : ASCII2SVG) (endX endY : Nat) :
    List (Int × Int) → Option (Option (Nat × Nat))
  | [] => some none
  | (dx, dy) :: rest =>
    let newY : Int := (endY : Int) + dy
    let newX : Int := (endX : Int) + dx
    if newY ≥ 0 ∧ newY < (s.height : Int) ∧ newX ≥ 0 ∧ newX < (s.width : Int) then
      match cellAt s.grid newX.toNat newY.toNat with
      | none => none
      | some testChar =>
        if isBottomRightChar testChar = true then some (some (newX.toNat, newY.toNat))
        else ASCII2SVG.searchBottomRight s endX endY rest
    else ASCII2SVG.searchBottomRight s endX endY rest

/-- The block `// Check if bottom-right corner exists` of `findBoxFromCorner`: the values of
`endX` and `endY` after it. -/
def ASCII2SVG.adjustCorner (s : ASCII2SVG) (endX endY : Nat) : Option (Nat × Nat) :=
  if endX < s.width ∧ endY < s.height then
    match cellAt s.grid endX endY with
    | none => none
    | some bottomRightChar =>
      if isBottomRightChar bottomRightChar = false then
        match ASCII2SVG.searchBottomRight s endX endY offsets with
        | none => none
        | some none => some (endX, endY)
        | some (some found) => some found
      else some (endX, endY)
  else some (endX, endY)

/-- The inner loop of the content extraction of `findBoxFromCorner` on row `y`: the characters
of the columns `xs` that pass the guard `x < this.width && y < this.height`. -/
def ASCII2SVG.contentLine (s : ASCII2SVG) (y : Nat) : List Nat → Option (List Char)
  | [] => some []
  | x :: rest =>
    if x < s.width ∧ y < s.height then
      match cellAt s.grid x y with
      | none => none
      | some c =>
        match ASCII2SVG.contentLine s y rest with
        | none => none
        | some line => some (c :: line)
    else ASCII2SVG.contentLine s y rest

/-- `isBorderChar(str)`: every character of `str` is in the class of the regular expression. -/
def isBorderChar (str : List Char) : Bool :=
  str.all (fun c => "─━═│┃║┌┏╔┐┓╗└┗╚┘┛╝├┣╠┤┫╣┬┳╦┴┻╩┼╋╬-|+".toList.contains c || isWs c)

/-- The outer loop of the content extraction of `findBoxFromCorner` over the rows `ys`. -/
def ASCII2SVG.content (s : ASCII2SVG) (startX endX : Nat) : List Nat → Option (List (List Char))
  | [] => some []
  | y :: rest =>
    match ASCII2SVG.contentLine s y (List.range' (startX + 1) (endX - (startX + 1))) with
    | none => none
    | some line =>
      let trimmed := jsTrim line
      match ASCII2SVG.content s startX endX rest with
      | none => none
      | some tail =>
        if trimmed ≠ [] ∧ isBorderChar trimmed = false then some (trimmed :: tail) else some tail

/-- `findBoxFromCorner(startX, startY)`; `some none` stands for the result `null`. -/
def ASCII2SVG.findBoxFromCorner (s : ASCII2SVG) (startX startY : Nat) :
    Option (Option LooseBox) :=
  match ASCII2SVG.topRunEnd s startX startY with
  | none => none
  | some endX =>
    match ASCII2SVG.leftRunEnd s startX startY with
    | none => none
    | some endY =>
      let width : Int := (endX : Int) - startX + 1
      let height : Int := (endY : Int) - startY + 1
      if width < 5 ∨ height < 3 then some none
      else
        match ASCII2SVG.adjustCorner s endX endY with
        | none => none
        | some (endX2, endY2) =>
          match ASCII2SVG.content s startX endX2
              (List.range' (startY + 1) (endY2 - (startY + 1))) with
          | none => none
          | some content =>
            some (some
              { x := startX, y := startY,
                width := (endX2 : Int) - startX + 1, height := (endY2 : Int) - startY + 1,
                content := content, styleIndex := s.boxes.length % boxStylesLength })

/-- The first pair of loops of `detectBoxesAdvanced`: the array `corners`. -/
def ASCII2SVG.corners (s : ASCII2SVG) : Option (List (Nat × Nat)) :=
  pushAll (fun y =>
    pushAll (fun x =>
      match ASCII2SVG.couldBeTopLeft s x y with
      | none => none
      | some true => some [(x, y)]
      | some false => some []) (List.range (s.width - 2))) (List.range (s.height - 2))

/-- The loop `for (const corner of corners)` of `detectBoxesAdvanced`. -/
def ASCII2SVG.pushBoxes : ASCII2SVG → List (Nat × Nat) → Option ASCII2SVG
  | s, [] => some s
  | s, (x, y) :: rest =>
    match ASCII2SVG.findBoxFromCorner s x y with
    | none => none
    | some none => ASCII2SVG.pushBoxes s rest
    | some (some box) =>
      if box.width ≥ 10 ∧ box.height ≥ 3 then
        ASCII2SVG.pushBoxes { s with boxes := s.boxes ++ [box] } rest
      else ASCII2SVG.pushBoxes s rest

/-- `detectBoxesAdvanced()`. -/
def ASCII2SVG.detectBoxesAdvanced (s : ASCII2SVG) : Option ASCII2SVG :=
  match ASCII2SVG.corners s with
  | none => none
  | some corners => ASCII2SVG.pushBoxes s corners

/-- The arrowheads of `detectArrowsSimple`. -/
def isArrowChar (c : Char) : Bool :=
  c == '▶' || c == '►' || c == '>' || c == '→' || c == '⇒' || c == '⟶'

/-- The glyphs that `detectArrowsSimple` traces back over. -/
def isShaftChar (c : Char) : Bool :=
  c == '─' || c == '-' || c == '═'

/-- The body of the inner loop of `detectArrowsSimple` at cell `(x, y)`: the arrows it pushes. -/
def ASCII2SVG.arrowsAt (s : ASCII2SVG) (x y : Nat) : Option (List Arrow) :=
  match cellAt s.grid x y with
  | none => none
  | some char =>
    if isArrowChar char = true then
      match runEnd (fun backX => cellAt s.grid backX y) isShaftChar x (List.range x).reverse with
      | none => none
      | some startX =>
        if startX < x then some [{ startX := startX, startY := y, endX := x + 1, endY := y }]
        else some []
    else some []

/-- `detectArrowsSimple()`. -/
def ASCII2SVG.detectArrowsSimple (s : ASCII2SVG) : Option ASCII2SVG :=
  match pushAll (fun y => pushAll (fun x => ASCII2SVG.arrowsAt s x y) (List.range (s.width - 1)))
      (List.range s.height) with
  | none => none
  | some pushed => some { s with arrows := s.arrows ++ pushed }

/-! ## The converter: labels

The seven regular expressions of `detectLabels` are sequences of three kinds of items: one
character of a class, an optional character of a class, and a greedy run of characters of a
class (`\s*`; `\s+` is one character followed by a run).  `matchItems` is the backtracking
match of such a sequence at the start of a string.  With the flag `i` and without the flag `u`
an ASCII letter of a pattern matches its two cases and nothing else. -/

/-- An item of a pattern. -/
inductive Item where
  | one (p : Char → Bool)
  | opt (p : Char → Bool)
  | star (p : Char → Bool)

/-- The length of the match of the items at the start of `str`, quantifiers greedy, `none`
when the items do not match there. -/
def matchItems : List Item → List Char → Option Nat
  | [], _ => some 0
  | Item.one p :: rest, str =>
    match str with
    | [] => none
    | c :: tail =>
      if p c = true then
        match matchItems rest tail with
        | none => none
        | some n => some (n + 1)
      else none
  | Item.opt p :: rest, str =>
    match str with
    | [] => matchItems rest str
    | c :: tail =>
      if p c = true then
        match matchItems rest tail with
        | some n => some (n + 1)
        | none => matchItems rest str
      else matchItems rest str
  | Item.star p :: rest, str =>
    (List.range ((str.takeWhile p).length + 1)).reverse.findSome? (fun k =>
      match matchItems rest (str.drop k) with
      | none => none
      | some n => some (n + k))

/-- The leftmost match in `str`, whose first character has index `pos` in the line: the index
and the length of the match. -/
def searchMatch (items : List Item) : List Char → Nat → Option (Nat × Nat)
  | [], pos =>
    match matchItems items [] with
    | none => none
    | some n => some (pos, n)
  | c :: tail, pos =>
    match matchItems items (c :: tail) with
    | some n => some (pos, n)
    | none => searchMatch items tail (pos + 1)

/-- The loop `while ((match = pattern.regex.exec(line)) !== null)` from `lastIndex` on: the
pairs of `match.index` and `match[0]`; `none` when `fuel` matches do not end the loop. -/
def execAll (items : List Item) (line : List Char) :
    Nat → Nat → Option (List (Nat × List Char))
  | 0, _ => none
  | fuel + 1, lastIndex =>
    match searchMatch items (line.drop lastIndex) lastIndex with
    | none => some []
    | some (index, n) =>
      match execAll items line fuel (index + n) with
      | none => none
      | some later => some ((index, slice line index (index + n)) :: later)

/-- An ASCII letter of a pattern under the flag `i`. -/
def ci (c : Char) : Item := Item.one (fun d => d == c || d == c.toUpper)

/-- A character of a pattern that is not a letter. -/
def lit (c : Char) : Item := Item.one (fun d => d == c)

/-- The array `patterns` of `detectLabels`: the items of each expression and its priority. -/
def patterns : List (List Item × Nat) :=
  [ ("mount".toList.map ci ++ [Item.opt (fun d => d == 's' || d == 'S'), Item.one isWs,
      Item.star isWs] ++ "via".toList.map ci, 1),
    ("play".toList.map ci ++ [Item.star isWs, lit '(', Item.star isWs, lit ')'], 1),
    ("callback".toList.map ci ++ [Item.opt (fun d => d == 's' || d == 'S')], 1),
    ("notify".toList.map ci ++ [Item.opt (fun d => d == '_' || d == '-')] ++
      "ui".toList.map ci ++ [Item.star isWs, lit '(', Item.star isWs, lit ')'], 1),
    ("manifest".toList.map ci, 2),
    ([Item.opt (fun d => d == '"')] ++ "slot".toList.map ci ++
      [Item.opt (fun d => d == 's' || d == 'S'), Item.opt (fun d => d == '"')], 2),
    ("side".toList.map ci ++ [Item.opt (fun d => d == '_' || d == '-')] ++
      "effects".toList.map ci, 2) ]

/-- The labels that `patterns.forEach(...)` pushes for the line of row `y`. -/
def labelsOfLine (line : List Char) (y : Nat) : List (List Item × Nat) → Option (List Label)
  | [] => some []
  | (items, priority) :: rest =>
    match execAll items line (line.length + 1) 0 with
    | none => none
    | some found =>
      match labelsOfLine line y rest with
      | none => none
      | some later =>
        some (found.map (fun m =>
          { text := jsTrim m.2, x := m.1, y := y, priority := priority }) ++ later)

/-- `detectLabels()`; `this.grid[y].join('')` throws when the row does not exist. -/
def ASCII2SVG.detectLabels (s : ASCII2SVG) : Option ASCII2SVG :=
  match pushAll (fun y =>
      match s.grid[y]? with
      | none => none
      | some line => labelsOfLine line y patterns) (List.range s.height) with
  | none => none
  | some pushed => some { s with labels := s.labels ++ pushed }

/-! ## The converter: the values that `generateSVG` interpolates, and `convert` -/

/-- `escapeXML(text)`. -/
def escapeXML (text : List Char) : List Char :=
  if text = [] then []
  else
    text.flatMap (fun c =>
      if c = '<' then "&lt;".toList
      else if c = '>' then "&gt;".toList
      else if c = '&' then "&amp;".toList
      else if c = Char.ofNat 39 then "&apos;".toList
      else if c = '"' then "&quot;".toList
      else [c])

/-- The callback of `box.content.forEach((line, index) => ...)` in `generateBox`, from `index`
on, for a rectangle at `(x, y)` of width `width`. -/
def boxTexts (x y width : Int) : Nat → List (List Char) → List TextLine
  | _, [] => []
  | index, line :: rest =>
    if jsTrim line ≠ [] then
      { x := (x : ℚ) + (width : ℚ) / 2, y := y + 25 + (index : Int) * 18,
        bold := index == 0, text := escapeXML line } :: boxTexts x y width (index + 1) rest
    else boxTexts x y width (index + 1) rest

/-- What `generateBox(box)` writes: a `<rect>`, drawn in the style `styleIndex`, and the
`<text>` lines. -/
structure SvgBox where
  x : Int
  y : Int
  width : Int
  height : Int
  styleIndex : Nat
  texts : List TextLine
  deriving DecidableEq

/-- `generateBox(box)`; reading `style.fill` throws when `boxStyles[box.styleIndex]` does not
exist. -/
def generateBox (box : LooseBox) : Option SvgBox :=
  let x : Int := (box.x : Int) * cellWidth + padding
  let y : Int := (box.y : Int) * cellHeight + padding + 50
  let width : Int := box.width * cellWidth - boxPadding
  let height : Int := box.height * cellHeight - boxPadding
  if box.styleIndex < boxStylesLength then
    some { x := x, y := y, width := width, height := height, styleIndex := box.styleIndex,
           texts := boxTexts x y width 0 box.content }
  else none

/-- `this.boxes.forEach(box => { svg += this.generateBox(box); })`. -/
def generateBoxes : List LooseBox → Option (List SvgBox)
  | [] => some []
  | box :: rest =>
    match generateBox box with
    | none => none
    | some b =>
      match generateBoxes rest with
      | none => none
      | some later => some (b :: later)

/-- The end points `x1 y1 x2 y2` of the `<path>` written by `generateArrow`. -/
structure SvgArrow where
  x1 : Int
  y1 : Int
  x2 : Int
  y2 : Int
  deriving DecidableEq, Repr

/-- `generateArrow(arrow)`. -/
def generateArrow (arrow : Arrow) : SvgArrow :=
  { x1 := (arrow.startX : Int) * cellWidth + padding,
    y1 := (arrow.startY : Int) * cellHeight + padding + 50,
    x2 := (arrow.endX : Int) * cellWidth + padding,
    y2 := (arrow.endY : Int) * cellHeight + padding + 50 }

/-- The `<text>` written by `generateLabel`. -/
structure SvgLabel where
  x : Int
  y : Int
  text : List Char
  deriving DecidableEq, Repr

/-- `generateLabel(label)`. -/
def generateLabel (label : Label) : SvgLabel :=
  { x := (label.x : Int) * cellWidth + padding,
    y := (label.y : Int) * cellHeight + padding + 50,
    text := escapeXML label.text }

/-- The debug lines written when no box was detected: `y` and text of each `<text>`, for the
rows `ys`. -/
def debugLines (grid : List (List Char)) : List Nat → Option (List (Nat × List Char))
  | [] => some []
  | y :: rest =>
    match grid[y]? with
    | none => none
    | some row =>
      match debugLines grid rest with
      | none => none
      | some later => some ((140 + y * 16, escapeXML (row.take 50)) :: later)

/-- The document written by `generateSVG`: the attributes `width` and `height` of the root, the
`x` of the title, the boxes, arrows and labels in the order they are written, and the debug
lines, which are there exactly when `this.boxes` is empty. -/
structure Svg where
  width : Nat
  height : Nat
  titleX : ℚ
  boxes : List SvgBox
  arrows : List SvgArrow
  labels : List SvgLabel
  debug : Option (List (Nat × List Char))
  deriving DecidableEq

/-- `svgWidth` of `generateSVG`. -/
def ASCII2SVG.svgWidth (s : ASCII2SVG) : Nat :=
  max 800 (s.width * cellWidth + 2 * padding)

/-- `svgHeight` of `generateSVG`. -/
def ASCII2SVG.svgHeight (s : ASCII2SVG) : Nat :=
  max 400 (s.height * cellHeight + 2 * padding + 60)

/-- `generateSVG()`. -/
def ASCII2SVG.generateSVG (s : ASCII2SVG) : Option Svg :=
  match generateBoxes s.boxes with
  | none => none
  | some boxes =>
    if s.boxes.length = 0 then
      match debugLines s.grid (List.range (min 10 s.height)) with
      | none => none
      | some lines =>
        some { width := ASCII2SVG.svgWidth s, height := ASCII2SVG.svgHeight s,
               titleX := (ASCII2SVG.svgWidth s : ℚ) / 2, boxes := boxes,
               arrows := s.arrows.map generateArrow, labels := s.labels.map generateLabel,
               debug := some lines }
    else
      some { width := ASCII2SVG.svgWidth s, height := ASCII2SVG.svgHeight s,
             titleX := (ASCII2SVG.svgWidth s : ℚ) / 2, boxes := boxes,
             arrows := s.arrows.map generateArrow, labels := s.labels.map generateLabel,
             debug := none }

/-- The method `convert(asciiText)` of the class: the state of the instance after the call and
the document returned. -/
def ASCII2SVG.convert (s : ASCII2SVG) (asciiText : List Char) : Option (ASCII2SVG × Svg) :=
  match ASCII2SVG.detectBoxesAdvanced (ASCII2SVG.parseASCII s asciiText) with
  | none => none
  | some s2 =>
    match ASCII2SVG.detectArrowsSimple s2 with
    | none => none
    | some s3 =>
      match ASCII2SVG.detectLabels s3 with
      | none => none
      | some s4 =>
        match ASCII2SVG.generateSVG s4 with
        | none => none
        | some svg => some (s4, svg)

/-- `ascii2svg.convert(asciiText)`, the exported function: a new instance for each call. -/
def ascii2svg.convert (asciiText : List Char) : Option Svg :=
  match ASCII2SVG.convert ASCII2SVG.new asciiText with
  | none => none
  | some (_, svg) => some svg

/-! ## Definitions used to state the properties -/

/-- The boxes pushed while the inner loop of `detectBoxes` runs over row `y`. -/
def rowBoxes (lines : List (List Char)) (y : Nat) : List Box :=
  (List.range (width lines)).flatMap (fun x => (cornerBox lines x y).toList)

/-- Row-major order of top-left corners: `a` is scanned strictly before `b`. -/
def Box.before (a b : Box) : Prop :=
  a.y < b.y ∨ (a.y = b.y ∧ a.x < b.x)

/-- The three-line diagram of the end-to-end scenario: box `A`, an arrow, box `B`. -/
def diagramAB : List (List Char) :=
  ["┌───┐   ┌───┐".toList,
   "│ A │──▶│ B │".toList,
   "└───┘   └───┘".toList]

/-- The first occurrences of each key `(from, to, y)` in `edges`, given the connections `earlier`
that came before: a connection is kept when no earlier connection has its key. -/
def firstOccurrencesAfter (earlier : List Edge) : List Edge → List Edge
  | [] => []
  | e :: rest =>
    if e.key ∈ earlier.map Edge.key then firstOccurrencesAfter (earlier ++ [e]) rest
    else e :: firstOccurrencesAfter (earlier ++ [e]) rest

/-- The sub-sequence of `edges` made of the first occurrence of each key, in the original order. -/
def firstOccurrences (edges : List Edge) : List Edge :=
  firstOccurrencesAfter [] edges

/-- The grid `lines` with the character of cell `(x, y)` replaced by `c`. -/
def setCell (lines : List (List Char)) (x y : Nat) (c : Char) : List (List Char) :=
  lines.set y ((lines.getD y []).set x c)

/-- The connection with source and destination exchanged and kind `'←'`. -/
def Edge.reversed (e : Edge) : Edge :=
  { from_ := e.to_, to_ := e.from_, y := e.y, kind := '←' }

/-- A box followed by a dangling arrow that ends at the grid edge. -/
def diagramDangling : List (List Char) :=
  ["┌───┐".toList,
   "│ A │──▶".toList,
   "└───┘".toList]

/-- A row is non-blank when it holds a character that is not whitespace. -/
def nonBlank (r : List Char) : Bool :=
  r.any (fun c => !isWs c)

/-- The rows without the leading and the trailing rows that are empty. -/
def dropBlankMargins (rows : List (List Char)) : List (List Char) :=
  ((rows.dropWhile List.isEmpty).reverse.dropWhile List.isEmpty).reverse

/-- A box whose interior rows are `Hello` after 4 spaces and `World` after 6 spaces. -/
def diagramHello : List (List Char) :=
  ["┌───────────┐".toList,
   "│    Hello  │".toList,
   "│      World│".toList,
   "└───────────┘".toList]

/-- A box whose first interior row is blank. -/
def diagramBlankFirst : List (List Char) :=
  ["┌────┐".toList,
   "│    │".toList,
   "│ Hi │".toList,
   "└────┘".toList]

/-- A box whose first interior row is indented by 2 spaces and whose second row is not. -/
def diagramIndented : List (List Char) :=
  ["┌───────┐".toList,
   "│  Hello│".toList,
   "│World  │".toList,
   "└───────┘".toList]

/-- A rectangle whose top edge holds the junction glyph `┬`. -/
def diagramJunctionTop : List (List Char) :=
  ["┌─┬─┐".toList,
   "│   │".toList,
   "└───┘".toList]

/-- A rectangle whose bottom edge holds the junction glyph `┴`. -/
def diagramJunctionBottom : List (List Char) :=
  ["┌───┐".toList,
   "│   │".toList,
   "└─┴─┘".toList]

/-- A rectangle whose left and right edges hold the junction glyphs `├` and `┤`. -/
def diagramJunctionSide : List (List Char) :=
  ["┌───┐".toList,
   "├   ┤".toList,
   "└───┘".toList]

/-- One box drawn with the light glyphs. -/
def diagramLight : List (List Char) :=
  ["┌───┐".toList,
   "│ A │".toList,
   "└───┘".toList]

/-- The box of `diagramLight` drawn entirely with heavy glyphs. -/
def diagramHeavy : List (List Char) :=
  ["┏━━━┓".toList,
   "┃ A ┃".toList,
   "┗━━━┛".toList]

/-- The box of `diagramLight` drawn entirely with double-line glyphs. -/
def diagramDouble : List (List Char) :=
  ["╔═══╗".toList,
   "║ A ║".toList,
   "╚═══╝".toList]

/-- The box of `diagramLight` drawn entirely with the ASCII fallback. -/
def diagramAscii : List (List Char) :=
  ["+---+".toList,
   "| A |".toList,
   "+---+".toList]

/-- The box of `diagramLight` with light corners and heavy edges. -/
def diagramHeavyEdges : List (List Char) :=
  ["┌━━━┐".toList,
   "┃ A ┃".toList,
   "└━━━┘".toList]

/-- The box of `diagramLight` with light corners and ASCII edges. -/
def diagramAsciiEdges : List (List Char) :=
  ["┌---┐".toList,
   "| A |".toList,
   "└---┘".toList]

/-- Two boxes joined on row 1 by a line that holds two forward arrowheads. -/
def diagramTwoHeads : List (List Char) :=
  ["┌───┐    ┌───┐".toList,
   "│ A │─▶─▶│ B │".toList,
   "└───┘    └───┘".toList]

/-- Two boxes joined by a forward arrow on each of the adjacent rows 1 and 2. -/
def diagramStacked : List (List Char) :=
  ["┌───┐   ┌───┐".toList,
   "│ A │──▶│ B │".toList,
   "│   │──▶│   │".toList,
   "└───┘   └───┘".toList]

/-- The diagram `diagramAB` with the arrowhead replaced by `→`. -/
def diagramRightwards : List (List Char) :=
  ["┌───┐   ┌───┐".toList,
   "│ A │──→│ B │".toList,
   "└───┘   └───┘".toList]

/-- The boxes that the two loops of `parseASCII` push on the grid `lines`, cell by cell in
row-major order, a cell whose body does not return counting for nothing. -/
def Parser.boxesOf (lines : List (List Char)) : List ParsedBox :=
  (List.range lines.length).flatMap (fun y =>
    (List.range (width lines)).flatMap (fun x => (Parser.boxesAt lines x y).getD []))

/-- The coordinates `(x, y, xr, yb)` of a box of `detectBoxes`. -/
def Box.coords (b : Box) : Nat × Nat × Nat × Nat := (b.x, b.y, b.xr, b.yb)

/-- The coordinates `(x, y, xr, yb)` of a box of `parseASCII`. -/
def ParsedBox.coords (b : ParsedBox) : Nat × Nat × Nat × Nat := (b.x, b.y, b.xr, b.yb)

/-- A rectangle whose corners are drawn, whose top and left edges are drawn, and whose bottom
and right edges are not. -/
def textOpenBox : List Char := "┌─┐\n│ x\n└ ┘".toList

/-- A closed light rectangle of 5 columns and 3 rows, as a text. -/
def textSmallBox : List Char := "┌───┐\n│ A │\n└───┘".toList

/-- The box with the smallest `x`, the first one in the order of the list among those with
that `x`; `none` on the empty list. -/
def firstMinByX : List ParsedBox → Option ParsedBox
  | [] => none
  | a :: rest =>
    match firstMinByX rest with
    | none => some a
    | some m => if a.x ≤ m.x then some a else some m

/-- The box with the smallest `x` (`k = 0`), the second smallest (`k = 1`), and so on, ties
broken by the order of the list: the smallest one after the `k` smaller ones are taken out. -/
def nthByX : Nat → List ParsedBox → Option ParsedBox
  | 0, l => firstMinByX l
  | k + 1, l =>
    match firstMinByX l with
    | none => none
    | some m => nthByX k (l.erase m)

/-- The content of a box, empty for a missing box. -/
def contentOf : Option ParsedBox → List (List Char)
  | some b => b.content
  | none => []

/-- Two closed rectangles side by side, the right one first in detection order: its top-left
corner is one row higher. -/
def textTwoBoxes : List Char :=
  "      ┌───┐\n┌───┐ │ R │\n│ L │ └───┘\n└───┘".toList

/-- The grid of an instance has `height` rows of `width` cells each. -/
def WellFormed (s : ASCII2SVG) : Prop :=
  s.grid.length = s.height ∧ ∀ row ∈ s.grid, row.length = s.width

/-- Two instances with the same grid, width and height. -/
def SameGrid (s t : ASCII2SVG) : Prop :=
  s.grid = t.grid ∧ s.width = t.width ∧ s.height = t.height

/-- The candidate corners in the order `detectBoxesAdvanced` collects them: the cells `(x, y)`
with `y < height - 2` and `x < width - 2`, row by row, for which `couldBeTopLeft` is true. -/
def cornerList (s : ASCII2SVG) : List (Nat × Nat) :=
  (List.range (s.height - 2)).flatMap (fun y =>
    (List.range (s.width - 2)).flatMap (fun x =>
      if ASCII2SVG.couldBeTopLeft s x y = some true then [(x, y)] else []))

/-- The box that `findBoxFromCorner` returns at the corner `c` when it is at least 10 columns
wide and 3 rows high; nothing for a smaller box or for `null`. -/
def recordedAt (s : ASCII2SVG) (c : Nat × Nat) : List LooseBox :=
  match ASCII2SVG.findBoxFromCorner s c.1 c.2 with
  | some (some b) => if b.width ≥ 10 ∧ b.height ≥ 3 then [b] else []
  | _ => []

/-- The boxes of `recordedAt` over a list of corners. -/
def recorded (s : ASCII2SVG) (cs : List (Nat × Nat)) : List LooseBox :=
  cs.flatMap (recordedAt s)

/-- The boxes with the style indices `n % 5`, `(n + 1) % 5`, ... in turn. -/
def restyleFrom : Nat → List LooseBox → List LooseBox
  | _, [] => []
  | n, b :: rest => { b with styleIndex := n % boxStylesLength } :: restyleFrom (n + 1) rest

/-- A box without its style index. -/
def unstyled (b : LooseBox) : LooseBox := { b with styleIndex := 0 }

/-- The arrows that `detectArrowsSimple` pushes on the grid of `s`. -/
def arrowList (s : ASCII2SVG) : List Arrow :=
  (List.range s.height).flatMap (fun y =>
    (List.range (s.width - 1)).flatMap (fun x => (ASCII2SVG.arrowsAt s x y).getD []))

/-- The labels that `detectLabels` pushes on the grid of `s`. -/
def labelList (s : ASCII2SVG) : List Label :=
  (List.range s.height).flatMap (fun y =>
    ((match s.grid[y]? with
      | none => none
      | some line => labelsOfLine line y patterns) : Option (List Label)).getD [])

/-- A closed light rectangle of 10 columns and 3 rows, as a text. -/
def textWideBox : List Char := "┌────────┐\n│ Hello  │\n└────────┘".toList

/-- A rectangle of 5 columns whose bottom-right corner glyph sits one column to the right of
the end of its bottom edge. -/
def textShiftedCorner : List Char := "┌───┐ \n│   │ \n└───x┘".toList

/-- A rectangle of 5 columns with a letter in the place of its bottom-right corner. -/
def textNoCorner : List Char := "┌───┐\n│ A │\n└───x".toList

/-- The number of items of a pattern that consume a character in every match. -/
def minLen : List Item → Nat
  | [] => 0
  | Item.one _ :: rest => minLen rest + 1
  | Item.opt _ :: rest => minLen rest
  | Item.star _ :: rest => minLen rest

/-- Every box of the instance has a style index inside `options.boxStyles`. -/
def Styled (s : ASCII2SVG) : Prop :=
  ∀ b ∈ s.boxes, b.styleIndex < boxStylesLength

/-- The state after the three detectors of `convert` have run on the parsed state `s`: the
boxes, arrows and labels of the grid appended to the three arrays. -/
def afterDetection (s : ASCII2SVG) : ASCII2SVG :=
  { s with
    boxes := s.boxes ++ restyleFrom s.boxes.length (recorded s (cornerList s)),
    arrows := s.arrows ++ arrowList s,
    labels := s.labels ++ labelList s }

/-- The cell `(x, y)` of the grid exists and holds one of the arrowheads. -/
def arrowHeadAt (s : ASCII2SVG) (x y : Nat) : Bool :=
  match cellAt s.grid x y with
  | some c => isArrowChar c
  | none => false

/-- The cell `(x, y)` of the grid exists and holds one of `─`, `-`, `═`. -/
def shaftAt (s : ASCII2SVG) (x y : Nat) : Bool :=
  match cellAt s.grid x y with
  | some c => isShaftChar c
  | none => false

/-- A row with two arrows, the second one with a shaft of a single cell. -/
def textArrows : List Char := "a──▶b-> c".toList

/-- The text with the four entities `&amp;`, `&lt;`, `&gt;`, `&quot;` replaced back in one pass
from left to right; `skip` characters of an entity are still to be passed over. -/
def unescapeFrom : Nat → List Char → List Char
  | _, [] => []
  | skip + 1, _ :: rest => unescapeFrom skip rest
  | 0, c :: rest =>
    if c = '&' then
      if "amp;".toList.isPrefixOf rest then '&' :: unescapeFrom 4 rest
      else if "lt;".toList.isPrefixOf rest then '<' :: unescapeFrom 3 rest
      else if "gt;".toList.isPrefixOf rest then '>' :: unescapeFrom 3 rest
      else if "quot;".toList.isPrefixOf rest then '"' :: unescapeFrom 5 rest
      else c :: unescapeFrom 0 rest
    else c :: unescapeFrom 0 rest

/-- The inverse of `escapeHTML`. -/
def unescapeHTML (s : List Char) : List Char := unescapeFrom 0 s

/-- What follows an ampersand is the rest of one of the four entities. -/
def startsEntity (post : List Char) : Bool :=
  "amp;".toList.isPrefixOf post || "lt;".toList.isPrefixOf post ||
  "gt;".toList.isPrefixOf post || "quot;".toList.isPrefixOf post

/-- Every ampersand of the text starts one of the four entities. -/
def ampsOk : List Char → Bool
  | [] => true
  | c :: rest => (c != '&' || startsEntity rest) && ampsOk rest

/-! ## The grid accessor -/

theorem chAt_nat (lines : List (List Char)) (x y : Nat) :
    chAt lines x y = (lines.getD y []).getD x ' ' := by
  unfold chAt height
  by_cases hy : y < lines.length
  · have h1 : ¬ ((y : Int) < 0 ∨ (y : Int) ≥ (lines.length : Int)) := by omega
    rw [if_neg h1]
    simp only [Int.toNat_ofNat]
    by_cases hx : x < (lines.getD y []).length
    · have h2 : ¬ ((x : Int) < 0 ∨ (x : Int) ≥ ((lines.getD y []).length : Int)) := by omega
      rw [if_neg h2]
    · have h2 : ((x : Int) < 0 ∨ (x : Int) ≥ ((lines.getD y []).length : Int)) := by omega
      rw [if_pos h2]
      rw [List.getD_eq_default]; omega
  · have h1 : ((y : Int) < 0 ∨ (y : Int) ≥ (lines.length : Int)) := by omega
    rw [if_pos h1]
    rw [List.getD_eq_default lines [] (by omega)]
    simp

theorem chAt_get (lines : List (List Char)) (x y : Int)
    (hy : y.toNat < lines.length) (hx : x.toNat < (lines.get ⟨y.toNat, hy⟩).length)
    (hy0 : 0 ≤ y) (hx0 : 0 ≤ x) :
    chAt lines x y = (lines.get ⟨y.toNat, hy⟩).get ⟨x.toNat, hx⟩ := by
  obtain ⟨j, rfl⟩ := Int.eq_ofNat_of_zero_le hy0
  obtain ⟨i, rfl⟩ := Int.eq_ofNat_of_zero_le hx0
  rw [chAt_nat]
  simp only [Int.toNat_ofNat] at hy hx ⊢
  simp only [List.getD_eq_getElem?_getD, List.get_eq_getElem]
  rw [List.getElem?_eq_getElem hy]
  simp only [Option.getD_some]
  simp only [List.get_eq_getElem] at hx
  rw [List.getElem?_eq_getElem hx]
  rfl

theorem chAt_blank (lines : List (List Char)) (x y : Int)
    (h : y < 0 ∨ y ≥ (height lines : Int) ∨ x < 0 ∨ x ≥ ((lines.getD y.toNat []).length : Int)) :
    chAt lines x y = ' ' := by
  unfold chAt
  by_cases h1 : y < 0 ∨ y ≥ (height lines : Int)
  · rw [if_pos h1]
  · rw [if_neg h1]
    have h2 : x < 0 ∨ x ≥ ((lines.getD y.toNat []).length : Int) := by
      rcases h with h | h | h | h
      · exact absurd (Or.inl h) h1
      · exact absurd (Or.inr h) h1
      · exact Or.inl h
      · exact Or.inr h
    simp only [h2, if_true]

theorem chAt_cases (lines : List (List Char)) (x y : Int) :
    chAt lines x y =
      if hy : 0 ≤ y ∧ y < (height lines : Int) then
        if hx : 0 ≤ x ∧
            x < (((lines.get ⟨y.toNat, by unfold height at hy; omega⟩).length : Nat) : Int) then
          (lines.get ⟨y.toNat, by unfold height at hy; omega⟩).get ⟨x.toNat, by omega⟩
        else ' '
      else ' ' := by
  by_cases hy : 0 ≤ y ∧ y < (height lines : Int)
  · rw [dif_pos hy]
    have hlen : y.toNat < lines.length := by unfold height at hy; omega
    by_cases hx : 0 ≤ x ∧ x < (((lines.get ⟨y.toNat, hlen⟩).length : Nat) : Int)
    · rw [dif_pos hx]
      exact chAt_get lines x y hlen (by omega) hy.1 hx.1
    · rw [dif_neg hx]
      apply chAt_blank
      have hline : lines.getD y.toNat [] = lines.get ⟨y.toNat, hlen⟩ := by
        simp [List.getD_eq_getElem?_getD, List.getElem?_eq_getElem hlen]
      rw [hline]
      omega
  · rw [dif_neg hy]
    apply chAt_blank
    omega

/-- C1: for every input text and all integers `x`, `y`, `chAt(x, y)` is the character
`lines[y][x]` when `0 <= y < height` and `0 <= x < lines[y].length`, and the blank `' '` in
every other case; `chAt` is a total function, so it never fails. -/
theorem chAt_in_grid_or_blank (text : List Char) (x y : Int) :
    chAt (linesOf text) x y =
      if hy : 0 ≤ y ∧ y < (height (linesOf text) : Int) then
        if hx : 0 ≤ x ∧
            x < ((((linesOf text).get ⟨y.toNat, by unfold height at hy; omega⟩).length : Nat) : Int) then
          ((linesOf text).get ⟨y.toNat, by unfold height at hy; omega⟩).get ⟨x.toNat, by omega⟩
        else ' '
      else ' ' :=
  chAt_cases (linesOf text) x y

/-! ## Bounded upward scans -/

theorem whileUp_ge (bound : Nat) (p : Nat → Bool) (fuel i : Nat) :
    i ≤ whileUp bound p fuel i := by
  induction fuel generalizing i with
  | zero => simp [whileUp]
  | succ f ih =>
    unfold whileUp
    split
    · exact Nat.le_trans (Nat.le_succ i) (ih (i + 1))
    · exact Nat.le_refl i

theorem whileUp_between (bound : Nat) (p : Nat → Bool) (fuel i k : Nat)
    (h1 : i ≤ k) (h2 : k < whileUp bound p fuel i) : k < bound ∧ p k = true := by
  induction fuel generalizing i with
  | zero => simp [whileUp] at h2; omega
  | succ f ih =>
    unfold whileUp at h2
    split at h2
    · rename_i hc
      by_cases hik : i = k
      · subst hik; exact hc
      · exact ih (i + 1) (by omega) h2
    · omega

theorem whileUp_stop (bound : Nat) (p : Nat → Bool) (fuel i : Nat) (hf : bound - i ≤ fuel) :
    ¬ (whileUp bound p fuel i < bound ∧ p (whileUp bound p fuel i) = true) := by
  induction fuel generalizing i with
  | zero =>
    simp only [whileUp]
    intro h
    omega
  | succ f ih =>
    unfold whileUp
    split
    · exact ih (i + 1) (by omega)
    · assumption

theorem whileUp_eq (bound : Nat) (p : Nat → Bool) (fuel i t : Nat)
    (h0 : i ≤ t) (hf : t - i ≤ fuel)
    (hb : ∀ k, i ≤ k → k < t → k < bound ∧ p k = true)
    (hs : ¬ (t < bound ∧ p t = true)) :
    whileUp bound p fuel i = t := by
  induction fuel generalizing i with
  | zero => simp only [whileUp]; omega
  | succ f ih =>
    unfold whileUp
    by_cases hit : i = t
    · subst hit
      rw [if_neg hs]
    · rw [if_pos (hb i (Nat.le_refl i) (by omega))]
      exact ih (i + 1) (by omega) (by omega) (fun k hk1 hk2 => hb k (by omega) hk2)

/-- More fuel than `bound - i` never changes the result: the loop has left by its own test. -/
theorem whileUp_fuel (bound : Nat) (p : Nat → Bool) (fuel i : Nat) (hf : bound - i ≤ fuel) :
    whileUp bound p fuel i = whileUp bound p (bound - i) i := by
  apply whileUp_eq bound p fuel i _ (whileUp_ge bound p _ i)
  · have := whileUp_ge bound p (bound - i) i
    by_cases hlt : i < whileUp bound p (bound - i) i
    · have := (whileUp_between bound p (bound - i) i (whileUp bound p (bound - i) i - 1)
        (by omega) (by omega)).1
      omega
    · omega
  · intro k hk1 hk2
    exact whileUp_between bound p _ i k hk1 hk2
  · exact whileUp_stop bound p _ i (Nat.le_refl _)

/-! ## Width and non-blank cells -/

theorem foldl_max_ge (l : List Nat) (a : Nat) : a ≤ l.foldl max a := by
  induction l generalizing a with
  | nil => simp
  | cons b l ih => exact Nat.le_trans (Nat.le_max_left a b) (ih (max a b))

theorem mem_le_foldl_max (l : List Nat) (a n : Nat) (h : n ∈ l) : n ≤ l.foldl max a := by
  induction l generalizing a with
  | nil => simp at h
  | cons b l ih =>
    rcases List.mem_cons.1 h with h | h
    · subst h
      exact Nat.le_trans (Nat.le_max_right a n) (foldl_max_ge l (max a n))
    · exact ih (max a b) h

theorem length_le_width (lines : List (List Char)) (l : List Char) (h : l ∈ lines) :
    l.length ≤ width lines :=
  mem_le_foldl_max _ 0 _ (List.mem_map_of_mem _ h)

theorem chAt_ne_blank (lines : List (List Char)) (x y : Nat) (h : chAt lines x y ≠ ' ') :
    y < height lines ∧ x < (lines.getD y []).length ∧ x < width lines := by
  rw [chAt_nat] at h
  have hy : y < lines.length := by
    by_contra hc
    rw [List.getD_eq_default lines [] (by omega)] at h
    simp at h
  have hx : x < (lines.getD y []).length := by
    by_contra hc
    rw [List.getD_eq_default _ _ (by omega)] at h
    exact h rfl
  refine ⟨hy, hx, ?_⟩
  have hmem : lines.getD y [] ∈ lines := by
    rw [List.getD_eq_getElem _ _ hy]
    exact List.getElem_mem hy
  exact Nat.lt_of_lt_of_le hx (length_le_width lines _ hmem)

/-! ## The box detector -/

theorem okRows_iff (lines : List (List Char)) (x y xr yb : Nat) :
    okRows lines x y xr yb = true ↔
      ∀ xi : Nat, x < xi → xi < xr →
        isHLine (chAt lines xi y) = true ∧ isHLine (chAt lines xi yb) = true := by
  unfold okRows
  rw [List.all_eq_true]
  constructor
  · intro h xi h1 h2
    have := h xi (by rw [List.mem_range'_1]; omega)
    simpa using this
  · intro h xi hm
    rw [List.mem_range'_1] at hm
    have := h xi (by omega) (by omega)
    simpa using this

theorem okCols_iff (lines : List (List Char)) (x y xr yb : Nat) :
    okCols lines x y xr yb = true ↔
      ∀ yi : Nat, y < yi → yi < yb →
        isVLine (chAt lines x yi) = true ∧ isVLine (chAt lines xr yi) = true := by
  unfold okCols
  rw [List.all_eq_true]
  constructor
  · intro h yi h1 h2
    have := h yi (by rw [List.mem_range'_1]; omega)
    simpa using this
  · intro h yi hm
    rw [List.mem_range'_1] at hm
    have := h yi (by omega) (by omega)
    simpa using this

theorem scanTop_gt (lines : List (List Char)) (x y : Nat) : x < scanTop lines x y :=
  whileUp_ge _ _ _ (x + 1)

theorem scanLeftEdge_gt (lines : List (List Char)) (x y : Nat) : y < scanLeftEdge lines x y :=
  whileUp_ge _ _ _ (y + 1)

theorem cornerBox_some (lines : List (List Char)) (x y : Nat) (b : Box)
    (h : cornerBox lines x y = some b) :
    b.x = x ∧ b.y = y ∧ b.xr = scanTop lines x y ∧ b.yb = scanLeftEdge lines x y ∧
      Closed lines b.x b.y b.xr b.yb ∧ b.label = labelOf (innerRows lines b.x b.y b.xr b.yb) := by
  unfold cornerBox at h
  simp only at h
  split at h
  · exact absurd h (by simp)
  rename_i h1
  split at h
  · exact absurd h (by simp)
  rename_i h2
  split at h
  · exact absurd h (by simp)
  rename_i h3
  split at h
  · exact absurd h (by simp)
  rename_i h4
  split at h
  · exact absurd h (by simp)
  rename_i h5
  split at h
  · exact absurd h (by simp)
  rename_i h6
  simp only [Option.some.injEq] at h
  subst h
  simp only [ne_eq, Decidable.not_not] at h1 h2 h3 h4
  simp only [Bool.not_eq_false] at h5 h6
  refine ⟨rfl, rfl, rfl, rfl, ⟨scanTop_gt lines x y, scanLeftEdge_gt lines x y, h1, h2, h3, h4,
    (okRows_iff _ _ _ _ _).1 h5, (okCols_iff _ _ _ _ _).1 h6⟩, rfl⟩

theorem scanTop_of_closed (lines : List (List Char)) (x y xr yb : Nat)
    (h : Closed lines x y xr yb) : scanTop lines x y = xr := by
  obtain ⟨hx, _, _, htr, _, _, hrows, _⟩ := h
  have hw : xr < width lines := (chAt_ne_blank lines xr y (by rw [htr]; decide)).2.2
  unfold scanTop
  apply whileUp_eq
  · omega
  · omega
  · intro k hk1 hk2
    exact ⟨by omega, (hrows k (by omega) hk2).1⟩
  · rw [htr]
    intro hc
    exact absurd hc.2 (by decide)

theorem scanLeftEdge_of_closed (lines : List (List Char)) (x y xr yb : Nat)
    (h : Closed lines x y xr yb) : scanLeftEdge lines x y = yb := by
  obtain ⟨_, hy, _, _, hbl, _, _, hcols⟩ := h
  have hh : yb < height lines := (chAt_ne_blank lines x yb (by rw [hbl]; decide)).1
  unfold scanLeftEdge
  apply whileUp_eq
  · omega
  · omega
  · intro k hk1 hk2
    exact ⟨by omega, (hcols k (by omega) hk2).1⟩
  · rw [hbl]
    intro hc
    exact absurd hc.2 (by decide)

theorem cornerBox_of_closed (lines : List (List Char)) (x y xr yb : Nat)
    (h : Closed lines x y xr yb) :
    cornerBox lines x y =
      some { x := x, y := y, xr := xr, yb := yb, label := labelOf (innerRows lines x y xr yb) } := by
  have hxr := scanTop_of_closed lines x y xr yb h
  have hyb := scanLeftEdge_of_closed lines x y xr yb h
  obtain ⟨_, _, h1, h2, h3, h4, h5, h6⟩ := h
  unfold cornerBox
  simp only [hxr, hyb, h1, h2, h3, h4, (okRows_iff _ _ _ _ _).2 h5, (okCols_iff _ _ _ _ _).2 h6]
  simp

theorem detectStep_eq (lines : List (List Char)) (y : Nat) (st : DetectState) (x : Nat) :
    detectStep lines y st x =
      if (x, y) ∈ st.used then st
      else
        match cornerBox lines x y with
        | none => st
        | some b => { boxes := st.boxes ++ [b], used := (x, y) :: st.used } := by
  unfold detectStep cornerBox
  by_cases hu : (x, y) ∈ st.used
  · simp only [hu, if_true]
    split <;> rfl
  · simp only [hu, if_false]
    split
    · rfl
    split
    · rfl
    split
    · rfl
    split
    · rfl
    split
    · rfl
    split
    · rfl
    rfl

theorem foldl_detectStep (lines : List (List Char)) (y : Nat) (xs : List Nat) (hnd : xs.Nodup)
    (st : DetectState) (h : ∀ x ∈ xs, (x, y) ∉ st.used) :
    (xs.foldl (detectStep lines y) st).boxes =
        st.boxes ++ xs.flatMap (fun x => (cornerBox lines x y).toList) ∧
      ∀ k ∈ (xs.foldl (detectStep lines y) st).used, k ∈ st.used ∨ k.2 = y := by
  induction xs generalizing st with
  | nil => exact ⟨by simp, fun k hk => Or.inl hk⟩
  | cons x xs ih =>
    rw [List.nodup_cons] at hnd
    have hx : (x, y) ∉ st.used := h x (List.mem_cons_self x xs)
    have hstep : (detectStep lines y st x).boxes = st.boxes ++ (cornerBox lines x y).toList ∧
        ∀ k ∈ (detectStep lines y st x).used, k ∈ st.used ∨ k = (x, y) := by
      rw [detectStep_eq, if_neg hx]
      cases cornerBox lines x y with
      | none => exact ⟨by simp, fun k hk => Or.inl hk⟩
      | some b =>
        refine ⟨by simp, ?_⟩
        intro k hk
        simp only [List.mem_cons] at hk
        rcases hk with hk | hk
        · exact Or.inr hk
        · exact Or.inl hk
    have hrest : ∀ x2 ∈ xs, (x2, y) ∉ (detectStep lines y st x).used := by
      intro x2 hx2 hmem
      rcases hstep.2 _ hmem with hk | hk
      · exact h x2 (List.mem_cons_of_mem x hx2) hk
      · have : x2 = x := by simpa using congrArg Prod.fst hk
        subst this
        exact hnd.1 hx2
    obtain ⟨ih1, ih2⟩ := ih hnd.2 (detectStep lines y st x) hrest
    rw [List.foldl_cons, List.flatMap_cons, ih1, hstep.1, List.append_assoc]
    refine ⟨rfl, ?_⟩
    intro k hk
    rcases ih2 k hk with hk2 | hk2
    · rcases hstep.2 k hk2 with hk3 | hk3
      · exact Or.inl hk3
      · exact Or.inr (by rw [hk3])
    · exact Or.inr hk2

theorem foldl_detectRow (lines : List (List Char)) (ys : List Nat) (hnd : ys.Nodup)
    (st : DetectState) (h : ∀ y ∈ ys, ∀ k ∈ st.used, k.2 ≠ y) :
    (ys.foldl (detectRow lines) st).boxes = st.boxes ++ ys.flatMap (rowBoxes lines) ∧
      ∀ k ∈ (ys.foldl (detectRow lines) st).used, k ∈ st.used ∨ k.2 ∈ ys := by
  induction ys generalizing st with
  | nil => exact ⟨by simp, fun k hk => Or.inl hk⟩
  | cons y ys ih =>
    rw [List.nodup_cons] at hnd
    have hrow := foldl_detectStep lines y (List.range (width lines)) (List.nodup_range _) st
      (fun x _ hmem => h y (List.mem_cons_self y ys) (x, y) hmem rfl)
    have hrest : ∀ y2 ∈ ys, ∀ k ∈ (detectRow lines st y).used, k.2 ≠ y2 := by
      intro y2 hy2 k hk
      rcases hrow.2 k hk with hk2 | hk2
      · exact h y2 (List.mem_cons_of_mem y hy2) k hk2
      · rw [hk2]
        intro hc
        subst hc
        exact hnd.1 hy2
    obtain ⟨ih1, ih2⟩ := ih hnd.2 (detectRow lines st y) hrest
    rw [List.foldl_cons, List.flatMap_cons, ih1]
    refine ⟨?_, ?_⟩
    · unfold detectRow rowBoxes
      rw [hrow.1, List.append_assoc]
    · intro k hk
      rcases ih2 k hk with hk2 | hk2
      · rcases hrow.2 k hk2 with hk3 | hk3
        · exact Or.inl hk3
        · exact Or.inr (by rw [hk3]; exact List.mem_cons_self y ys)
      · exact Or.inr (List.mem_cons_of_mem y hk2)

/-- The key set `used` never stops a cell: `detectBoxes` is the row-major list of `cornerBox`. -/
theorem detectBoxes_eq (lines : List (List Char)) :
    detectBoxes lines = (List.range (height lines)).flatMap (rowBoxes lines) := by
  unfold detectBoxes
  rw [(foldl_detectRow lines (List.range (height lines)) (List.nodup_range _)
    { boxes := [], used := [] } (by simp)).1]
  simp

theorem mem_detectBoxes (lines : List (List Char)) (b : Box) :
    b ∈ detectBoxes lines ↔
      ∃ y, y < height lines ∧ ∃ x, x < width lines ∧ cornerBox lines x y = some b := by
  rw [detectBoxes_eq]
  simp only [List.mem_flatMap, List.mem_range, rowBoxes, Option.mem_toList, Option.mem_def]

theorem detectBoxes_closed (lines : List (List Char)) (b : Box) (hb : b ∈ detectBoxes lines) :
    Closed lines b.x b.y b.xr b.yb := by
  obtain ⟨y, _, x, _, h⟩ := (mem_detectBoxes lines b).1 hb
  exact (cornerBox_some lines x y b h).2.2.2.2.1

theorem detectBoxes_label (lines : List (List Char)) (b : Box) (hb : b ∈ detectBoxes lines) :
    b.label = labelOf (innerRows lines b.x b.y b.xr b.yb) := by
  obtain ⟨y, _, x, _, h⟩ := (mem_detectBoxes lines b).1 hb
  exact (cornerBox_some lines x y b h).2.2.2.2.2

/-- C2: closure soundness of `detectBoxes`: every returned box has `x < xr`, `y < yb`, the four
corner glyphs at its corners, horizontal-line glyphs strictly between the corners on rows `y`
and `yb`, and vertical-line glyphs strictly between the corners on columns `x` and `xr`. -/
theorem detectBoxes_closure_sound (lines : List (List Char)) (b : Box)
    (hb : b ∈ detectBoxes lines) :
    b.x < b.xr ∧ b.y < b.yb ∧
    chAt lines b.x b.y = '┌' ∧ chAt lines b.xr b.y = '┐' ∧
    chAt lines b.x b.yb = '└' ∧ chAt lines b.xr b.yb = '┘' ∧
    (∀ xi : Nat, b.x < xi → xi < b.xr →
      isHLine (chAt lines xi b.y) = true ∧ isHLine (chAt lines xi b.yb) = true) ∧
    (∀ yi : Nat, b.y < yi → yi < b.yb →
      isVLine (chAt lines b.x yi) = true ∧ isVLine (chAt lines b.xr yi) = true) :=
  detectBoxes_closed lines b hb

theorem detectBoxes_closure_sound_witness :
    ({ x := 0, y := 0, xr := 4, yb := 2, label := ['A'] } : Box) ∈ detectBoxes diagramAB ∧
    (0 < 4 ∧ 0 < 2 ∧
      chAt diagramAB (0 : Nat) (0 : Nat) = '┌' ∧ chAt diagramAB (4 : Nat) (0 : Nat) = '┐' ∧
      chAt diagramAB (0 : Nat) (2 : Nat) = '└' ∧ chAt diagramAB (4 : Nat) (2 : Nat) = '┘' ∧
      (∀ xi : Nat, 0 < xi → xi < 4 →
        isHLine (chAt diagramAB xi (0 : Nat)) = true ∧ isHLine (chAt diagramAB xi (2 : Nat)) = true) ∧
      (∀ yi : Nat, 0 < yi → yi < 2 →
        isVLine (chAt diagramAB (0 : Nat) yi) = true ∧
          isVLine (chAt diagramAB (4 : Nat) yi) = true)) :=
  ⟨by decide,
    detectBoxes_closure_sound diagramAB { x := 0, y := 0, xr := 4, yb := 2, label := ['A'] }
      (by decide)⟩

theorem rowBoxes_mem (lines : List (List Char)) (y : Nat) (b : Box) (hb : b ∈ rowBoxes lines y) :
    ∃ x, x < width lines ∧ cornerBox lines x y = some b := by
  simpa only [rowBoxes, List.mem_flatMap, List.mem_range, Option.mem_toList, Option.mem_def]
    using hb

theorem rowBoxes_pairwise (lines : List (List Char)) (y : Nat) :
    (rowBoxes lines y).Pairwise Box.before := by
  unfold rowBoxes
  rw [List.pairwise_flatMap]
  constructor
  · intro x _
    cases cornerBox lines x y <;> simp
  · refine (List.pairwise_lt_range (width lines)).imp ?_
    intro x1 x2 hlt b1 hb1 b2 hb2
    rw [Option.mem_toList, Option.mem_def] at hb1 hb2
    have h1 := cornerBox_some lines x1 y b1 hb1
    have h2 := cornerBox_some lines x2 y b2 hb2
    right
    exact ⟨by rw [h1.2.1, h2.2.1], by rw [h1.1, h2.1]; exact hlt⟩

/-- The returned boxes are in strictly increasing row-major order of their top-left corners. -/
theorem detectBoxes_pairwise (lines : List (List Char)) :
    (detectBoxes lines).Pairwise Box.before := by
  rw [detectBoxes_eq, List.pairwise_flatMap]
  constructor
  · intro y _
    exact rowBoxes_pairwise lines y
  · refine (List.pairwise_lt_range (height lines)).imp ?_
    intro y1 y2 hlt b1 hb1 b2 hb2
    obtain ⟨x1, _, h1⟩ := rowBoxes_mem lines y1 b1 hb1
    obtain ⟨x2, _, h2⟩ := rowBoxes_mem lines y2 b2 hb2
    left
    rw [(cornerBox_some lines x1 y1 b1 h1).2.1, (cornerBox_some lines x2 y2 b2 h2).2.1]
    exact hlt

theorem countP_le_one_of_pairwise {α : Type} (R : α → α → Prop) (p : α → Bool) (l : List α)
    (hp : l.Pairwise R) (hR : ∀ a b, p a = true → p b = true → ¬ R a b) : l.countP p ≤ 1 := by
  induction l with
  | nil => simp
  | cons a l ih =>
    rw [List.pairwise_cons] at hp
    by_cases ha : p a = true
    · rw [List.countP_cons, if_pos ha]
      have : l.countP p = 0 := by
        rw [List.countP_eq_zero]
        intro b hb hpb
        exact hR a b ha hpb (hp.1 b hb)
      omega
    · rw [List.countP_cons, if_neg ha]
      exact ih hp.2

theorem detectBoxes_of_closed (lines : List (List Char)) (x y xr yb : Nat)
    (h : Closed lines x y xr yb) :
    ({ x := x, y := y, xr := xr, yb := yb, label := labelOf (innerRows lines x y xr yb) } : Box) ∈
      detectBoxes lines := by
  rw [mem_detectBoxes]
  have hne : chAt lines x y ≠ ' ' := by rw [h.2.2.1]; decide
  have hin := chAt_ne_blank lines x y hne
  exact ⟨y, hin.1, x, hin.2.2, cornerBox_of_closed lines x y xr yb h⟩

/-- C3: closure completeness of `detectBoxes`: whenever `x < xr`, `y < yb`, the four corner
glyphs stand at `(x, y)`, `(xr, y)`, `(x, yb)`, `(xr, yb)`, the cells strictly between them on
rows `y` and `yb` are horizontal-line glyphs and those on columns `x` and `xr` are vertical-line
glyphs, the returned list holds exactly one box with the coordinates `x, y, xr, yb`; nothing is
assumed about other boxes, so overlap does not matter. -/
theorem detectBoxes_closure_complete (lines : List (List Char)) (x y xr yb : Nat)
    (hx : x < xr) (hy : y < yb)
    (htl : chAt lines x y = '┌') (htr : chAt lines xr y = '┐')
    (hbl : chAt lines x yb = '└') (hbr : chAt lines xr yb = '┘')
    (hrows : ∀ xi : Nat, x < xi → xi < xr →
      isHLine (chAt lines xi y) = true ∧ isHLine (chAt lines xi yb) = true)
    (hcols : ∀ yi : Nat, y < yi → yi < yb →
      isVLine (chAt lines x yi) = true ∧ isVLine (chAt lines xr yi) = true) :
    (detectBoxes lines).countP
      (fun b => decide (b.x = x ∧ b.y = y ∧ b.xr = xr ∧ b.yb = yb)) = 1 := by
  have hclosed : Closed lines x y xr yb := ⟨hx, hy, htl, htr, hbl, hbr, hrows, hcols⟩
  have hle := countP_le_one_of_pairwise Box.before
    (fun b => decide (b.x = x ∧ b.y = y ∧ b.xr = xr ∧ b.yb = yb)) (detectBoxes lines)
    (detectBoxes_pairwise lines) (by
      intro a b ha hb hab
      simp only [decide_eq_true_eq] at ha hb
      unfold Box.before at hab
      omega)
  have hpos : 0 < (detectBoxes lines).countP
      (fun b => decide (b.x = x ∧ b.y = y ∧ b.xr = xr ∧ b.yb = yb)) := by
    rw [List.countP_pos_iff]
    exact ⟨_, detectBoxes_of_closed lines x y xr yb hclosed, by simp⟩
  omega

theorem detectBoxes_closure_complete_witness :
    (detectBoxes diagramAB).countP
      (fun b => decide (b.x = 8 ∧ b.y = 0 ∧ b.xr = 12 ∧ b.yb = 2)) = 1 :=
  detectBoxes_closure_complete diagramAB 8 0 12 2 (by decide) (by decide) (by decide) (by decide)
    (by decide) (by decide)
    (by
      intro xi h1 h2
      have h : xi = 9 ∨ xi = 10 ∨ xi = 11 := by omega
      rcases h with h | h | h <;> subst h <;> decide)
    (by
      intro yi h1 h2
      have h : yi = 1 := by omega
      subst h
      decide)

/-! ## De-duplication of connections -/

theorem firstOccurrencesAfter_sublist (earlier edges : List Edge) :
    (firstOccurrencesAfter earlier edges).Sublist edges := by
  induction edges generalizing earlier with
  | nil => exact List.Sublist.slnil
  | cons e rest ih =>
    unfold firstOccurrencesAfter
    split
    · exact List.Sublist.cons e (ih _)
    · exact List.Sublist.cons₂ e (ih _)

theorem firstOccurrencesAfter_not_earlier (earlier edges : List Edge) :
    ∀ e ∈ firstOccurrencesAfter earlier edges, e.key ∉ earlier.map Edge.key := by
  induction edges generalizing earlier with
  | nil => intro e he; simp [firstOccurrencesAfter] at he
  | cons a rest ih =>
    intro e he
    unfold firstOccurrencesAfter at he
    have hrest : ∀ e2 ∈ firstOccurrencesAfter (earlier ++ [a]) rest,
        e2.key ∉ earlier.map Edge.key := by
      intro e2 he2 hc
      exact ih (earlier ++ [a]) e2 he2 (by
        rw [List.map_append]
        exact List.mem_append_left _ hc)
    split at he
    · exact hrest e he
    · rename_i hnot
      rcases List.mem_cons.1 he with h | h
      · rw [h]; exact hnot
      · exact hrest e h

theorem firstOccurrencesAfter_nodup (earlier edges : List Edge) :
    ((firstOccurrencesAfter earlier edges).map Edge.key).Nodup := by
  induction edges generalizing earlier with
  | nil => simp [firstOccurrencesAfter]
  | cons a rest ih =>
    unfold firstOccurrencesAfter
    split
    · exact ih _
    · rw [List.map_cons, List.nodup_cons]
      refine ⟨?_, ih _⟩
      intro hc
      obtain ⟨e2, he2, hk⟩ := List.mem_map.1 hc
      exact firstOccurrencesAfter_not_earlier (earlier ++ [a]) rest e2 he2 (by
        rw [hk, List.map_append]
        exact List.mem_append_right _ (by simp))

theorem firstOccurrencesAfter_keys (earlier edges : List Edge) :
    ∀ e ∈ edges, e.key ∈ earlier.map Edge.key ∨
      e.key ∈ (firstOccurrencesAfter earlier edges).map Edge.key := by
  induction edges generalizing earlier with
  | nil => intro e he; simp at he
  | cons a rest ih =>
    intro e he
    have hrest : ∀ e2 ∈ rest, e2.key ∈ earlier.map Edge.key ∨ e2.key = a.key ∨
        e2.key ∈ (firstOccurrencesAfter (earlier ++ [a]) rest).map Edge.key := by
      intro e2 he2
      rcases ih (earlier ++ [a]) e2 he2 with h | h
      · rw [List.map_append, List.mem_append] at h
        rcases h with h | h
        · exact Or.inl h
        · exact Or.inr (Or.inl (by simpa using h))
      · exact Or.inr (Or.inr h)
    unfold firstOccurrencesAfter
    split
    · rename_i hin
      rcases List.mem_cons.1 he with h | h
      · rw [h]; exact Or.inl hin
      · rcases hrest e h with h2 | h2 | h2
        · exact Or.inl h2
        · rw [h2]; exact Or.inl hin
        · exact Or.inr h2
    · rcases List.mem_cons.1 he with h | h
      · rw [h]; exact Or.inr (by simp)
      · rcases hrest e h with h2 | h2 | h2
        · exact Or.inl h2
        · exact Or.inr (by rw [h2]; simp)
        · exact Or.inr (by rw [List.map_cons]; exact List.mem_cons_of_mem _ h2)

theorem foldl_uniqSet (uniq : List ((Int × Int × Nat) × Edge)) (earlier edges : List Edge)
    (hkeys : ∀ k, k ∈ uniq.map Prod.fst ↔ k ∈ earlier.map Edge.key) :
    (edges.foldl uniqSet uniq).map Prod.snd =
      uniq.map Prod.snd ++ firstOccurrencesAfter earlier edges := by
  induction edges generalizing uniq earlier with
  | nil => simp [firstOccurrencesAfter]
  | cons e rest ih =>
    rw [List.foldl_cons]
    unfold firstOccurrencesAfter
    by_cases hin : e.key ∈ uniq.map Prod.fst
    · have hstep : uniqSet uniq e = uniq := by unfold uniqSet; rw [if_pos hin]
      rw [hstep, if_pos ((hkeys _).1 hin)]
      apply ih
      intro k
      rw [hkeys k, List.map_append, List.mem_append]
      constructor
      · exact Or.inl
      · rintro (h | h)
        · exact h
        · have : k = e.key := by simpa using h
          rw [this]
          exact (hkeys _).1 hin
    · have hstep : uniqSet uniq e = uniq ++ [(e.key, e)] := by unfold uniqSet; rw [if_neg hin]
      rw [hstep, if_neg (fun hc => hin ((hkeys _).2 hc))]
      rw [ih (uniq ++ [(e.key, e)]) (earlier ++ [e])]
      · simp
      · intro k
        simp only [List.map_append, List.mem_append, List.map_cons, List.map_nil,
          List.mem_singleton]
        rw [hkeys k]

theorem dedupEdges_eq (edges : List Edge) : dedupEdges edges = firstOccurrences edges := by
  unfold dedupEdges firstOccurrences
  rw [foldl_uniqSet [] [] edges (by simp)]
  simp

theorem dedupEdges_subset (edges : List Edge) : ∀ e ∈ dedupEdges edges, e ∈ edges := by
  intro e he
  rw [dedupEdges_eq] at he
  exact (firstOccurrencesAfter_sublist [] edges).subset he

theorem firstOccurrencesAfter_find (earlier edges : List Edge) :
    ∀ e ∈ firstOccurrencesAfter earlier edges,
      edges.find? (fun e2 => decide (e2.key = e.key)) = some e := by
  induction edges generalizing earlier with
  | nil => intro e he; simp [firstOccurrencesAfter] at he
  | cons a rest ih =>
    intro e he
    have hskip : e ∈ firstOccurrencesAfter (earlier ++ [a]) rest →
        (a :: rest).find? (fun e2 => decide (e2.key = e.key)) = some e := by
      intro hmem
      have hne : ¬ a.key = e.key := by
        intro hc
        exact firstOccurrencesAfter_not_earlier (earlier ++ [a]) rest e hmem (by
          rw [← hc, List.map_append]
          exact List.mem_append_right _ (by simp))
      rw [List.find?_cons_of_neg _ (by simpa using hne)]
      exact ih (earlier ++ [a]) e hmem
    unfold firstOccurrencesAfter at he
    split at he
    · exact hskip he
    · rcases List.mem_cons.1 he with h | h
      · subst h
        rw [List.find?_cons_of_pos _ (by simp)]
      · exact hskip h

/-- C6: de-duplication in `detectHorizontalArrows`: the result is the list of the first
occurrences of each key `(from, to, y)` among the raw connections; no two connections of the
result share a key, the result is a sub-sequence of the raw list (original order), every
connection of the result is the first raw connection with its key, and every key of the raw
list is the key of some connection of the result. -/
theorem detectHorizontalArrows_dedup (lines : List (List Char)) (boxes : List Box) :
    detectHorizontalArrows lines boxes = firstOccurrences (rawEdges lines boxes) ∧
    ((detectHorizontalArrows lines boxes).map Edge.key).Nodup ∧
    (detectHorizontalArrows lines boxes).Sublist (rawEdges lines boxes) ∧
    (∀ e ∈ detectHorizontalArrows lines boxes,
      (rawEdges lines boxes).find? (fun e2 => decide (e2.key = e.key)) = some e) ∧
    ∀ e ∈ rawEdges lines boxes, e.key ∈ (detectHorizontalArrows lines boxes).map Edge.key := by
  unfold detectHorizontalArrows
  rw [dedupEdges_eq]
  refine ⟨rfl, firstOccurrencesAfter_nodup [] _, firstOccurrencesAfter_sublist [] _,
    firstOccurrencesAfter_find [] _, ?_⟩
  intro e he
  rcases firstOccurrencesAfter_keys [] _ e he with h | h
  · simp at h
  · exact h

/-! ## Horizontal arrows -/

theorem mem_rawEdges (lines : List (List Char)) (boxes : List Box) (e : Edge) :
    e ∈ rawEdges lines boxes ↔
      ∃ y, y < height lines ∧ ∃ x, x < (lines.getD y []).length ∧ e ∈ arrowAt lines boxes y x := by
  simp only [rawEdges, List.mem_flatMap, List.mem_range]

theorem arrowAt_mem (lines : List (List Char)) (boxes : List Box) (y x : Nat) (e : Edge)
    (he : e ∈ arrowAt lines boxes y x) :
    e.y = y ∧ 0 ≤ e.from_ ∧ 0 ≤ e.to_ ∧ e.from_ ≠ e.to_ ∧
      ((e.kind = '→' ∧ (chAt lines x y = '▶' ∨ chAt lines x y = '>') ∧
          e.from_ = leftBox lines boxes x y ∧ e.to_ = rightBox lines boxes x y) ∨
        (e.kind = '←' ∧ (chAt lines x y = '◀' ∨ chAt lines x y = '<') ∧
          e.from_ = rightBox lines boxes x y ∧ e.to_ = leftBox lines boxes x y)) := by
  unfold arrowAt at he
  simp only at he
  split at he
  · simp at he
  split at he
  · rename_i hc
    split at he
    · rename_i hcond
      rw [List.mem_singleton] at he
      subst he
      exact ⟨rfl, hcond.1, hcond.2.1, hcond.2.2, Or.inl ⟨rfl, hc, rfl, rfl⟩⟩
    · simp at he
  split at he
  · rename_i hc
    split at he
    · rename_i hcond
      rw [List.mem_singleton] at he
      subst he
      exact ⟨rfl, hcond.1, hcond.2.1, hcond.2.2, Or.inr ⟨rfl, hc, rfl, rfl⟩⟩
    · simp at he
  · simp at he

/-- C5: no self-connections: for every grid and every list of boxes, every connection returned
by `detectHorizontalArrows` has `from ≠ to`. -/
theorem detectHorizontalArrows_no_self (lines : List (List Char)) (boxes : List Box) (e : Edge)
    (he : e ∈ detectHorizontalArrows lines boxes) : e.from_ ≠ e.to_ := by
  have hraw := dedupEdges_subset (rawEdges lines boxes) e he
  obtain ⟨y, _, x, _, hmem⟩ := (mem_rawEdges lines boxes e).1 hraw
  exact (arrowAt_mem lines boxes y x e hmem).2.2.2.1

theorem detectHorizontalArrows_no_self_witness :
    ({ from_ := 0, to_ := 1, y := 1, kind := '→' } : Edge) ∈
        detectHorizontalArrows diagramAB (detectBoxes diagramAB) ∧
      (0 : Int) ≠ 1 :=
  ⟨by decide,
    detectHorizontalArrows_no_self diagramAB (detectBoxes diagramAB)
      { from_ := 0, to_ := 1, y := 1, kind := '→' } (by decide)⟩

theorem boxAtFrom_none (x y : Int) (i : Nat) (boxes : List Box)
    (h : ∀ b ∈ boxes, ¬ (x ≥ b.x ∧ x ≤ b.xr ∧ y ≥ b.y ∧ y ≤ b.yb)) :
    boxAtFrom x y i boxes = -1 := by
  induction boxes generalizing i with
  | nil => rfl
  | cons b rest ih =>
    unfold boxAtFrom
    rw [if_neg (h b (List.mem_cons_self b rest))]
    exact ih (i + 1) (fun b2 hb2 => h b2 (List.mem_cons_of_mem b hb2))

theorem boxAt_none (boxes : List Box) (x y : Int)
    (h : ∀ b ∈ boxes, ¬ (x ≥ b.x ∧ x ≤ b.xr ∧ y ≥ b.y ∧ y ≤ b.yb)) :
    boxAt boxes x y = -1 :=
  boxAtFrom_none x y 0 boxes h

theorem scanLeft_range (lines : List (List Char)) (y k : Nat) :
    -1 ≤ scanLeft lines y k ∧ scanLeft lines y k < (k : Int) := by
  induction k with
  | zero => simp [scanLeft]
  | succ k ih =>
    unfold scanLeft
    split
    · omega
    · omega

theorem scanRight_gt (lines : List (List Char)) (y x : Nat) : x < scanRight lines y x :=
  whileUp_ge _ _ _ (x + 1)

theorem leftBox_none (lines : List (List Char)) (boxes : List Box) (x y : Nat)
    (hout : ∀ b ∈ boxes, ∀ c : Int, c ≤ x → ¬ (c ≥ b.x ∧ c ≤ b.xr ∧ (y : Int) ≥ b.y ∧ (y : Int) ≤ b.yb)) :
    leftBox lines boxes x y = -1 := by
  have hr := scanLeft_range lines y x
  unfold leftBox
  simp only
  rw [boxAt_none boxes (scanLeft lines y x) y (fun b hb => hout b hb _ (by omega)),
    boxAt_none boxes (scanLeft lines y x + 1) y (fun b hb => hout b hb _ (by omega))]
  simp

theorem rightBox_none (lines : List (List Char)) (boxes : List Box) (x y : Nat)
    (hout : ∀ b ∈ boxes, ∀ c : Int, (x : Int) ≤ c → ¬ (c ≥ b.x ∧ c ≤ b.xr ∧ (y : Int) ≥ b.y ∧ (y : Int) ≤ b.yb)) :
    rightBox lines boxes x y = -1 := by
  have hr := scanRight_gt lines y x
  unfold rightBox
  simp only
  rw [boxAt_none boxes (scanRight lines y x : Nat) y (fun b hb => hout b hb _ (by omega)),
    boxAt_none boxes ((scanRight lines y x : Nat) - 1) y (fun b hb => hout b hb _ (by omega))]
  simp

theorem arrowAt_nil_of_neg (lines : List (List Char)) (boxes : List Box) (x y : Nat)
    (h : leftBox lines boxes x y = -1 ∨ rightBox lines boxes x y = -1) :
    arrowAt lines boxes y x = [] := by
  cases hl : arrowAt lines boxes y x with
  | nil => rfl
  | cons e rest =>
    have hm := arrowAt_mem lines boxes y x e (by rw [hl]; exact List.mem_cons_self e rest)
    obtain ⟨_, h1, h2, _, hk⟩ := hm
    rcases hk with ⟨_, _, h3, h4⟩ | ⟨_, _, h3, h4⟩ <;> rcases h with h | h <;> omega

/-- C9: dangling arrows are dropped: for every grid and box list, an arrow glyph at `(x, y)` that
is inside no box, with no box holding a cell of row `y` on one of its two sides (columns `< x`,
or columns `> x`), pushes no connection; the detector is a total function.  In particular a box
followed by `──▶` that ends at the grid edge yields no connection. -/
theorem dangling_arrow_dropped :
    (∀ (lines : List (List Char)) (boxes : List Box) (x y : Nat),
      (chAt lines x y = '▶' ∨ chAt lines x y = '◀' ∨ chAt lines x y = '>' ∨ chAt lines x y = '<') →
      (∀ b ∈ boxes, ¬ ((x : Int) ≥ b.x ∧ (x : Int) ≤ b.xr ∧ (y : Int) ≥ b.y ∧ (y : Int) ≤ b.yb)) →
      ((∀ b ∈ boxes, ∀ c : Int, c < x →
          ¬ (c ≥ b.x ∧ c ≤ b.xr ∧ (y : Int) ≥ b.y ∧ (y : Int) ≤ b.yb)) ∨
        (∀ b ∈ boxes, ∀ c : Int, (x : Int) < c →
          ¬ (c ≥ b.x ∧ c ≤ b.xr ∧ (y : Int) ≥ b.y ∧ (y : Int) ≤ b.yb))) →
      arrowAt lines boxes y x = []) ∧
    detectBoxes diagramDangling = [{ x := 0, y := 0, xr := 4, yb := 2, label := ['A'] }] ∧
    detectHorizontalArrows diagramDangling (detectBoxes diagramDangling) = [] := by
  refine ⟨?_, by decide, by decide⟩
  intro lines boxes x y _ hin hside
  apply arrowAt_nil_of_neg
  rcases hside with hs | hs
  · left
    apply leftBox_none
    intro b hb c hc
    by_cases hcx : c = x
    · subst hcx; exact hin b hb
    · exact hs b hb c (by omega)
  · right
    apply rightBox_none
    intro b hb c hc
    by_cases hcx : c = x
    · subst hcx; exact hin b hb
    · exact hs b hb c (by omega)

theorem dangling_arrow_dropped_witness :
    (chAt diagramDangling (7 : Nat) (1 : Nat) = '▶') ∧
      arrowAt diagramDangling (detectBoxes diagramDangling) 1 7 = [] :=
  ⟨by decide,
    dangling_arrow_dropped.1 diagramDangling (detectBoxes diagramDangling) 7 1
      (Or.inl (by decide))
      (by decide)
      (Or.inr (by
        have hb : detectBoxes diagramDangling =
            [{ x := 0, y := 0, xr := 4, yb := 2, label := ['A'] }] := by decide
        rw [hb]
        intro b hmem c hc
        rw [List.mem_singleton] at hmem
        subst hmem
        simp only [Nat.cast_ofNat] at hc ⊢
        omega))⟩

/-! ## Replacing one arrow glyph -/

theorem getD_setCell (lines : List (List Char)) (x y : Nat) (c : Char) (y2 : Nat) :
    (setCell lines x y c).getD y2 [] =
      if y2 = y then (lines.getD y []).set x c else lines.getD y2 [] := by
  unfold setCell
  simp only [List.getD_eq_getElem?_getD, List.getElem?_set]
  by_cases hy : y = y2
  · subst hy
    simp only [if_true]
    by_cases hlt : y < lines.length
    · simp [hlt]
    · simp [hlt, List.getElem?_eq_none (Nat.le_of_not_lt hlt)]
  · rw [if_neg hy, if_neg (fun h => hy h.symm)]

theorem length_getD_setCell (lines : List (List Char)) (x y : Nat) (c : Char) (y2 : Nat) :
    ((setCell lines x y c).getD y2 []).length = (lines.getD y2 []).length := by
  rw [getD_setCell]
  split
  · rename_i h; subst h; simp
  · rfl

theorem height_setCell (lines : List (List Char)) (x y : Nat) (c : Char) :
    height (setCell lines x y c) = height lines := by
  simp [height, setCell]

theorem width_setCell (lines : List (List Char)) (x y : Nat) (c : Char) :
    width (setCell lines x y c) = width lines := by
  unfold width
  congr 1
  apply List.ext_getElem?
  intro i
  have h := length_getD_setCell lines x y c i
  simp only [List.getD_eq_getElem?_getD] at h
  simp only [List.getElem?_map]
  have hlen : (setCell lines x y c).length = lines.length := by simp [setCell]
  by_cases hi : i < lines.length
  · rw [List.getElem?_eq_getElem hi, List.getElem?_eq_getElem (by rw [hlen]; exact hi)]
    rw [List.getElem?_eq_getElem hi, List.getElem?_eq_getElem (by rw [hlen]; exact hi)] at h
    simpa using h
  · rw [List.getElem?_eq_none (by omega), List.getElem?_eq_none (by omega)]

theorem chAt_setCell (lines : List (List Char)) (x y : Nat) (c : Char)
    (hx : x < (lines.getD y []).length) (x2 y2 : Nat) :
    chAt (setCell lines x y c) x2 y2 = if x2 = x ∧ y2 = y then c else chAt lines x2 y2 := by
  rw [chAt_nat, chAt_nat, getD_setCell]
  by_cases hy : y2 = y
  · subst hy
    simp only [if_true, and_true]
    simp only [List.getD_eq_getElem?_getD, List.getElem?_set]
    by_cases hxx : x = x2
    · subst hxx
      simp only [List.getD_eq_getElem?_getD] at hx
      simp [hx]
    · rw [if_neg hxx, if_neg (fun h => hxx h.symm)]
  · rw [if_neg hy, if_neg (fun h => hy h.2)]

theorem scanLeft_congr (lines lines2 : List (List Char)) (y : Nat)
    (h : ∀ j : Nat, (isHLine (chAt lines j y) = true ∨ chAt lines j y = ' ') ↔
      (isHLine (chAt lines2 j y) = true ∨ chAt lines2 j y = ' ')) (k : Nat) :
    scanLeft lines y k = scanLeft lines2 y k := by
  induction k with
  | zero => rfl
  | succ k ih =>
    unfold scanLeft
    by_cases hc : isHLine (chAt lines k y) = true ∨ chAt lines k y = ' '
    · rw [if_pos hc, if_pos ((h k).1 hc), ih]
    · rw [if_neg hc, if_neg (fun h2 => hc ((h k).2 h2))]

theorem scanRight_congr (lines lines2 : List (List Char)) (y : Nat)
    (hw : width lines = width lines2)
    (h : ∀ j : Nat, (isHLine (chAt lines j y) = true ∨ chAt lines j y = ' ') ↔
      (isHLine (chAt lines2 j y) = true ∨ chAt lines2 j y = ' ')) (x : Nat) :
    scanRight lines y x = scanRight lines2 y x := by
  unfold scanRight
  have hp : (fun xr : Nat => isHLine (chAt lines xr y) || chAt lines xr y == ' ') =
      (fun xr : Nat => isHLine (chAt lines2 xr y) || chAt lines2 xr y == ' ') := by
    funext j
    have := h j
    rw [Bool.eq_iff_iff]
    simpa using this
  rw [hp, hw]

theorem lineOrBlank_setCell (lines : List (List Char)) (x y : Nat) (c : Char)
    (hold : chAt lines x y = '▶' ∨ chAt lines x y = '>' ∨ chAt lines x y = '◀' ∨ chAt lines x y = '<')
    (hnew : c = '▶' ∨ c = '>' ∨ c = '◀' ∨ c = '<') (j y2 : Nat) :
    (isHLine (chAt (setCell lines x y c) j y2) = true ∨ chAt (setCell lines x y c) j y2 = ' ') ↔
      (isHLine (chAt lines j y2) = true ∨ chAt lines j y2 = ' ') := by
  have hne : chAt lines x y ≠ ' ' := by
    rcases hold with h | h | h | h <;> rw [h] <;> decide
  have hx := (chAt_ne_blank lines x y hne).2.1
  rw [chAt_setCell lines x y c hx]
  by_cases hxy : j = x ∧ y2 = y
  · rw [if_pos hxy]
    obtain ⟨rfl, rfl⟩ := hxy
    have h1 : ¬ (isHLine c = true ∨ c = ' ') := by
      rcases hnew with h | h | h | h <;> subst h <;> decide
    have h2 : ¬ (isHLine (chAt lines j y2) = true ∨ chAt lines j y2 = ' ') := by
      rcases hold with h | h | h | h <;> rw [h] <;> decide
    exact ⟨fun h => absurd h h1, fun h => absurd h h2⟩
  · rw [if_neg hxy]

theorem leftBox_setCell (lines : List (List Char)) (boxes : List Box) (x y : Nat) (c : Char)
    (hold : chAt lines x y = '▶' ∨ chAt lines x y = '>' ∨ chAt lines x y = '◀' ∨ chAt lines x y = '<')
    (hnew : c = '▶' ∨ c = '>' ∨ c = '◀' ∨ c = '<') (x2 y2 : Nat) :
    leftBox (setCell lines x y c) boxes x2 y2 = leftBox lines boxes x2 y2 := by
  unfold leftBox
  rw [scanLeft_congr (setCell lines x y c) lines y2
    (fun j => lineOrBlank_setCell lines x y c hold hnew j y2)]

theorem rightBox_setCell (lines : List (List Char)) (boxes : List Box) (x y : Nat) (c : Char)
    (hold : chAt lines x y = '▶' ∨ chAt lines x y = '>' ∨ chAt lines x y = '◀' ∨ chAt lines x y = '<')
    (hnew : c = '▶' ∨ c = '>' ∨ c = '◀' ∨ c = '<') (x2 y2 : Nat) :
    rightBox (setCell lines x y c) boxes x2 y2 = rightBox lines boxes x2 y2 := by
  unfold rightBox
  rw [scanRight_congr (setCell lines x y c) lines y2 (width_setCell lines x y c)
    (fun j => lineOrBlank_setCell lines x y c hold hnew j y2)]

theorem arrowAt_forward (lines : List (List Char)) (boxes : List Box) (x y : Nat)
    (h : chAt lines x y = '▶' ∨ chAt lines x y = '>') :
    arrowAt lines boxes y x =
      if leftBox lines boxes x y ≥ 0 ∧ rightBox lines boxes x y ≥ 0 ∧
          leftBox lines boxes x y ≠ rightBox lines boxes x y then
        [{ from_ := leftBox lines boxes x y, to_ := rightBox lines boxes x y, y := y, kind := '→' }]
      else [] := by
  unfold arrowAt
  simp only
  have h1 : ¬ (chAt lines x y ≠ '▶' ∧ chAt lines x y ≠ '◀' ∧ chAt lines x y ≠ '>' ∧
      chAt lines x y ≠ '<') := by
    rcases h with h | h <;> rw [h] <;> decide
  rw [if_neg h1, if_pos h]

theorem arrowAt_backward (lines : List (List Char)) (boxes : List Box) (x y : Nat)
    (h : chAt lines x y = '◀' ∨ chAt lines x y = '<') :
    arrowAt lines boxes y x =
      if rightBox lines boxes x y ≥ 0 ∧ leftBox lines boxes x y ≥ 0 ∧
          rightBox lines boxes x y ≠ leftBox lines boxes x y then
        [{ from_ := rightBox lines boxes x y, to_ := leftBox lines boxes x y, y := y, kind := '←' }]
      else [] := by
  unfold arrowAt
  simp only
  have h1 : ¬ (chAt lines x y ≠ '▶' ∧ chAt lines x y ≠ '◀' ∧ chAt lines x y ≠ '>' ∧
      chAt lines x y ≠ '<') := by
    rcases h with h | h <;> rw [h] <;> decide
  have h2 : ¬ (chAt lines x y = '▶' ∨ chAt lines x y = '>') := by
    rcases h with h | h <;> rw [h] <;> decide
  rw [if_neg h1, if_neg h2, if_pos h]

/-- C10: backward arrows invert direction: for every grid, box list and cell `(x, y)` holding
`'▶'` or `'>'`, replacing that glyph by `'◀'` or `'<'` keeps the scanned cells and the
connections pushed by every other cell, and turns the connection pushed by this cell, if any,
from `{from: s, to: d, y, kind: '→'}` into `{from: d, to: s, y, kind: '←'}`; the cell pushes
none in one grid exactly when it pushes none in the other. -/
theorem backward_arrow_inverts (lines : List (List Char)) (boxes : List Box) (x y : Nat)
    (c : Char) (hold : chAt lines x y = '▶' ∨ chAt lines x y = '>')
    (hnew : c = '◀' ∨ c = '<') :
    height (setCell lines x y c) = height lines ∧
    (∀ y2 : Nat, ((setCell lines x y c).getD y2 []).length = (lines.getD y2 []).length) ∧
    (∀ x2 y2 : Nat, ¬ (x2 = x ∧ y2 = y) →
      arrowAt (setCell lines x y c) boxes y2 x2 = arrowAt lines boxes y2 x2) ∧
    arrowAt (setCell lines x y c) boxes y x = (arrowAt lines boxes y x).map Edge.reversed ∧
    (∀ e ∈ arrowAt lines boxes y x, e.kind = '→' ∧ e.y = y) ∧
    (arrowAt (setCell lines x y c) boxes y x = [] ↔ arrowAt lines boxes y x = []) := by
  have hold4 : chAt lines x y = '▶' ∨ chAt lines x y = '>' ∨ chAt lines x y = '◀' ∨
      chAt lines x y = '<' := by
    rcases hold with h | h
    · exact Or.inl h
    · exact Or.inr (Or.inl h)
  have hnew4 : c = '▶' ∨ c = '>' ∨ c = '◀' ∨ c = '<' := by
    rcases hnew with h | h
    · exact Or.inr (Or.inr (Or.inl h))
    · exact Or.inr (Or.inr (Or.inr h))
  have hne : chAt lines x y ≠ ' ' := by
    rcases hold with h | h <;> rw [h] <;> decide
  have hx := (chAt_ne_blank lines x y hne).2.1
  have hL := leftBox_setCell lines boxes x y c hold4 hnew4
  have hR := rightBox_setCell lines boxes x y c hold4 hnew4
  have hcell : chAt (setCell lines x y c) x y = c := by
    rw [chAt_setCell lines x y c hx, if_pos ⟨rfl, rfl⟩]
  have hthis : arrowAt (setCell lines x y c) boxes y x =
      (arrowAt lines boxes y x).map Edge.reversed := by
    rw [arrowAt_forward lines boxes x y hold,
      arrowAt_backward (setCell lines x y c) boxes x y (by rw [hcell]; exact hnew), hL, hR]
    by_cases hc : leftBox lines boxes x y ≥ 0 ∧ rightBox lines boxes x y ≥ 0 ∧
        leftBox lines boxes x y ≠ rightBox lines boxes x y
    · rw [if_pos hc, if_pos ⟨hc.2.1, hc.1, fun h => hc.2.2 h.symm⟩]
      rfl
    · rw [if_neg hc, if_neg (fun h => hc ⟨h.2.1, h.1, fun h2 => h.2.2 h2.symm⟩)]
      rfl
  refine ⟨height_setCell lines x y c, length_getD_setCell lines x y c, ?_, hthis, ?_, ?_⟩
  · intro x2 y2 hxy
    unfold arrowAt
    simp only [hL, hR, chAt_setCell lines x y c hx, if_neg hxy]
  · intro e he
    have hm := arrowAt_mem lines boxes y x e he
    refine ⟨?_, hm.1⟩
    rcases hm.2.2.2.2 with h | h
    · exact h.1
    · exfalso
      rcases hold with h1 | h1 <;> rcases h.2.1 with h2 | h2 <;> rw [h1] at h2 <;>
        exact absurd h2 (by decide)
  · rw [hthis]
    simp

theorem backward_arrow_inverts_witness :
    (chAt diagramAB (7 : Nat) (1 : Nat) = '▶' ∨ chAt diagramAB (7 : Nat) (1 : Nat) = '>') ∧
    arrowAt (setCell diagramAB 7 1 '◀') (detectBoxes diagramAB) 1 7 =
      (arrowAt diagramAB (detectBoxes diagramAB) 1 7).map Edge.reversed ∧
    arrowAt (setCell diagramAB 7 1 '◀') (detectBoxes diagramAB) 1 7 =
      [{ from_ := 1, to_ := 0, y := 1, kind := '←' }] :=
  ⟨Or.inl (by decide),
    (backward_arrow_inverts diagramAB (detectBoxes diagramAB) 7 1 '◀' (Or.inl (by decide))
      (Or.inl rfl)).2.2.2.1,
    by decide⟩

/-! ## Resolving the two ends of an arrow -/

theorem boxAtFrom_some (x y : Int) (i : Nat) (boxes : List Box) (r : Nat)
    (h : boxAtFrom x y i boxes = (r : Int)) :
    ∃ j b, r = i + j ∧ boxes[j]? = some b ∧
      (x ≥ b.x ∧ x ≤ b.xr ∧ y ≥ b.y ∧ y ≤ b.yb) := by
  induction boxes generalizing i with
  | nil =>
    unfold boxAtFrom at h
    omega
  | cons b rest ih =>
    unfold boxAtFrom at h
    split at h
    · rename_i hc
      exact ⟨0, b, by omega, by simp, hc⟩
    · obtain ⟨j, b2, hj, hb2, hc⟩ := ih (i + 1) h
      exact ⟨j + 1, b2, by omega, by simpa using hb2, hc⟩

theorem boxAt_some (boxes : List Box) (x y : Int) (r : Nat) (h : boxAt boxes x y = (r : Int)) :
    ∃ b, boxes[r]? = some b ∧ (x ≥ b.x ∧ x ≤ b.xr ∧ y ≥ b.y ∧ y ≤ b.yb) := by
  obtain ⟨j, b, hj, hb, hc⟩ := boxAtFrom_some x y 0 boxes r h
  have : r = j := by omega
  subst this
  exact ⟨b, hb, hc⟩

theorem leftBox_cases (lines : List (List Char)) (boxes : List Box) (x y : Nat) :
    ∃ c : Int, c ≤ x ∧ leftBox lines boxes x y = boxAt boxes c y := by
  have hr := scanLeft_range lines y x
  unfold leftBox
  simp only
  split
  · exact ⟨scanLeft lines y x, by omega, rfl⟩
  · exact ⟨scanLeft lines y x + 1, by omega, rfl⟩

theorem rightBox_cases (lines : List (List Char)) (boxes : List Box) (x y : Nat) :
    ∃ c : Int, (x : Int) ≤ c ∧ rightBox lines boxes x y = boxAt boxes c y := by
  have hr := scanRight_gt lines y x
  unfold rightBox
  simp only
  split
  · exact ⟨(scanRight lines y x : Nat), by omega, rfl⟩
  · exact ⟨((scanRight lines y x : Nat) : Int) - 1, by omega, rfl⟩

theorem scanLeft_eq (lines : List (List Char)) (y k t : Nat) (ht : t < k)
    (hb : ∀ c : Nat, t < c → c < k → (isHLine (chAt lines c y) = true ∨ chAt lines c y = ' '))
    (hs : ¬ (isHLine (chAt lines t y) = true ∨ chAt lines t y = ' ')) :
    scanLeft lines y k = (t : Int) := by
  induction k with
  | zero => omega
  | succ k ih =>
    unfold scanLeft
    by_cases htk : t = k
    · subst htk
      rw [if_neg hs]
    · rw [if_pos (hb k (by omega) (by omega))]
      exact ih (by omega) (fun c h1 h2 => hb c h1 (by omega))

theorem scanRight_eq (lines : List (List Char)) (y x t : Nat) (ht : x < t)
    (hw : t ≤ width lines)
    (hb : ∀ c : Nat, x < c → c < t → (isHLine (chAt lines c y) = true ∨ chAt lines c y = ' '))
    (hs : ¬ (isHLine (chAt lines t y) = true ∨ chAt lines t y = ' ')) :
    scanRight lines y x = t := by
  unfold scanRight
  apply whileUp_eq
  · omega
  · omega
  · intro k hk1 hk2
    refine ⟨by omega, ?_⟩
    have := hb k (by omega) hk2
    simpa using this
  · intro hc
    apply hs
    simpa using hc.2

/-- A cell of the right or left border column of a closed rectangle, on one of its rows, is
neither a horizontal-line glyph nor a blank. -/
theorem closed_border_stops (lines : List (List Char)) (x y xr yb : Nat)
    (h : Closed lines x y xr yb) (r : Nat) (h1 : y ≤ r) (h2 : r ≤ yb) :
    ¬ (isHLine (chAt lines x r) = true ∨ chAt lines x r = ' ') ∧
      ¬ (isHLine (chAt lines xr r) = true ∨ chAt lines xr r = ' ') := by
  obtain ⟨_, _, htl, htr, hbl, hbr, _, hcols⟩ := h
  have hv : ∀ c : Char, isVLine c = true → ¬ (isHLine c = true ∨ c = ' ') := by
    intro c hc
    simp only [isVLine, Bool.or_eq_true, beq_iff_eq] at hc
    rcases hc with ((((hc | hc) | hc) | hc) | hc) | hc <;> subst hc <;> decide
  by_cases hr1 : r = y
  · subst hr1
    rw [htl, htr]
    exact ⟨by decide, by decide⟩
  · by_cases hr2 : r = yb
    · subst hr2
      rw [hbl, hbr]
      exact ⟨by decide, by decide⟩
    · have := hcols r (by omega) (by omega)
      exact ⟨hv _ this.1, hv _ this.2⟩

theorem edge_eq_of_key (e1 e2 : Edge) (hk : e1.key = e2.key) (hkind : e1.kind = e2.kind) :
    e1 = e2 := by
  cases e1
  cases e2
  simp only [Edge.key, Prod.mk.injEq] at hk
  simp only at hkind
  simp [hk.1, hk.2.1, hk.2.2, hkind]

/-- The general part of the forward connection: both scans stop on the border cells of the two
boxes, and the connection kept for the key `(A, B, y)` is the forward one. -/
theorem forward_edge_mem (lines : List (List Char)) (x y A B : Nat) (bA bB : Box)
    (hglyph : chAt lines x y = '▶' ∨ chAt lines x y = '>')
    (hA : (detectBoxes lines)[A]? = some bA) (hB : (detectBoxes lines)[B]? = some bB)
    (hAB : A ≠ B) (hax : bA.xr < x) (hxb : x < bB.x)
    (hleft : ∀ c : Nat, bA.xr < c → c < x →
      (isHLine (chAt lines c y) = true ∨ chAt lines c y = ' '))
    (hright : ∀ c : Nat, x < c → c < bB.x →
      (isHLine (chAt lines c y) = true ∨ chAt lines c y = ' '))
    (hatA : boxAt (detectBoxes lines) bA.xr y = (A : Int))
    (hatB : boxAt (detectBoxes lines) bB.x y = (B : Int)) :
    ({ from_ := A, to_ := B, y := y, kind := '→' } : Edge) ∈
      detectHorizontalArrows lines (detectBoxes lines) := by
  -- the two border cells lie on rows of their boxes
  obtain ⟨b1, hb1, hc1⟩ := boxAt_some _ _ _ A hatA
  obtain ⟨b2, hb2, hc2⟩ := boxAt_some _ _ _ B hatB
  have e1 : b1 = bA := by rw [hA] at hb1; exact (Option.some.inj hb1).symm
  have e2 : b2 = bB := by rw [hB] at hb2; exact (Option.some.inj hb2).symm
  subst e1
  subst e2
  have hmemA : b1 ∈ detectBoxes lines := List.getElem?_mem hA
  have hmemB : b2 ∈ detectBoxes lines := List.getElem?_mem hB
  have hstopA := (closed_border_stops lines _ _ _ _ (detectBoxes_closed lines b1 hmemA) y
    (by omega) (by omega)).2
  have hstopB := (closed_border_stops lines _ _ _ _ (detectBoxes_closed lines b2 hmemB) y
    (by omega) (by omega)).1
  have hwB : b2.x < width lines :=
    (chAt_ne_blank lines b2.x y (fun h => hstopB (Or.inr h))).2.2
  -- both scans stop on the border cells
  have hsl : scanLeft lines y x = (b1.xr : Int) := scanLeft_eq lines y x b1.xr hax hleft hstopA
  have hsr : scanRight lines y x = b2.x :=
    scanRight_eq lines y x b2.x hxb (by omega) hright hstopB
  have hL : leftBox lines (detectBoxes lines) x y = (A : Int) := by
    unfold leftBox
    simp only [hsl, hatA]
    simp
  have hR : rightBox lines (detectBoxes lines) x y = (B : Int) := by
    unfold rightBox
    simp only [hsr, hatB]
    simp
  have hpush : arrowAt lines (detectBoxes lines) y x =
      [{ from_ := A, to_ := B, y := y, kind := '→' }] := by
    rw [arrowAt_forward lines _ x y hglyph, hL, hR]
    rw [if_pos ⟨by omega, by omega, by omega⟩]
  have hcell := chAt_ne_blank lines x y (by
    rcases hglyph with h | h <;> rw [h] <;> decide)
  have hraw : ({ from_ := A, to_ := B, y := y, kind := '→' } : Edge) ∈
      rawEdges lines (detectBoxes lines) := by
    rw [mem_rawEdges]
    exact ⟨y, hcell.1, x, hcell.2.1, by rw [hpush]; exact List.mem_singleton.2 rfl⟩
  -- the retained connection with this key is a forward one
  unfold detectHorizontalArrows
  rw [dedupEdges_eq]
  have hkey := firstOccurrencesAfter_keys [] _ _ hraw
  rcases hkey with hkey | hkey
  · simp at hkey
  obtain ⟨e2, he2, hk⟩ := List.mem_map.1 hkey
  have he2raw := (firstOccurrencesAfter_sublist [] _).subset he2
  obtain ⟨y2, _, x2, _, hm⟩ := (mem_rawEdges lines _ e2).1 he2raw
  have hspec := arrowAt_mem lines _ y2 x2 e2 hm
  simp only [Edge.key, Prod.mk.injEq] at hk
  obtain ⟨hk1, hk2, hk3⟩ := hk
  have hy2 : y2 = y := by rw [← hspec.1, hk3]
  subst hy2
  rcases hspec.2.2.2.2 with ⟨hkind, _, _, _⟩ | ⟨_, _, hfrom, hto⟩
  · have : e2 = { from_ := A, to_ := B, y := y2, kind := '→' } :=
      edge_eq_of_key _ _ (by simp [Edge.key, hk1, hk2, hk3]) hkind
    rw [← this]
    exact he2
  · exfalso
    obtain ⟨c1, hc1le, hc1eq⟩ := leftBox_cases lines (detectBoxes lines) x2 y2
    obtain ⟨c2, hc2le, hc2eq⟩ := rightBox_cases lines (detectBoxes lines) x2 y2
    obtain ⟨b3, hb3, hin3⟩ := boxAt_some (detectBoxes lines) c1 y2 B (by rw [← hc1eq, ← hto, hk2])
    obtain ⟨b4, hb4, hin4⟩ := boxAt_some (detectBoxes lines) c2 y2 A
      (by rw [← hc2eq, ← hfrom, hk1])
    have e3 : b3 = b2 := by rw [hB] at hb3; exact (Option.some.inj hb3).symm
    have e4 : b4 = b1 := by rw [hA] at hb4; exact (Option.some.inj hb4).symm
    subst e3
    subst e4
    omega

/-- C4: end-to-end forward connection: when row `y` holds `'▶'` or `'>'` at column `x`, the cells
strictly between the right border column of a detected box `A` and `x`, and strictly between `x`
and the left border column of a different detected box `B`, are horizontal-line glyphs or
blanks, and `boxAt` resolves the two border cells to `A` and `B`, then
`detectHorizontalArrows` returns the connection `{from: A, to: B, y, kind: '→'}`.  The
three-line diagram yields exactly the boxes labelled `A` and `B` and exactly one connection,
from box 0 to box 1 with kind `'→'`. -/
theorem forward_connection_detected :
    (∀ (lines : List (List Char)) (x y A B : Nat) (bA bB : Box),
      (chAt lines x y = '▶' ∨ chAt lines x y = '>') →
      (detectBoxes lines)[A]? = some bA → (detectBoxes lines)[B]? = some bB → A ≠ B →
      bA.xr < x → x < bB.x →
      (∀ c : Nat, bA.xr < c → c < x → (isHLine (chAt lines c y) = true ∨ chAt lines c y = ' ')) →
      (∀ c : Nat, x < c → c < bB.x → (isHLine (chAt lines c y) = true ∨ chAt lines c y = ' ')) →
      boxAt (detectBoxes lines) bA.xr y = (A : Int) →
      boxAt (detectBoxes lines) bB.x y = (B : Int) →
      ({ from_ := A, to_ := B, y := y, kind := '→' } : Edge) ∈
        detectHorizontalArrows lines (detectBoxes lines)) ∧
    detectBoxes diagramAB =
      [{ x := 0, y := 0, xr := 4, yb := 2, label := ['A'] },
       { x := 8, y := 0, xr := 12, yb := 2, label := ['B'] }] ∧
    detectHorizontalArrows diagramAB (detectBoxes diagramAB) =
      [{ from_ := 0, to_ := 1, y := 1, kind := '→' }] := by
  exact ⟨forward_edge_mem, by decide, by decide⟩

theorem forward_connection_detected_witness :
    (chAt diagramAB (7 : Nat) (1 : Nat) = '▶' ∨ chAt diagramAB (7 : Nat) (1 : Nat) = '>') ∧
    ({ from_ := ((0 : Nat) : Int), to_ := ((1 : Nat) : Int), y := 1, kind := '→' } : Edge) ∈
      detectHorizontalArrows diagramAB (detectBoxes diagramAB) :=
  ⟨Or.inl (by decide),
    forward_connection_detected.1 diagramAB 7 1 0 1
      { x := 0, y := 0, xr := 4, yb := 2, label := ['A'] }
      { x := 8, y := 0, xr := 12, yb := 2, label := ['B'] }
      (Or.inl (by decide)) (by decide) (by decide) (by decide) (by decide) (by decide)
      (by
        intro c h1 h2
        simp only at h1
        have h : c = 5 ∨ c = 6 := by omega
        rcases h with h | h <;> subst h <;> decide)
      (by
        intro c h1 h2
        simp only at h2
        omega)
      (by decide) (by decide)⟩

/-! ## Label extraction -/

theorem trimEndWs_eq_nil_iff (s : List Char) :
    trimEndWs s = [] ↔ ∀ c ∈ s, isWs c = true := by
  unfold trimEndWs
  rw [List.reverse_eq_nil_iff, List.dropWhile_eq_nil_iff]
  simp

theorem trimEndWs_cons_of_not_ws (c : Char) (t : List Char) (hc : isWs c = false) :
    trimEndWs (c :: t) = c :: trimEndWs t := by
  unfold trimEndWs
  rw [List.reverse_cons, List.dropWhile_append]
  split
  · rename_i h
    rw [List.isEmpty_iff] at h
    rw [h]
    simp [hc]
  · simp

theorem nonBlank_iff (s : List Char) : nonBlank s = true ↔ ∃ c ∈ s, isWs c = false := by
  simp [nonBlank]

theorem jsTrim_length_pos_iff (s : List Char) :
    (jsTrim s).length > 0 ↔ nonBlank s = true := by
  rw [nonBlank_iff]
  induction s with
  | nil => simp [jsTrim, trimEndWs]
  | cons c t ih =>
    by_cases hc : isWs c = true
    · have h1 : jsTrim (c :: t) = jsTrim t := by
        unfold jsTrim
        rw [List.dropWhile_cons_of_pos hc]
      rw [h1, ih]
      constructor
      · rintro ⟨d, hd, hw⟩
        exact ⟨d, List.mem_cons_of_mem c hd, hw⟩
      · rintro ⟨d, hd, hw⟩
        rcases List.mem_cons.1 hd with h | h
        · subst h; rw [hc] at hw; exact absurd hw (by decide)
        · exact ⟨d, h, hw⟩
    · have hc2 : isWs c = false := by simpa using hc
      have h1 : jsTrim (c :: t) = c :: trimEndWs t := by
        unfold jsTrim
        rw [List.dropWhile_cons_of_neg hc, trimEndWs_cons_of_not_ws c t hc2]
      rw [h1]
      constructor
      · intro _
        exact ⟨c, List.mem_cons_self c t, hc2⟩
      · intro _
        simp

theorem trimEndWs_head_not_ws (s : List Char) (c : Char) (t : List Char)
    (h : (trimEndWs s).reverse = c :: t) : isWs c = false := by
  unfold trimEndWs at h
  rw [List.reverse_reverse] at h
  have := List.head?_dropWhile_not isWs s.reverse
  rw [h] at this
  simpa using this

theorem joinNL_cons_cons (r r2 : List Char) (rest : List (List Char)) :
    joinNL (r :: r2 :: rest) = r ++ '\n' :: joinNL (r2 :: rest) := rfl

theorem joinNL_concat (L : List (List Char)) (r : List Char) (hL : L ≠ []) :
    joinNL (L ++ [r]) = joinNL L ++ '\n' :: r := by
  induction L with
  | nil => exact absurd rfl hL
  | cons a rest ih =>
    cases rest with
    | nil => rfl
    | cons b rest2 =>
      rw [List.cons_append, List.cons_append, joinNL_cons_cons, joinNL_cons_cons]
      rw [← List.cons_append, ih (by simp)]
      simp

theorem joinNL_reverse (L : List (List Char)) :
    (joinNL L).reverse = joinNL (L.reverse.map List.reverse) := by
  induction L with
  | nil => rfl
  | cons a rest ih =>
    cases rest with
    | nil => rfl
    | cons b rest2 =>
      rw [joinNL_cons_cons, List.reverse_append, List.reverse_cons, ih]
      rw [List.reverse_cons (a := a), List.map_append, List.map_cons, List.map_nil]
      rw [joinNL_concat _ _ (by simp)]
      simp

theorem isWs_newline : isWs '\n' = true := by decide

theorem dropWhile_joinNL (L : List (List Char))
    (h : ∀ l, L.find? (fun l => !l.isEmpty) = some l → ∀ c t, l = c :: t → isWs c = false) :
    (joinNL L).dropWhile isWs = joinNL (L.dropWhile List.isEmpty) := by
  induction L with
  | nil => rfl
  | cons l rest ih =>
    cases l with
    | nil =>
      have h2 : ∀ l, rest.find? (fun l => !l.isEmpty) = some l →
          ∀ c t, l = c :: t → isWs c = false := by
        intro l hl
        exact h l (by rw [List.find?_cons_of_neg _ (by simp)]; exact hl)
      rw [List.dropWhile_cons_of_pos (by rfl)]
      cases rest with
      | nil => rfl
      | cons b rest2 =>
        rw [joinNL_cons_cons, List.nil_append, List.dropWhile_cons_of_pos isWs_newline]
        exact ih h2
    | cons c t =>
      have hc : isWs c = false := h (c :: t) (by rw [List.find?_cons_of_pos _ (by simp)]) c t rfl
      rw [List.dropWhile_cons_of_neg (by simp)]
      cases rest with
      | nil =>
        show List.dropWhile isWs (c :: t) = c :: t
        rw [List.dropWhile_cons_of_neg (by simp [hc])]
      | cons b rest2 =>
        rw [joinNL_cons_cons, List.cons_append, List.dropWhile_cons_of_neg (by simp [hc])]

theorem find?_congr_mem {α : Type} (p q : α → Bool) (l : List α)
    (h : ∀ a ∈ l, p a = q a) : l.find? p = l.find? q := by
  induction l with
  | nil => rfl
  | cons a rest ih =>
    rw [List.find?_cons, List.find?_cons, h a (List.mem_cons_self a rest),
      ih (fun b hb => h b (List.mem_cons_of_mem a hb))]

/-- Trimming a joined text whose lines carry no trailing whitespace, and whose first non-empty
line starts with a character that is not whitespace, removes the empty margin lines only. -/
theorem jsTrim_joinNL (L : List (List Char))
    (h1 : ∀ l, L.find? (fun l => !l.isEmpty) = some l → ∀ c t, l = c :: t → isWs c = false)
    (h2 : ∀ l ∈ L, ∀ c t, l.reverse = c :: t → isWs c = false) :
    jsTrim (joinNL L) = joinNL (dropBlankMargins L) := by
  unfold jsTrim trimEndWs dropBlankMargins
  rw [dropWhile_joinNL L h1, joinNL_reverse]
  have hmem : ∀ l ∈ (L.dropWhile List.isEmpty).reverse.map List.reverse,
      ∀ c t, l = c :: t → isWs c = false := by
    intro l hl c t hlc
    rw [List.mem_map] at hl
    obtain ⟨l0, hl0, rfl⟩ := hl
    rw [List.mem_reverse] at hl0
    exact h2 l0 ((List.dropWhile_sublist _).subset hl0) c t hlc
  rw [dropWhile_joinNL _ (fun l hl => hmem l (List.mem_of_find?_eq_some hl))]
  rw [joinNL_reverse, List.dropWhile_map]
  have hcomp : (List.isEmpty ∘ List.reverse : List Char → Bool) = List.isEmpty := by
    funext l
    cases l <;> simp
  rw [hcomp]
  congr 1
  rw [← List.map_reverse, List.map_map]
  have hid : (List.reverse ∘ List.reverse : List Char → List Char) = id := by
    funext l
    simp
  rw [hid, List.map_id]

theorem foldl_minPad_some (l : List (List Char)) (a : Nat) :
    ∃ v, l.foldl minPad (some a) = some v ∧ v ≤ a ∧ (∀ s ∈ l, v ≤ leadingSpaces s) ∧
      (v = a ∨ ∃ s ∈ l, v = leadingSpaces s) := by
  induction l generalizing a with
  | nil => exact ⟨a, rfl, Nat.le_refl a, by simp, Or.inl rfl⟩
  | cons s rest ih =>
    obtain ⟨v, hv, hle, hall, hex⟩ := ih (min a (leadingSpaces s))
    refine ⟨v, by rw [List.foldl_cons]; exact hv, by omega, ?_, ?_⟩
    · intro s2 hs2
      rcases List.mem_cons.1 hs2 with h | h
      · subst h; omega
      · exact hall s2 h
    · rcases hex with h | ⟨s2, hs2, h⟩
      · by_cases hmin : a ≤ leadingSpaces s
        · exact Or.inl (by omega)
        · exact Or.inr ⟨s, List.mem_cons_self s rest, by omega⟩
      · exact Or.inr ⟨s2, List.mem_cons_of_mem s hs2, h⟩

/-- The `reduce` of `leftPad` computes the minimum of the leading-space counts of the non-blank
rows, when there is a non-blank row. -/
theorem leftPad_eq_some (rows : List (List Char)) (m : Nat)
    (hex : ∃ r ∈ rows, nonBlank r = true ∧ leadingSpaces r = m)
    (hmin : ∀ r ∈ rows, nonBlank r = true → m ≤ leadingSpaces r) :
    leftPad rows = some m := by
  unfold leftPad
  have hfilter : ∀ r, r ∈ rows.filter (fun s => decide ((jsTrim s).length > 0)) ↔
      r ∈ rows ∧ nonBlank r = true := by
    intro r
    rw [List.mem_filter, decide_eq_true_eq, jsTrim_length_pos_iff]
  cases hF : rows.filter (fun s => decide ((jsTrim s).length > 0)) with
  | nil =>
    obtain ⟨r, hr, hnb, _⟩ := hex
    have := (hfilter r).2 ⟨hr, hnb⟩
    rw [hF] at this
    simp at this
  | cons s0 rest =>
    have hmemF : ∀ r, r ∈ s0 :: rest ↔ r ∈ rows ∧ nonBlank r = true := by
      intro r
      rw [← hF]
      exact hfilter r
    obtain ⟨v, hv, hle, hall, hach⟩ := foldl_minPad_some rest (leadingSpaces s0)
    rw [List.foldl_cons]
    show List.foldl minPad (some (leadingSpaces s0)) rest = some m
    rw [hv]
    congr 1
    obtain ⟨r, hr, hnb, hrm⟩ := hex
    have hvle : v ≤ m := by
      rcases List.mem_cons.1 ((hmemF r).2 ⟨hr, hnb⟩) with h | h
      · subst h; omega
      · have := hall r h; omega
    have hmle : m ≤ v := by
      rcases hach with h | ⟨s2, hs2, h⟩
      · have h0 := (hmemF s0).1 (List.mem_cons_self s0 rest)
        have := hmin s0 h0.1 h0.2
        omega
      · have h0 := (hmemF s2).1 (List.mem_cons_of_mem s0 hs2)
        have := hmin s2 h0.1 h0.2
        omega
    omega

theorem labelLines_eq (rows : List (List Char)) (m : Nat) (h : leftPad rows = some m) :
    labelLines rows = rows.map (fun r => trimEndWs (r.drop m)) := by
  unfold labelLines
  rw [h, List.map_map]
  rfl

theorem take_leadingSpaces (s : List Char) (m : Nat) (h : m ≤ leadingSpaces s) :
    ∀ c ∈ s.take m, c = ' ' := by
  induction s generalizing m with
  | nil => intro c hc; simp at hc
  | cons a t ih =>
    cases m with
    | zero => intro c hc; simp at hc
    | succ k =>
      unfold leadingSpaces at h
      rw [List.takeWhile_cons] at h
      split at h
      · rename_i ha
        intro c hc
        rw [List.take_succ_cons] at hc
        rcases List.mem_cons.1 hc with hc2 | hc2
        · rw [hc2]; simpa using ha
        · exact ih k (by unfold leadingSpaces; simp at h; omega) c hc2
      · simp at h

theorem nonBlank_drop (s : List Char) (m : Nat) (h : nonBlank s = true → m ≤ leadingSpaces s) :
    nonBlank (s.drop m) = nonBlank s := by
  rw [Bool.eq_iff_iff, nonBlank_iff, nonBlank_iff]
  constructor
  · rintro ⟨c, hc, hw⟩
    exact ⟨c, List.mem_of_mem_drop hc, hw⟩
  · rintro ⟨c, hc, hw⟩
    have hm := h ((nonBlank_iff s).2 ⟨c, hc, hw⟩)
    rw [← List.take_append_drop m s, List.mem_append] at hc
    rcases hc with hc | hc
    · have := take_leadingSpaces s m hm c hc
      subst this
      exact absurd hw (by decide)
    · exact ⟨c, hc, hw⟩

/-- C7 as stated fails: in `diagramBlankFirst` the interior rows are a blank row and ` Hi `, the
minimum indent of the non-blank rows is 1, and the rows without their first character and their
trailing whitespace, joined with a line feed, give a text that starts with a line feed; the
label is `Hi`. -/
theorem label_not_plain_join :
    ({ x := 0, y := 0, xr := 5, yb := 3, label := "Hi".toList } : Box) ∈
      detectBoxes diagramBlankFirst ∧
    innerRows diagramBlankFirst 0 0 5 3 = ["    ".toList, " Hi ".toList] ∧
    (∃ r ∈ innerRows diagramBlankFirst 0 0 5 3, nonBlank r = true ∧ leadingSpaces r = 1) ∧
    (∀ r ∈ innerRows diagramBlankFirst 0 0 5 3, nonBlank r = true → 1 ≤ leadingSpaces r) ∧
    joinNL ((innerRows diagramBlankFirst 0 0 5 3).map (fun r => trimEndWs (r.drop 1))) =
      "\nHi".toList ∧
    "Hi".toList ≠
      joinNL ((innerRows diagramBlankFirst 0 0 5 3).map (fun r => trimEndWs (r.drop 1))) := by
  refine ⟨by decide, by decide, by decide, by decide, by decide, by decide⟩

/-- C7, amended: for every detected box whose interior rows include a non-blank row, with `m`
the minimum number of leading spaces over the non-blank rows, and whose first non-blank row has
a character that is not whitespace right after its first `m` characters, the label is the rows
with their first `m` characters and their trailing whitespace removed, without the leading and
trailing rows that are then empty, joined with a line feed.  The rows `Hello` after 4 spaces and
`World` after 6 spaces give the lines `Hello` and `World` after 2 spaces. -/
theorem label_normalised :
    (∀ (lines : List (List Char)) (b : Box) (m : Nat), b ∈ detectBoxes lines →
      (∃ r ∈ innerRows lines b.x b.y b.xr b.yb, nonBlank r = true ∧ leadingSpaces r = m) →
      (∀ r ∈ innerRows lines b.x b.y b.xr b.yb, nonBlank r = true → m ≤ leadingSpaces r) →
      (∀ r, (innerRows lines b.x b.y b.xr b.yb).find? nonBlank = some r →
        ∃ c t, r.drop m = c :: t ∧ isWs c = false) →
      b.label = joinNL (dropBlankMargins
        ((innerRows lines b.x b.y b.xr b.yb).map (fun r => trimEndWs (r.drop m))))) ∧
    labelLines ["    Hello".toList, "      World".toList] = ["Hello".toList, "  World".toList] ∧
    labelOf ["    Hello".toList, "      World".toList] = "Hello\n  World".toList ∧
    innerRows diagramHello 0 0 12 3 = ["    Hello  ".toList, "      World".toList] ∧
    (detectBoxes diagramHello).map Box.label = ["Hello\n  World".toList] := by
  refine ⟨?_, by decide, by decide, by decide, by decide⟩
  intro lines b m hb hex hmin hfirst
  rw [detectBoxes_label lines b hb]
  generalize innerRows lines b.x b.y b.xr b.yb = rows at hex hmin hfirst ⊢
  unfold labelOf
  rw [labelLines_eq rows m (leftPad_eq_some rows m hex hmin)]
  apply jsTrim_joinNL
  · intro l hl c t hlc
    rw [List.find?_map] at hl
    have hcongr : rows.find? ((fun l => !l.isEmpty) ∘ fun r => trimEndWs (r.drop m)) =
        rows.find? nonBlank := by
      apply find?_congr_mem
      intro r hr
      rw [← nonBlank_drop r m (hmin r hr)]
      rw [Bool.eq_iff_iff, nonBlank_iff]
      simp only [Function.comp_apply, Bool.not_eq_true', List.isEmpty_eq_false]
      rw [ne_eq, trimEndWs_eq_nil_iff]
      simp
    rw [hcongr] at hl
    cases hfind : rows.find? nonBlank with
    | none => rw [hfind] at hl; simp at hl
    | some r =>
      rw [hfind] at hl
      simp only [Option.map_some', Option.some.injEq] at hl
      obtain ⟨c2, t2, hdrop, hc2⟩ := hfirst r hfind
      rw [hdrop, trimEndWs_cons_of_not_ws c2 t2 hc2, hlc] at hl
      simp only [List.cons.injEq] at hl
      rw [← hl.1]
      exact hc2
  · intro l hl c t hlc
    rw [List.mem_map] at hl
    obtain ⟨r, _, rfl⟩ := hl
    exact trimEndWs_head_not_ws _ c t hlc

theorem label_normalised_witness :
    ({ x := 0, y := 0, xr := 12, yb := 3, label := "Hello\n  World".toList } : Box) ∈
      detectBoxes diagramHello ∧
    "Hello\n  World".toList = joinNL (dropBlankMargins
      ((innerRows diagramHello 0 0 12 3).map (fun r => trimEndWs (r.drop 4)))) :=
  ⟨by decide,
    label_normalised.1 diagramHello
      { x := 0, y := 0, xr := 12, yb := 3, label := "Hello\n  World".toList } 4
      (by decide) (by decide) (by decide)
      (by
        intro r hr
        have hrows : (innerRows diagramHello 0 0 12 3).find? nonBlank =
            some "    Hello  ".toList := by decide
        simp only at hr
        rw [hrows] at hr
        rw [← Option.some.inj hr]
        exact ⟨'H', "ello  ".toList, by decide, by decide⟩)⟩

/-- C8 at its failing input: in `diagramIndented` the interior rows are `Hello` after 2 spaces
and `World` after none (leading-space counts 2 and 0, common indent 0), and both lines of the
label have no leading space: the first row lost 2 spaces more than the common indent. -/
theorem relative_indent_lost :
    innerRows diagramIndented 0 0 8 3 = ["  Hello".toList, "World  ".toList] ∧
    (innerRows diagramIndented 0 0 8 3).map leadingSpaces = [2, 0] ∧
    leftPad (innerRows diagramIndented 0 0 8 3) = some 0 ∧
    labelLines (innerRows diagramIndented 0 0 8 3) = ["  Hello".toList, "World".toList] ∧
    detectBoxes diagramIndented =
      [{ x := 0, y := 0, xr := 8, yb := 3, label := "Hello\nWorld".toList }] ∧
    (splitNL "Hello\nWorld".toList).map leadingSpaces = [0, 0] := by
  refine ⟨by decide, by decide, by decide, by decide, by decide, by decide⟩

/-! ## Detection order -/

theorem countP_rank {α : Type} (r : α → α → Bool)
    (hasym : ∀ a b, r a b = true → r b a = false) (l : List α)
    (hp : l.Pairwise (fun a b => r a b = true)) (i : Nat) (b : α) (h : l[i]? = some b) :
    l.countP (fun a => r a b) = i := by
  induction l generalizing i with
  | nil => simp at h
  | cons a rest ih =>
    rw [List.pairwise_cons] at hp
    cases i with
    | zero =>
      simp only [List.getElem?_cons_zero, Option.some.injEq] at h
      subst h
      have hirr : r a a = false := by
        cases hr : r a a with
        | false => rfl
        | true => rw [hasym a a hr] at hr; exact absurd hr (by decide)
      rw [List.countP_cons, hirr]
      have : rest.countP (fun c => r c a) = 0 := by
        rw [List.countP_eq_zero]
        intro c hc
        rw [hasym a c (hp.1 c hc)]
        decide
      simp [this]
    | succ k =>
      simp only [List.getElem?_cons_succ] at h
      rw [List.countP_cons, hp.1 b (List.getElem?_mem h), ih hp.2 k h]
      simp

theorem detectBoxes_pairwise_bool (lines : List (List Char)) :
    (detectBoxes lines).Pairwise
      (fun a b => decide (a.y < b.y ∨ (a.y = b.y ∧ a.x < b.x)) = true) := by
  refine (detectBoxes_pairwise lines).imp ?_
  intro a b hab
  simpa [Box.before] using hab

theorem detectBoxes_rank (lines : List (List Char)) (i : Nat) (b : Box)
    (h : (detectBoxes lines)[i]? = some b) :
    (detectBoxes lines).countP
      (fun a => decide (a.y < b.y ∨ (a.y = b.y ∧ a.x < b.x))) = i := by
  apply countP_rank (fun a b => decide (a.y < b.y ∨ (a.y = b.y ∧ a.x < b.x))) _ _
    (detectBoxes_pairwise_bool lines) i b h
  intro a c hac
  simp only [decide_eq_true_eq, decide_eq_false_iff_not] at hac ⊢
  omega

/-- C11: row-major, duplicate-free detection order: for every grid the boxes returned by
`detectBoxes` are in strictly increasing lexicographic order of `(y, x)` of their top-left
corner; no two entries of the list share a top-left coordinate; and the index of a box is the
number of returned boxes whose top-left corner comes strictly before its own in row-major
order. -/
theorem detectBoxes_row_major (lines : List (List Char)) :
    (detectBoxes lines).Pairwise (fun a b => a.y < b.y ∨ (a.y = b.y ∧ a.x < b.x)) ∧
    (∀ (i j : Nat) (bi bj : Box), (detectBoxes lines)[i]? = some bi →
      (detectBoxes lines)[j]? = some bj → bi.x = bj.x → bi.y = bj.y → i = j) ∧
    (∀ (i : Nat) (b : Box), (detectBoxes lines)[i]? = some b →
      (detectBoxes lines).countP
        (fun a => decide (a.y < b.y ∨ (a.y = b.y ∧ a.x < b.x))) = i) := by
  refine ⟨detectBoxes_pairwise lines, ?_, detectBoxes_rank lines⟩
  intro i j bi bj hi hj hx hy
  have h1 := detectBoxes_rank lines i bi hi
  have h2 := detectBoxes_rank lines j bj hj
  rw [hx, hy] at h1
  rw [← h1, ← h2]

theorem detectBoxes_row_major_witness :
    (detectBoxes diagramAB)[1]? = some { x := 8, y := 0, xr := 12, yb := 2, label := ['B'] } ∧
    (detectBoxes diagramAB).countP
      (fun a => decide (a.y < 0 ∨ (a.y = 0 ∧ a.x < 8))) = 1 :=
  ⟨by decide,
    (detectBoxes_row_major diagramAB).2.2 1 { x := 8, y := 0, xr := 12, yb := 2, label := ['B'] }
      (by decide)⟩

/-! ## Whitespace-only input -/

theorem replaceCRLF_mem (s : List Char) : ∀ c ∈ replaceCRLF s, c ∈ s := by
  induction s using replaceCRLF.induct with
  | case1 => intro c hc; simp [replaceCRLF] at hc
  | case2 a => intro c hc; simpa [replaceCRLF] using hc
  | case3 a d rest h ih =>
    intro c hc
    rw [replaceCRLF, if_pos h] at hc
    rcases List.mem_cons.1 hc with hc | hc
    · rw [hc, ← h.2]
      simp
    · exact List.mem_cons_of_mem _ (List.mem_cons_of_mem _ (ih c hc))
  | case4 a d rest h ih =>
    intro c hc
    rw [replaceCRLF, if_neg h] at hc
    rcases List.mem_cons.1 hc with hc | hc
    · rw [hc]; simp
    · exact List.mem_cons_of_mem _ (ih c hc)

theorem splitNL_ne_nil (s : List Char) : splitNL s ≠ [] := by
  cases s with
  | nil => simp [splitNL]
  | cons c rest =>
    unfold splitNL
    split
    · simp
    · split <;> simp

theorem splitNL_mem (s : List Char) : ∀ l ∈ splitNL s, ∀ c ∈ l, c ∈ s := by
  induction s with
  | nil => intro l hl c hc; simp [splitNL] at hl; subst hl; simp at hc
  | cons a rest ih =>
    intro l hl c hc
    unfold splitNL at hl
    split at hl
    · rcases List.mem_cons.1 hl with h | h
      · subst h; simp at hc
      · exact List.mem_cons_of_mem _ (ih l h c hc)
    · split at hl
      · rename_i l0 ls heq
        rcases List.mem_cons.1 hl with h | h
        · subst h
          rcases List.mem_cons.1 hc with h2 | h2
          · rw [h2]; simp
          · exact List.mem_cons_of_mem _ (ih l0 (by rw [heq]; simp) c h2)
        · exact List.mem_cons_of_mem _ (ih l (by rw [heq]; exact List.mem_cons_of_mem _ h) c hc)
      · rename_i heq
        exact absurd heq (splitNL_ne_nil rest)

theorem height_linesOf_pos (text : List Char) : 1 ≤ height (linesOf text) := by
  unfold height linesOf
  have := splitNL_ne_nil (replaceCRLF text)
  cases h : splitNL (replaceCRLF text) with
  | nil => exact absurd h this
  | cons a rest => simp

theorem linesOf_mem (text : List Char) : ∀ l ∈ linesOf text, ∀ c ∈ l, c ∈ text := by
  intro l hl c hc
  exact replaceCRLF_mem text c (splitNL_mem _ l hl c hc)

theorem chAt_ws (lines : List (List Char)) (h : ∀ l ∈ lines, ∀ c ∈ l, isWs c = true)
    (x y : Nat) : isWs (chAt lines x y) = true := by
  by_cases hb : chAt lines x y = ' '
  · rw [hb]; decide
  · have hin := chAt_ne_blank lines x y hb
    rw [chAt_nat]
    have hy : y < lines.length := hin.1
    have hmem : lines.getD y [] ∈ lines := by
      rw [List.getD_eq_getElem _ _ hy]
      exact List.getElem_mem hy
    apply h _ hmem
    rw [List.getD_eq_getElem _ _ hin.2.1]
    exact List.getElem_mem _

theorem detectBoxes_of_ws (lines : List (List Char))
    (h : ∀ l ∈ lines, ∀ c ∈ l, isWs c = true) : detectBoxes lines = [] := by
  cases hb : detectBoxes lines with
  | nil => rfl
  | cons b rest =>
    have hmem : b ∈ detectBoxes lines := by rw [hb]; exact List.mem_cons_self b rest
    have hc := (detectBoxes_closed lines b hmem).2.2.1
    have hw := chAt_ws lines h b.x b.y
    rw [hc] at hw
    exact absurd hw (by decide)

theorem rawEdges_of_ws (lines : List (List Char)) (boxes : List Box)
    (h : ∀ l ∈ lines, ∀ c ∈ l, isWs c = true) : rawEdges lines boxes = [] := by
  cases hr : rawEdges lines boxes with
  | nil => rfl
  | cons e rest =>
    have hmem : e ∈ rawEdges lines boxes := by rw [hr]; exact List.mem_cons_self e rest
    obtain ⟨y, _, x, _, hm⟩ := (mem_rawEdges lines boxes e).1 hmem
    have hw := chAt_ws lines h x y
    rcases (arrowAt_mem lines boxes y x e hm).2.2.2.2 with ⟨_, hc, _⟩ | ⟨_, hc, _⟩ <;>
      rcases hc with hc | hc <;> rw [hc] at hw <;> exact absurd hw (by decide)

/-- C12 as stated fails: the text made of one space is whitespace-only and its grid has height 1
and width 1, neither of them 0. -/
theorem whitespace_grid_not_empty :
    (∀ c ∈ " ".toList, isWs c = true) ∧
    linesOf " ".toList = [[' ']] ∧
    height (linesOf " ".toList) = 1 ∧ width (linesOf " ".toList) = 1 ∧
    ¬ (height (linesOf " ".toList) = 0 ∨ width (linesOf " ".toList) = 0) := by
  refine ⟨by decide, by decide, by decide, by decide, by decide⟩

/-- C12, amended: for every input text made only of whitespace characters (the empty string
included), the grid has height at least 1 (`split` never returns an empty array), every
character of every line is whitespace, and `detectBoxes` and `detectHorizontalArrows` both
return empty lists; both are total functions.  The empty string gives height 1 and width 0. -/
theorem whitespace_only_input :
    (∀ text : List Char, (∀ c ∈ text, isWs c = true) →
      1 ≤ height (linesOf text) ∧
      (∀ l ∈ linesOf text, ∀ c ∈ l, isWs c = true) ∧
      detectBoxes (linesOf text) = [] ∧
      detectHorizontalArrows (linesOf text) (detectBoxes (linesOf text)) = []) ∧
    height (linesOf []) = 1 ∧ width (linesOf []) = 0 := by
  refine ⟨?_, by decide, by decide⟩
  intro text hws
  have hall : ∀ l ∈ linesOf text, ∀ c ∈ l, isWs c = true :=
    fun l hl c hc => hws c (linesOf_mem text l hl c hc)
  refine ⟨height_linesOf_pos text, hall, detectBoxes_of_ws _ hall, ?_⟩
  unfold detectHorizontalArrows
  rw [rawEdges_of_ws _ _ hall]
  rfl

theorem whitespace_only_input_witness :
    (∀ c ∈ "\n \t\r\n".toList, isWs c = true) ∧
    1 ≤ height (linesOf "\n \t\r\n".toList) ∧
    (∀ l ∈ linesOf "\n \t\r\n".toList, ∀ c ∈ l, isWs c = true) ∧
    detectBoxes (linesOf "\n \t\r\n".toList) = [] ∧
    detectHorizontalArrows (linesOf "\n \t\r\n".toList)
      (detectBoxes (linesOf "\n \t\r\n".toList)) = [] :=
  ⟨by decide, whitespace_only_input.1 "\n \t\r\n".toList (by decide)⟩

/-! ## Glyph classes -/

/-- C13 at its failing inputs: a rectangle closed but for a junction glyph `┬` on its top edge,
or `┴` on its bottom edge, is not detected, because `isHLine` accepts none of `┬`, `┴`, `┼`;
the junction glyphs `├`, `┤`, `┼` are accepted by `isVLine`, and the rectangle with `├` and `┤`
on its left and right edges is detected with its coordinates. -/
theorem junction_on_horizontal_edge_rejected :
    detectBoxes diagramJunctionTop = [] ∧
    detectBoxes diagramJunctionBottom = [] ∧
    detectBoxes diagramJunctionSide = [{ x := 0, y := 0, xr := 4, yb := 2, label := [] }] ∧
    isHLine '┬' = false ∧ isHLine '┴' = false ∧ isHLine '┼' = false ∧
    isVLine '├' = true ∧ isVLine '┤' = true ∧ isVLine '┼' = true := by
  refine ⟨by decide, by decide, by decide, by decide, by decide, by decide, by decide, by decide,
    by decide⟩

theorem detectBoxes_countP_closed (lines : List (List Char)) (x y xr yb : Nat)
    (hclosed : Closed lines x y xr yb) :
    (detectBoxes lines).countP
      (fun b => decide (b.x = x ∧ b.y = y ∧ b.xr = xr ∧ b.yb = yb)) = 1 := by
  have hle := countP_le_one_of_pairwise Box.before
    (fun b => decide (b.x = x ∧ b.y = y ∧ b.xr = xr ∧ b.yb = yb)) (detectBoxes lines)
    (detectBoxes_pairwise lines) (by
      intro a b ha hb hab
      simp only [decide_eq_true_eq] at ha hb
      unfold Box.before at hab
      omega)
  have hpos : 0 < (detectBoxes lines).countP
      (fun b => decide (b.x = x ∧ b.y = y ∧ b.xr = xr ∧ b.yb = yb)) := by
    rw [List.countP_pos_iff]
    exact ⟨_, detectBoxes_of_closed lines x y xr yb hclosed, by simp⟩
  omega

/-- C14 as stated fails: the box of `diagramLight` is detected, and the same box drawn entirely
with double-line glyphs, with heavy glyphs or with the ASCII fallback is not. -/
theorem glyph_families_not_detected :
    detectBoxes diagramLight = [{ x := 0, y := 0, xr := 4, yb := 2, label := ['A'] }] ∧
    detectBoxes diagramDouble = [] ∧
    detectBoxes diagramHeavy = [] ∧
    detectBoxes diagramAscii = [] := by
  refine ⟨by decide, by decide, by decide, by decide⟩

/-- C14, amended: a closed rectangle with the light corners `┌`, `┐`, `└`, `┘` whose edge cells
are light (`─`, `│`), heavy (`━`, `┃`) or ASCII (`-`, `|`) line glyphs, in any mixture, is
detected with its coordinates, exactly once; no detected box has a double-line glyph (`╔`, `╗`,
`╚`, `╝`, `═`, `║`) on its border, so a rectangle drawn with double-line glyphs is not
detected.  The box with heavy edges and the box with ASCII edges are detected as the light
one. -/
theorem light_corner_edge_families :
    (∀ (lines : List (List Char)) (x y xr yb : Nat), x < xr → y < yb →
      chAt lines x y = '┌' → chAt lines xr y = '┐' →
      chAt lines x yb = '└' → chAt lines xr yb = '┘' →
      (∀ xi : Nat, x < xi → xi < xr →
        (chAt lines xi y = '─' ∨ chAt lines xi y = '━' ∨ chAt lines xi y = '-') ∧
        (chAt lines xi yb = '─' ∨ chAt lines xi yb = '━' ∨ chAt lines xi yb = '-')) →
      (∀ yi : Nat, y < yi → yi < yb →
        (chAt lines x yi = '│' ∨ chAt lines x yi = '┃' ∨ chAt lines x yi = '|') ∧
        (chAt lines xr yi = '│' ∨ chAt lines xr yi = '┃' ∨ chAt lines xr yi = '|')) →
      (detectBoxes lines).countP
        (fun b => decide (b.x = x ∧ b.y = y ∧ b.xr = xr ∧ b.yb = yb)) = 1) ∧
    (∀ (lines : List (List Char)) (b : Box), b ∈ detectBoxes lines →
      chAt lines b.x b.y ≠ '╔' ∧ chAt lines b.xr b.y ≠ '╗' ∧
      chAt lines b.x b.yb ≠ '╚' ∧ chAt lines b.xr b.yb ≠ '╝' ∧
      (∀ xi : Nat, b.x < xi → xi < b.xr →
        chAt lines xi b.y ≠ '═' ∧ chAt lines xi b.yb ≠ '═') ∧
      (∀ yi : Nat, b.y < yi → yi < b.yb →
        chAt lines b.x yi ≠ '║' ∧ chAt lines b.xr yi ≠ '║')) ∧
    detectBoxes diagramHeavyEdges = detectBoxes diagramLight ∧
    detectBoxes diagramAsciiEdges = detectBoxes diagramLight ∧
    detectBoxes diagramDouble = [] := by
  have hH : ∀ c : Char, (c = '─' ∨ c = '━' ∨ c = '-') → isHLine c = true := by
    intro c hc
    rcases hc with h | h | h <;> subst h <;> decide
  have hV : ∀ c : Char, (c = '│' ∨ c = '┃' ∨ c = '|') → isVLine c = true := by
    intro c hc
    rcases hc with h | h | h <;> subst h <;> decide
  refine ⟨?_, ?_, by decide, by decide, by decide⟩
  · intro lines x y xr yb hx hy htl htr hbl hbr hrows hcols
    apply detectBoxes_countP_closed
    exact ⟨hx, hy, htl, htr, hbl, hbr,
      fun xi h1 h2 => ⟨hH _ (hrows xi h1 h2).1, hH _ (hrows xi h1 h2).2⟩,
      fun yi h1 h2 => ⟨hV _ (hcols yi h1 h2).1, hV _ (hcols yi h1 h2).2⟩⟩
  · intro lines b hb
    obtain ⟨_, _, htl, htr, hbl, hbr, hrows, hcols⟩ := detectBoxes_closed lines b hb
    refine ⟨by rw [htl]; decide, by rw [htr]; decide, by rw [hbl]; decide, by rw [hbr]; decide,
      ?_, ?_⟩
    · intro xi h1 h2
      have := hrows xi h1 h2
      constructor
      · intro hc; rw [hc] at this; exact absurd this.1 (by decide)
      · intro hc; rw [hc] at this; exact absurd this.2 (by decide)
    · intro yi h1 h2
      have := hcols yi h1 h2
      constructor
      · intro hc; rw [hc] at this; exact absurd this.1 (by decide)
      · intro hc; rw [hc] at this; exact absurd this.2 (by decide)

theorem light_corner_edge_families_witness :
    (detectBoxes diagramHeavyEdges).countP
      (fun b => decide (b.x = 0 ∧ b.y = 0 ∧ b.xr = 4 ∧ b.yb = 2)) = 1 :=
  light_corner_edge_families.1 diagramHeavyEdges 0 0 4 2 (by decide) (by decide) (by decide)
    (by decide) (by decide) (by decide)
    (by
      intro xi h1 h2
      have h : xi = 1 ∨ xi = 2 ∨ xi = 3 := by omega
      rcases h with h | h | h <;> subst h <;> decide)
    (by
      intro yi h1 h2
      have h : yi = 1 := by omega
      subst h
      decide)

/-! ## Arrow glyphs -/

/-- C15 as stated fails: with `▶` in the arrow cell between the two boxes the detector returns
the forward connection, and with `→` in that cell it returns none (so do `►`, `⇒`, `⟶`). -/
theorem rightwards_arrow_not_detected :
    chAt diagramRightwards (7 : Nat) (1 : Nat) = '→' ∧
    diagramRightwards = setCell diagramAB 7 1 '→' ∧
    detectHorizontalArrows diagramAB (detectBoxes diagramAB) =
      [{ from_ := 0, to_ := 1, y := 1, kind := '→' }] ∧
    detectHorizontalArrows diagramRightwards (detectBoxes diagramRightwards) = [] ∧
    detectHorizontalArrows (setCell diagramAB 7 1 '►')
      (detectBoxes (setCell diagramAB 7 1 '►')) = [] ∧
    detectHorizontalArrows (setCell diagramAB 7 1 '⇒')
      (detectBoxes (setCell diagramAB 7 1 '⇒')) = [] ∧
    detectHorizontalArrows (setCell diagramAB 7 1 '⟶')
      (detectBoxes (setCell diagramAB 7 1 '⟶')) = [] := by
  refine ⟨by decide, by decide, by decide, by decide, by decide, by decide, by decide⟩

/-- C15, amended: `detectHorizontalArrows` treats `▶` and `>` as forward arrows and `◀`, `<` as
backward arrows: a connection pushed at a cell holding `▶` or `>` has kind `→`, one pushed at
a cell holding `◀` or `<` has kind `←`, and replacing one of the two forward glyphs by the
other keeps the connection pushed at that cell and at every other cell.  A cell holding `►`,
`→`, `⇒` or `⟶` pushes no connection. -/
theorem arrow_glyph_set :
    (∀ (lines : List (List Char)) (boxes : List Box) (x y : Nat) (e : Edge),
      e ∈ arrowAt lines boxes y x →
      ((chAt lines x y = '▶' ∨ chAt lines x y = '>') ∧ e.kind = '→') ∨
      ((chAt lines x y = '◀' ∨ chAt lines x y = '<') ∧ e.kind = '←')) ∧
    (∀ (lines : List (List Char)) (boxes : List Box) (x y : Nat) (c : Char),
      (chAt lines x y = '▶' ∨ chAt lines x y = '>') → (c = '▶' ∨ c = '>') →
      ∀ x2 y2 : Nat, arrowAt (setCell lines x y c) boxes y2 x2 = arrowAt lines boxes y2 x2) ∧
    (∀ (lines : List (List Char)) (boxes : List Box) (x y : Nat),
      (chAt lines x y = '►' ∨ chAt lines x y = '→' ∨ chAt lines x y = '⇒' ∨
        chAt lines x y = '⟶') →
      arrowAt lines boxes y x = []) ∧
    detectHorizontalArrows (setCell diagramAB 7 1 '>') (detectBoxes (setCell diagramAB 7 1 '>')) =
      detectHorizontalArrows diagramAB (detectBoxes diagramAB) := by
  refine ⟨?_, ?_, ?_, by decide⟩
  · intro lines boxes x y e he
    rcases (arrowAt_mem lines boxes y x e he).2.2.2.2 with ⟨hk, hc, _⟩ | ⟨hk, hc, _⟩
    · exact Or.inl ⟨hc, hk⟩
    · exact Or.inr ⟨hc, hk⟩
  · intro lines boxes x y c hold hnew x2 y2
    have hold4 : chAt lines x y = '▶' ∨ chAt lines x y = '>' ∨ chAt lines x y = '◀' ∨
        chAt lines x y = '<' := by
      rcases hold with h | h
      · exact Or.inl h
      · exact Or.inr (Or.inl h)
    have hnew4 : c = '▶' ∨ c = '>' ∨ c = '◀' ∨ c = '<' := by
      rcases hnew with h | h
      · exact Or.inl h
      · exact Or.inr (Or.inl h)
    have hne : chAt lines x y ≠ ' ' := by
      rcases hold with h | h <;> rw [h] <;> decide
    have hx := (chAt_ne_blank lines x y hne).2.1
    have hL := leftBox_setCell lines boxes x y c hold4 hnew4
    have hR := rightBox_setCell lines boxes x y c hold4 hnew4
    by_cases hxy : x2 = x ∧ y2 = y
    · obtain ⟨rfl, rfl⟩ := hxy
      have hcell : chAt (setCell lines x2 y2 c) x2 y2 = c := by
        rw [chAt_setCell lines x2 y2 c hx, if_pos ⟨rfl, rfl⟩]
      rw [arrowAt_forward lines boxes x2 y2 hold,
        arrowAt_forward (setCell lines x2 y2 c) boxes x2 y2 (by rw [hcell]; exact hnew), hL, hR]
    · unfold arrowAt
      simp only [hL, hR, chAt_setCell lines x y c hx, if_neg hxy]
  · intro lines boxes x y hc
    unfold arrowAt
    simp only
    rw [if_pos]
    rcases hc with h | h | h | h <;> rw [h] <;> decide

theorem arrow_glyph_set_witness :
    (chAt diagramRightwards (7 : Nat) (1 : Nat) = '►' ∨
      chAt diagramRightwards (7 : Nat) (1 : Nat) = '→' ∨
      chAt diagramRightwards (7 : Nat) (1 : Nat) = '⇒' ∨
      chAt diagramRightwards (7 : Nat) (1 : Nat) = '⟶') ∧
    arrowAt diagramRightwards (detectBoxes diagramRightwards) 1 7 = [] :=
  ⟨Or.inr (Or.inl (by decide)),
    arrow_glyph_set.2.2.1 diagramRightwards (detectBoxes diagramRightwards) 7 1
      (Or.inr (Or.inl (by decide)))⟩

/-! ## Several arrowheads, stacked arrows -/

/-- C16 at its failing input: in `diagramTwoHeads` the two boxes are joined on row 1 by a line
with two forward arrowheads; each arrowhead stops the scan started at the other one, so no
connection is pushed and the detector returns none. -/
theorem two_arrowheads_no_connection :
    detectBoxes diagramTwoHeads =
      [{ x := 0, y := 0, xr := 4, yb := 2, label := ['A'] },
       { x := 9, y := 0, xr := 13, yb := 2, label := ['B'] }] ∧
    chAt diagramTwoHeads (6 : Nat) (1 : Nat) = '▶' ∧
    chAt diagramTwoHeads (8 : Nat) (1 : Nat) = '▶' ∧
    leftBox diagramTwoHeads (detectBoxes diagramTwoHeads) 6 1 = 0 ∧
    rightBox diagramTwoHeads (detectBoxes diagramTwoHeads) 6 1 = -1 ∧
    leftBox diagramTwoHeads (detectBoxes diagramTwoHeads) 8 1 = -1 ∧
    rightBox diagramTwoHeads (detectBoxes diagramTwoHeads) 8 1 = 1 ∧
    rawEdges diagramTwoHeads (detectBoxes diagramTwoHeads) = [] ∧
    detectHorizontalArrows diagramTwoHeads (detectBoxes diagramTwoHeads) = [] := by
  refine ⟨by decide, by decide, by decide, by decide, by decide, by decide, by decide, by decide,
    by decide⟩

theorem two_le_countP {α : Type} (p : α → Bool) (l : List α) (a b : α)
    (ha : a ∈ l) (hb : b ∈ l) (hab : a ≠ b) (hpa : p a = true) (hpb : p b = true) :
    2 ≤ l.countP p := by
  induction l with
  | nil => simp at ha
  | cons c rest ih =>
    rw [List.countP_cons]
    rcases List.mem_cons.1 ha with h1 | h1
    · rcases List.mem_cons.1 hb with h2 | h2
      · exact absurd (h1.trans h2.symm) hab
      · have : 0 < rest.countP p := List.countP_pos_iff.2 ⟨b, h2, hpb⟩
        rw [← h1, if_pos hpa]
        omega
    · rcases List.mem_cons.1 hb with h2 | h2
      · have : 0 < rest.countP p := List.countP_pos_iff.2 ⟨a, h1, hpa⟩
        rw [← h2, if_pos hpb]
        omega
      · have := ih h1 h2
        omega

/-- C17 as stated fails: in `diagramStacked` the boxes 0 and 1 are joined by a forward arrow on
each of the adjacent rows 1 and 2, and the detector returns two connections from 0 to 1. -/
theorem stacked_arrows_two_connections :
    detectBoxes diagramStacked =
      [{ x := 0, y := 0, xr := 4, yb := 3, label := ['A'] },
       { x := 8, y := 0, xr := 12, yb := 3, label := ['B'] }] ∧
    detectHorizontalArrows diagramStacked (detectBoxes diagramStacked) =
      [{ from_ := 0, to_ := 1, y := 1, kind := '→' }, { from_ := 0, to_ := 1, y := 2, kind := '→' }] ∧
    (detectHorizontalArrows diagramStacked (detectBoxes diagramStacked)).countP
      (fun e => decide (e.from_ = 0 ∧ e.to_ = 1)) ≠ 1 := by
  refine ⟨by decide, by decide, by decide⟩

/-- C17, amended: when the same two detected boxes `A` and `B` are joined by a forward arrow on
each of the adjacent rows `y` and `y + 1` (on each row the cells between the right border of
`A`, the arrow glyph and the left border of `B` are horizontal-line glyphs or blanks, and
`boxAt` resolves the border cells to `A` and `B`), `detectHorizontalArrows` returns one
connection from `A` to `B` for each row, `{A, B, y, '→'}` and `{A, B, y + 1, '→'}`: at least
two connections from `A` to `B`, since the key of the de-duplication holds the row.  The
diagram `diagramStacked` yields exactly these two. -/
theorem stacked_arrows_one_per_row :
    (∀ (lines : List (List Char)) (x1 x2 y A B : Nat) (bA bB : Box),
      (detectBoxes lines)[A]? = some bA → (detectBoxes lines)[B]? = some bB → A ≠ B →
      (chAt lines x1 y = '▶' ∨ chAt lines x1 y = '>') →
      (chAt lines x2 (y + 1 : Nat) = '▶' ∨ chAt lines x2 (y + 1 : Nat) = '>') →
      bA.xr < x1 → x1 < bB.x → bA.xr < x2 → x2 < bB.x →
      (∀ c : Nat, bA.xr < c → c < bB.x → c ≠ x1 →
        (isHLine (chAt lines c y) = true ∨ chAt lines c y = ' ')) →
      (∀ c : Nat, bA.xr < c → c < bB.x → c ≠ x2 →
        (isHLine (chAt lines c (y + 1 : Nat)) = true ∨ chAt lines c (y + 1 : Nat) = ' ')) →
      boxAt (detectBoxes lines) bA.xr y = (A : Int) →
      boxAt (detectBoxes lines) bB.x y = (B : Int) →
      boxAt (detectBoxes lines) bA.xr (y + 1 : Nat) = (A : Int) →
      boxAt (detectBoxes lines) bB.x (y + 1 : Nat) = (B : Int) →
      ({ from_ := A, to_ := B, y := y, kind := '→' } : Edge) ∈
        detectHorizontalArrows lines (detectBoxes lines) ∧
      ({ from_ := A, to_ := B, y := y + 1, kind := '→' } : Edge) ∈
        detectHorizontalArrows lines (detectBoxes lines) ∧
      2 ≤ (detectHorizontalArrows lines (detectBoxes lines)).countP
        (fun e => decide (e.from_ = (A : Int) ∧ e.to_ = (B : Int)))) ∧
    detectHorizontalArrows diagramStacked (detectBoxes diagramStacked) =
      [{ from_ := 0, to_ := 1, y := 1, kind := '→' },
       { from_ := 0, to_ := 1, y := 2, kind := '→' }] := by
  refine ⟨?_, by decide⟩
  intro lines x1 x2 y A B bA bB hA hB hAB hg1 hg2 ha1 hb1 ha2 hb2 hrow1 hrow2 hA1 hB1 hA2 hB2
  have h1 := forward_edge_mem lines x1 y A B bA bB hg1 hA hB hAB ha1 hb1
    (fun c hc1 hc2 => hrow1 c hc1 (by omega) (by omega))
    (fun c hc1 hc2 => hrow1 c (by omega) hc2 (by omega)) hA1 hB1
  have h2 := forward_edge_mem lines x2 (y + 1) A B bA bB hg2 hA hB hAB ha2 hb2
    (fun c hc1 hc2 => hrow2 c hc1 (by omega) (by omega))
    (fun c hc1 hc2 => hrow2 c (by omega) hc2 (by omega)) hA2 hB2
  refine ⟨h1, h2, ?_⟩
  apply two_le_countP _ _ _ _ h1 h2
  · intro hc
    have := congrArg Edge.y hc
    simp at this
  · simp
  · simp

theorem stacked_arrows_one_per_row_witness :
    (chAt diagramStacked (7 : Nat) (1 : Nat) = '▶' ∨ chAt diagramStacked (7 : Nat) (1 : Nat) = '>') ∧
    2 ≤ (detectHorizontalArrows diagramStacked (detectBoxes diagramStacked)).countP
      (fun e => decide (e.from_ = ((0 : Nat) : Int) ∧ e.to_ = ((1 : Nat) : Int))) :=
  ⟨Or.inl (by decide),
    (stacked_arrows_one_per_row.1 diagramStacked 7 7 1 0 1
      { x := 0, y := 0, xr := 4, yb := 3, label := ['A'] }
      { x := 8, y := 0, xr := 12, yb := 3, label := ['B'] }
      (by decide) (by decide) (by decide) (Or.inl (by decide)) (Or.inl (by decide))
      (by decide) (by decide) (by decide) (by decide)
      (by
        intro c h1 h2 h3
        simp only at h1 h2
        have h : c = 5 ∨ c = 6 := by omega
        rcases h with h | h <;> subst h <;> decide)
      (by
        intro c h1 h2 h3
        simp only at h1 h2
        have h : c = 5 ∨ c = 6 := by omega
        rcases h with h | h <;> subst h <;> decide)
      (by decide) (by decide) (by decide) (by decide)).2.2⟩

/-! ## Rendering -/

theorem boxAtFrom_range (x y : Int) (i : Nat) (boxes : List Box) :
    boxAtFrom x y i boxes = -1 ∨
      ((i : Int) ≤ boxAtFrom x y i boxes ∧ boxAtFrom x y i boxes < (i : Int) + boxes.length) := by
  induction boxes generalizing i with
  | nil => left; rfl
  | cons b rest ih =>
    unfold boxAtFrom
    split
    · right
      simp only [List.length_cons, Nat.cast_add, Nat.cast_one]
      omega
    · rcases ih (i + 1) with h | h
      · left; exact h
      · right
        simp only [List.length_cons, Nat.cast_add, Nat.cast_one] at h ⊢
        omega

theorem boxAt_lt (boxes : List Box) (x y : Int) : boxAt boxes x y < (boxes.length : Int) := by
  unfold boxAt
  rcases boxAtFrom_range x y 0 boxes with h | h
  · rw [h]; omega
  · simp only [Nat.cast_zero, zero_add] at h
    exact h.2

theorem leftBox_lt (lines : List (List Char)) (boxes : List Box) (x y : Nat) :
    leftBox lines boxes x y < (boxes.length : Int) := by
  obtain ⟨c, _, hc⟩ := leftBox_cases lines boxes x y
  rw [hc]
  exact boxAt_lt boxes c y

theorem rightBox_lt (lines : List (List Char)) (boxes : List Box) (x y : Nat) :
    rightBox lines boxes x y < (boxes.length : Int) := by
  obtain ⟨c, _, hc⟩ := rightBox_cases lines boxes x y
  rw [hc]
  exact boxAt_lt boxes c y

theorem edges_in_range (lines : List (List Char)) (boxes : List Box) (e : Edge)
    (he : e ∈ detectHorizontalArrows lines boxes) :
    0 ≤ e.from_ ∧ e.from_ < (boxes.length : Int) ∧ 0 ≤ e.to_ ∧ e.to_ < (boxes.length : Int) := by
  have hraw := dedupEdges_subset (rawEdges lines boxes) e he
  obtain ⟨y, _, x, _, hm⟩ := (mem_rawEdges lines boxes e).1 hraw
  obtain ⟨_, h1, h2, _, hk⟩ := arrowAt_mem lines boxes y x e hm
  rcases hk with ⟨_, _, hf, ht⟩ | ⟨_, _, hf, ht⟩
  · exact ⟨h1, by rw [hf]; exact leftBox_lt lines boxes x y, h2,
      by rw [ht]; exact rightBox_lt lines boxes x y⟩
  · exact ⟨h1, by rw [hf]; exact rightBox_lt lines boxes x y, h2,
      by rw [ht]; exact leftBox_lt lines boxes x y⟩

theorem boxLookup_isSome (boxes : List Box) (i : Int) (h0 : 0 ≤ i)
    (h1 : i < (boxes.length : Int)) : ∃ b, boxLookup boxes i = some b := by
  unfold boxLookup
  rw [if_neg (by omega)]
  have hlt : i.toNat < boxes.length := by omega
  exact ⟨boxes[i.toNat], List.getElem?_eq_getElem hlt⟩

theorem edgeLine_isSome (boxes : List Box) (e : Edge) (bf bt : Box)
    (hf : boxLookup boxes e.from_ = some bf) (ht : boxLookup boxes e.to_ = some bt) :
    edgeLine boxes e ≠ none := by
  unfold edgeLine
  rw [hf, ht]
  simp

theorem length_boxRectsFrom (i : Nat) (boxes : List Box) :
    (boxRectsFrom i boxes).length = boxes.length := by
  induction boxes generalizing i with
  | nil => rfl
  | cons b rest ih => simp [boxRectsFrom, ih]

theorem getElem?_boxRectsFrom (i : Nat) (boxes : List Box) (k : Nat) (b : Box)
    (h : boxes[k]? = some b) : (boxRectsFrom i boxes)[k]? = some (nodeGroup b (i + k)) := by
  induction boxes generalizing i k with
  | nil => simp at h
  | cons a rest ih =>
    cases k with
    | zero =>
      simp only [List.getElem?_cons_zero, Option.some.injEq] at h
      subst h
      simp [boxRectsFrom]
    | succ k =>
      simp only [List.getElem?_cons_succ] at h
      simp only [boxRectsFrom, List.getElem?_cons_succ]
      rw [ih (i + 1) k h]
      congr 2
      omega

/-- C18: the scene mapping is total: for every grid, with `boxes = detectBoxes()` and
`edges = detectHorizontalArrows(boxes)`, every edge has `0 <= from < boxes.length` and
`0 <= to < boxes.length`; `toHTML` builds one node group per box and one entry per connection,
and no entry is the empty string of the missing-box branch. -/
theorem scene_mapping_total (lines : List (List Char)) :
    (∀ e ∈ detectHorizontalArrows lines (detectBoxes lines),
      0 ≤ e.from_ ∧ e.from_ < ((detectBoxes lines).length : Int) ∧
      0 ≤ e.to_ ∧ e.to_ < ((detectBoxes lines).length : Int)) ∧
    (boxRects (detectBoxes lines)).length = (detectBoxes lines).length ∧
    (edgeLines (detectBoxes lines) (detectHorizontalArrows lines (detectBoxes lines))).length =
      (detectHorizontalArrows lines (detectBoxes lines)).length ∧
    (∀ p ∈ edgeLines (detectBoxes lines) (detectHorizontalArrows lines (detectBoxes lines)),
      p ≠ none) := by
  refine ⟨edges_in_range lines _, length_boxRectsFrom 0 _, by simp [edgeLines], ?_⟩
  intro p hp
  unfold edgeLines at hp
  obtain ⟨e, he, rfl⟩ := List.mem_map.1 hp
  obtain ⟨h1, h2, h3, h4⟩ := edges_in_range lines _ e he
  obtain ⟨bf, hf⟩ := boxLookup_isSome _ _ h1 h2
  obtain ⟨bt, ht⟩ := boxLookup_isSome _ _ h3 h4
  exact edgeLine_isSome _ e bf bt hf ht

/-- C19: connection endpoints in `toHTML`: for a forward connection (`→`) the path goes from
`(12·from.xr + 6, 11·(from.y + from.yb))` to `(12·to.x − 6, 11·(to.y + to.yb))`; for a backward
connection (`←`) from `(12·from.x − 6, 11·(from.y + from.yb))` to
`(12·to.xr + 6, 11·(to.y + to.yb))`. -/
theorem edge_endpoints (boxes : List Box) (e : Edge) (bf bt : Box)
    (hf : boxLookup boxes e.from_ = some bf) (ht : boxLookup boxes e.to_ = some bt) :
    (e.kind = '→' → edgeLine boxes e =
      some { x1 := 12 * (bf.xr : ℚ) + 6, y1 := 11 * ((bf.y : ℚ) + (bf.yb : ℚ)),
             x2 := 12 * (bt.x : ℚ) - 6, y2 := 11 * ((bt.y : ℚ) + (bt.yb : ℚ)) }) ∧
    (e.kind = '←' → edgeLine boxes e =
      some { x1 := 12 * (bf.x : ℚ) - 6, y1 := 11 * ((bf.y : ℚ) + (bf.yb : ℚ)),
             x2 := 12 * (bt.xr : ℚ) + 6, y2 := 11 * ((bt.y : ℚ) + (bt.yb : ℚ)) }) := by
  have hne : ('→' : Char) ≠ '←' := by decide
  constructor
  · intro hk
    unfold edgeLine
    rw [hf, ht]
    simp only [hk, if_neg hne, if_true, CELL_W, CELL_H, OFFSET]
    congr 1
    simp only [EdgePath.mk.injEq]
    refine ⟨?_, ?_, ?_, ?_⟩ <;> push_cast <;> ring
  · intro hk
    unfold edgeLine
    rw [hf, ht]
    simp only [hk, if_neg (Ne.symm hne), if_true, CELL_W, CELL_H, OFFSET]
    congr 1
    simp only [EdgePath.mk.injEq]
    refine ⟨?_, ?_, ?_, ?_⟩ <;> push_cast <;> ring

theorem scene_mapping_total_witness :
    ({ from_ := 0, to_ := 1, y := 1, kind := '→' } : Edge) ∈
      detectHorizontalArrows diagramAB (detectBoxes diagramAB) ∧
    ((0 : Int) ≤ 0 ∧ (0 : Int) < ((detectBoxes diagramAB).length : Int) ∧
      (0 : Int) ≤ 1 ∧ (1 : Int) < ((detectBoxes diagramAB).length : Int)) :=
  ⟨by decide,
    (scene_mapping_total diagramAB).1 { from_ := 0, to_ := 1, y := 1, kind := '→' } (by decide)⟩

theorem edge_endpoints_witness :
    boxLookup (detectBoxes diagramAB) 0 =
      some { x := 0, y := 0, xr := 4, yb := 2, label := ['A'] } ∧
    boxLookup (detectBoxes diagramAB) 1 =
      some { x := 8, y := 0, xr := 12, yb := 2, label := ['B'] } ∧
    edgeLine (detectBoxes diagramAB) { from_ := 0, to_ := 1, y := 1, kind := '→' } =
      some { x1 := 12 * ((4 : Nat) : ℚ) + 6, y1 := 11 * (((0 : Nat) : ℚ) + ((2 : Nat) : ℚ)),
             x2 := 12 * ((8 : Nat) : ℚ) - 6, y2 := 11 * (((0 : Nat) : ℚ) + ((2 : Nat) : ℚ)) } :=
  ⟨by decide, by decide,
    (edge_endpoints (detectBoxes diagramAB) { from_ := 0, to_ := 1, y := 1, kind := '→' }
      { x := 0, y := 0, xr := 4, yb := 2, label := ['A'] }
      { x := 8, y := 0, xr := 12, yb := 2, label := ['B'] } (by decide) (by decide)).1 rfl⟩

/-- C20: rectangle screen geometry in `toHTML`: for every box `b` returned by `detectBoxes`,
at index `i`, the `i`-th node group has the rect `x = 12·b.x + 1`, `y = 22·b.y + 1`,
`width = 12·(b.xr − b.x) − 2`, `height = 22·(b.yb − b.y) − 2`, with `width >= 10` and
`height >= 20`, and the label area has width `max(0, 12·(b.xr − b.x) − 24)` and height
`max(0, 22·(b.yb − b.y) − 24)`, both non-negative. -/
theorem rect_geometry (lines : List (List Char)) (i : Nat) (b : Box)
    (h : (detectBoxes lines)[i]? = some b) :
    ∃ g : NodeGroup, (boxRects (detectBoxes lines))[i]? = some g ∧ g.dataId = i ∧
      g.rectX = 12 * (b.x : Int) + 1 ∧ g.rectY = 22 * (b.y : Int) + 1 ∧
      g.rectWidth = 12 * ((b.xr : Int) - b.x) - 2 ∧
      g.rectHeight = 22 * ((b.yb : Int) - b.y) - 2 ∧
      10 ≤ g.rectWidth ∧ 20 ≤ g.rectHeight ∧
      g.foWidth = max 0 (12 * ((b.xr : Int) - b.x) - 24) ∧
      g.foHeight = max 0 (22 * ((b.yb : Int) - b.y) - 24) ∧
      0 ≤ g.foWidth ∧ 0 ≤ g.foHeight := by
  have hclosed := detectBoxes_closed lines b (List.getElem?_mem h)
  have hx : b.x < b.xr := hclosed.1
  have hy : b.y < b.yb := hclosed.2.1
  refine ⟨nodeGroup b i, ?_, ?_⟩
  · unfold boxRects
    rw [getElem?_boxRectsFrom 0 _ i b h]
    simp
  · have hw : ((b.xr : Int) - b.x) * 12 - 2 * 12 = 12 * ((b.xr : Int) - b.x) - 24 := by omega
    have hh : ((b.yb : Int) - b.y) * 22 - 2 * 12 = 22 * ((b.yb : Int) - b.y) - 24 := by omega
    refine ⟨rfl, ?_, ?_, ?_, ?_, ?_, ?_, ?_, ?_, ?_, ?_⟩
    · show (b.x : Int) * 12 + 1 = 12 * (b.x : Int) + 1
      omega
    · show (b.y : Int) * 22 + 1 = 22 * (b.y : Int) + 1
      omega
    · show ((b.xr : Int) - b.x) * 12 - 2 = 12 * ((b.xr : Int) - b.x) - 2
      omega
    · show ((b.yb : Int) - b.y) * 22 - 2 = 22 * ((b.yb : Int) - b.y) - 2
      omega
    · show 10 ≤ ((b.xr : Int) - b.x) * 12 - 2
      omega
    · show 20 ≤ ((b.yb : Int) - b.y) * 22 - 2
      omega
    · show max 0 (((b.xr : Int) - b.x) * 12 - 2 * 12) = _
      rw [hw]
    · show max 0 (((b.yb : Int) - b.y) * 22 - 2 * 12) = _
      rw [hh]
    · exact le_max_left _ _
    · exact le_max_left _ _

theorem rect_geometry_witness :
    (detectBoxes diagramAB)[1]? = some { x := 8, y := 0, xr := 12, yb := 2, label := ['B'] } ∧
    ∃ g : NodeGroup, (boxRects (detectBoxes diagramAB))[1]? = some g ∧ g.dataId = 1 ∧
      g.rectX = 12 * ((8 : Nat) : Int) + 1 ∧ g.rectY = 22 * ((0 : Nat) : Int) + 1 ∧
      g.rectWidth = 12 * (((12 : Nat) : Int) - (8 : Nat)) - 2 ∧
      g.rectHeight = 22 * (((2 : Nat) : Int) - (0 : Nat)) - 2 ∧
      10 ≤ g.rectWidth ∧ 20 ≤ g.rectHeight ∧
      g.foWidth = max 0 (12 * (((12 : Nat) : Int) - (8 : Nat)) - 24) ∧
      g.foHeight = max 0 (22 * (((2 : Nat) : Int) - (0 : Nat)) - 24) ∧
      0 ≤ g.foWidth ∧ 0 ≤ g.foHeight :=
  ⟨by decide,
    rect_geometry diagramAB 1 { x := 8, y := 0, xr := 12, yb := 2, label := ['B'] } (by decide)⟩

/-! ## The membership test `boxAt` -/

theorem boxAtFrom_spec (x y : Int) (i : Nat) (boxes : List Box) :
    (boxAtFrom x y i boxes = -1 ∧
      ∀ b ∈ boxes, ¬ (x ≥ b.x ∧ x ≤ b.xr ∧ y ≥ b.y ∧ y ≤ b.yb)) ∨
    (∃ (k : Nat) (b : Box), boxAtFrom x y i boxes = ((i + k : Nat) : Int) ∧
      boxes[k]? = some b ∧ (x ≥ b.x ∧ x ≤ b.xr ∧ y ≥ b.y ∧ y ≤ b.yb) ∧
      ∀ (j : Nat) (bj : Box), j < k → boxes[j]? = some bj →
        ¬ (x ≥ bj.x ∧ x ≤ bj.xr ∧ y ≥ bj.y ∧ y ≤ bj.yb)) := by
  induction boxes generalizing i with
  | nil => left; exact ⟨rfl, by simp⟩
  | cons a rest ih =>
    unfold boxAtFrom
    by_cases ha : x ≥ a.x ∧ x ≤ a.xr ∧ y ≥ a.y ∧ y ≤ a.yb
    · right
      rw [if_pos ha]
      exact ⟨0, a, by simp, by simp, ha, fun j bj hj _ => absurd hj (by omega)⟩
    · rw [if_neg ha]
      rcases ih (i + 1) with ⟨h1, h2⟩ | ⟨k, b, h1, h2, h3, h4⟩
      · left
        refine ⟨h1, ?_⟩
        intro b hb
        rcases List.mem_cons.1 hb with h | h
        · rw [h]; exact ha
        · exact h2 b h
      · right
        refine ⟨k + 1, b, ?_, by simpa using h2, h3, ?_⟩
        · rw [h1]; congr 1; omega
        · intro j bj hj hbj
          cases j with
          | zero =>
            simp only [List.getElem?_cons_zero, Option.some.injEq] at hbj
            rw [← hbj]; exact ha
          | succ j =>
            simp only [List.getElem?_cons_succ] at hbj
            exact h4 j bj (by omega) hbj

theorem boxAt_spec (boxes : List Box) (x y : Int) :
    (boxAt boxes x y = -1 ∧
      ∀ b ∈ boxes, ¬ (x ≥ b.x ∧ x ≤ b.xr ∧ y ≥ b.y ∧ y ≤ b.yb)) ∨
    (∃ (k : Nat) (b : Box), boxAt boxes x y = (k : Int) ∧
      boxes[k]? = some b ∧ (x ≥ b.x ∧ x ≤ b.xr ∧ y ≥ b.y ∧ y ≤ b.yb) ∧
      ∀ (j : Nat) (bj : Box), j < k → boxes[j]? = some bj →
        ¬ (x ≥ bj.x ∧ x ≤ bj.xr ∧ y ≥ bj.y ∧ y ≤ bj.yb)) := by
  unfold boxAt
  rcases boxAtFrom_spec x y 0 boxes with h | ⟨k, b, h1, h2, h3, h4⟩
  · exact Or.inl h
  · exact Or.inr ⟨k, b, by rw [h1]; congr 1; omega, h2, h3, h4⟩

theorem boxAt_le (boxes : List Box) (x y : Int) (k : Nat) (b : Box)
    (hb : boxes[k]? = some b) (hin : x ≥ b.x ∧ x ≤ b.xr ∧ y ≥ b.y ∧ y ≤ b.yb) :
    0 ≤ boxAt boxes x y ∧ boxAt boxes x y ≤ (k : Int) := by
  rcases boxAt_spec boxes x y with ⟨_, h2⟩ | ⟨k2, b2, h1, _, _, h4⟩
  · exact absurd hin (h2 b (List.getElem?_mem hb))
  · rw [h1]
    refine ⟨by omega, ?_⟩
    by_contra hc
    exact h4 k b (by omega) hb hin

/-- C21: `boxAt`: for every box list and every cell `(x, y)`, `boxAt(x, y)` is `-1` exactly
when no box holds the cell (`b.x <= x <= b.xr` and `b.y <= y <= b.yb`, border cells included),
and it is the index `i` exactly when `boxes[i]` holds the cell and no box of smaller index
does; it returns `-1` or such an index. -/
theorem boxAt_smallest_index (boxes : List Box) (x y : Int) :
    (boxAt boxes x y = -1 ↔
      ∀ b ∈ boxes, ¬ (x ≥ b.x ∧ x ≤ b.xr ∧ y ≥ b.y ∧ y ≤ b.yb)) ∧
    (∀ i : Nat, boxAt boxes x y = (i : Int) ↔
      (∃ b, boxes[i]? = some b ∧ (x ≥ b.x ∧ x ≤ b.xr ∧ y ≥ b.y ∧ y ≤ b.yb)) ∧
      ∀ (j : Nat) (bj : Box), j < i → boxes[j]? = some bj →
        ¬ (x ≥ bj.x ∧ x ≤ bj.xr ∧ y ≥ bj.y ∧ y ≤ bj.yb)) ∧
    (boxAt boxes x y = -1 ∨ ∃ i : Nat, boxAt boxes x y = (i : Int)) := by
  refine ⟨?_, ?_, ?_⟩
  · constructor
    · intro h
      rcases boxAt_spec boxes x y with ⟨_, h2⟩ | ⟨k, b, h1, _⟩
      · exact h2
      · rw [h1] at h; omega
    · exact boxAt_none boxes x y
  · intro i
    constructor
    · intro h
      rcases boxAt_spec boxes x y with ⟨h1, _⟩ | ⟨k, b, h1, h2, h3, h4⟩
      · rw [h1] at h; omega
      · have hk : k = i := by rw [h1] at h; omega
        subst hk
        exact ⟨⟨b, h2, h3⟩, h4⟩
    · rintro ⟨⟨b, hb, hin⟩, hmin⟩
      rcases boxAt_spec boxes x y with ⟨_, h2⟩ | ⟨k, b2, h1, h2, h3, h4⟩
      · exact absurd hin (h2 b (List.getElem?_mem hb))
      · rw [h1]
        congr 1
        by_contra hne
        rcases Nat.lt_or_gt_of_ne hne with hlt | hgt
        · exact hmin k b2 hlt h2 h3
        · exact h4 i b hgt hb hin
  · rcases boxAt_spec boxes x y with ⟨h1, _⟩ | ⟨k, _, h1, _⟩
    · exact Or.inl h1
    · exact Or.inr ⟨k, h1⟩

theorem boxAt_smallest_index_witness :
    (∃ b, (detectBoxes diagramAB)[1]? = some b ∧
      (((8 : Nat) : Int) ≥ b.x ∧ ((8 : Nat) : Int) ≤ b.xr ∧
        ((1 : Nat) : Int) ≥ b.y ∧ ((1 : Nat) : Int) ≤ b.yb)) ∧
    boxAt (detectBoxes diagramAB) (8 : Nat) (1 : Nat) = ((1 : Nat) : Int) :=
  ⟨⟨{ x := 8, y := 0, xr := 12, yb := 2, label := ['B'] }, by decide, by decide⟩,
    ((boxAt_smallest_index (detectBoxes diagramAB) (8 : Nat) (1 : Nat)).2.1 1).2
      ⟨⟨{ x := 8, y := 0, xr := 12, yb := 2, label := ['B'] }, by decide, by decide⟩,
        by
          intro j bj hj hbj
          have hj0 : j = 0 := by omega
          subst hj0
          have hb0 : (detectBoxes diagramAB)[0]? =
              some { x := 0, y := 0, xr := 4, yb := 2, label := ['A'] } := by decide
          rw [hb0] at hbj
          rw [← Option.some.inj hbj]
          decide⟩⟩

/-! ## Two arrow cells never push the same key -/

theorem scanLeft_between (lines : List (List Char)) (y k : Nat) :
    ∀ c : Nat, scanLeft lines y k < (c : Int) → c < k →
      (isHLine (chAt lines c y) = true ∨ chAt lines c y = ' ') := by
  induction k with
  | zero => intro c _ hc; omega
  | succ k ih =>
    intro c h1 h2
    unfold scanLeft at h1
    split at h1
    · rename_i hcond
      by_cases hck : c = k
      · subst hck; exact hcond
      · exact ih c h1 (by omega)
    · omega

theorem scanLeft_ge_stopper (lines : List (List Char)) (y k t : Nat) (ht : t < k)
    (hs : ¬ (isHLine (chAt lines t y) = true ∨ chAt lines t y = ' ')) :
    (t : Int) ≤ scanLeft lines y k := by
  by_contra hc
  exact hs (scanLeft_between lines y k t (by omega) ht)

theorem scanRight_between (lines : List (List Char)) (y x : Nat) :
    ∀ c : Nat, x < c → c < scanRight lines y x →
      (isHLine (chAt lines c y) = true ∨ chAt lines c y = ' ') := by
  intro c h1 h2
  unfold scanRight at h2
  have := (whileUp_between _ _ _ (x + 1) c (by omega) h2).2
  simpa using this

theorem scanRight_le_stopper (lines : List (List Char)) (y x t : Nat) (ht : x < t)
    (hs : ¬ (isHLine (chAt lines t y) = true ∨ chAt lines t y = ' ')) :
    scanRight lines y x ≤ t := by
  by_contra hc
  exact hs (scanRight_between lines y x t ht (by omega))

theorem arrow_not_lineOrBlank (c : Char) (h : c = '▶' ∨ c = '>' ∨ c = '◀' ∨ c = '<') :
    ¬ (isHLine c = true ∨ c = ' ') := by
  rcases h with h | h | h | h <;> subst h <;> decide

/-- A cell of the left or right border column of a closed rectangle, on one of its rows, is not
an arrow glyph. -/
theorem closed_border_not_arrow (lines : List (List Char)) (x y xr yb : Nat)
    (h : Closed lines x y xr yb) (r : Nat) (h1 : y ≤ r) (h2 : r ≤ yb) :
    ¬ (chAt lines x r = '▶' ∨ chAt lines x r = '>' ∨ chAt lines x r = '◀' ∨
        chAt lines x r = '<') ∧
    ¬ (chAt lines xr r = '▶' ∨ chAt lines xr r = '>' ∨ chAt lines xr r = '◀' ∨
        chAt lines xr r = '<') := by
  obtain ⟨_, _, htl, htr, hbl, hbr, _, hcols⟩ := h
  have hv : ∀ c : Char, isVLine c = true → ¬ (c = '▶' ∨ c = '>' ∨ c = '◀' ∨ c = '<') := by
    intro c hc
    simp only [isVLine, Bool.or_eq_true, beq_iff_eq] at hc
    rcases hc with ((((hc | hc) | hc) | hc) | hc) | hc <;> subst hc <;> decide
  by_cases hr1 : r = y
  · subst hr1
    rw [htl, htr]
    exact ⟨by decide, by decide⟩
  · by_cases hr2 : r = yb
    · subst hr2
      rw [hbl, hbr]
      exact ⟨by decide, by decide⟩
    · have := hcols r (by omega) (by omega)
      exact ⟨hv _ this.1, hv _ this.2⟩

/-- A detected box that holds a cell of the open scan window of an arrow cell holds both ends
of the window. -/
theorem box_holds_window (lines : List (List Char)) (x y : Nat) (b : Box)
    (hb : b ∈ detectBoxes lines)
    (hglyph : chAt lines x y = '▶' ∨ chAt lines x y = '>' ∨ chAt lines x y = '◀' ∨
      chAt lines x y = '<')
    (c : Int) (hin : c ≥ b.x ∧ c ≤ b.xr ∧ (y : Int) ≥ b.y ∧ (y : Int) ≤ b.yb)
    (h1 : scanLeft lines y x < c) (h2 : c < (scanRight lines y x : Nat)) :
    (b.x : Int) ≤ scanLeft lines y x ∧ ((scanRight lines y x : Nat) : Int) ≤ b.xr := by
  have hclosed := detectBoxes_closed lines b hb
  have hstop := closed_border_stops lines _ _ _ _ hclosed y (by omega) (by omega)
  have hnarrow := closed_border_not_arrow lines _ _ _ _ hclosed y (by omega) (by omega)
  have hl := scanLeft_between lines y x
  have hr := scanRight_between lines y x
  have hrange := scanLeft_range lines y x
  have hgt := scanRight_gt lines y x
  constructor
  · by_contra hc
    have hne : b.x ≠ x := by
      intro heq
      rw [heq] at hnarrow
      exact hnarrow.1 hglyph
    rcases Nat.lt_or_gt_of_ne hne with hlt | hgt2
    · exact hstop.1 (hl b.x (by omega) hlt)
    · exact hstop.1 (hr b.x hgt2 (by omega))
  · by_contra hc
    have hne : b.xr ≠ x := by
      intro heq
      rw [heq] at hnarrow
      exact hnarrow.2 hglyph
    rcases Nat.lt_or_gt_of_ne hne with hlt | hgt2
    · exact hstop.2 (hl b.xr (by omega) hlt)
    · exact hstop.2 (hr b.xr hgt2 (by omega))

theorem detectBoxes_index_before (lines : List (List Char)) (i j : Nat) (a b : Box)
    (hij : i < j) (ha : (detectBoxes lines)[i]? = some a) (hb : (detectBoxes lines)[j]? = some b) :
    a.before b := by
  have hp := detectBoxes_pairwise lines
  rw [List.pairwise_iff_getElem] at hp
  obtain ⟨hi, hai⟩ := List.getElem?_eq_some.1 ha
  obtain ⟨hj, hbj⟩ := List.getElem?_eq_some.1 hb
  have := hp i j hi hj hij
  rw [hai, hbj] at this
  exact this

theorem leftBox_eq_boxAt (lines : List (List Char)) (x y : Nat)
    (hglyph : chAt lines x y = '▶' ∨ chAt lines x y = '>' ∨ chAt lines x y = '◀' ∨
      chAt lines x y = '<')
    (h0 : 0 ≤ leftBox lines (detectBoxes lines) x y) :
    leftBox lines (detectBoxes lines) x y =
      boxAt (detectBoxes lines) (scanLeft lines y x) y := by
  have hrange := scanLeft_range lines y x
  have hgt := scanRight_gt lines y x
  unfold leftBox at h0 ⊢
  simp only at h0 ⊢
  by_cases hc : boxAt (detectBoxes lines) (scanLeft lines y x) y ≥ 0
  · rw [if_pos hc]
  · exfalso
    rw [if_neg hc] at h0
    obtain ⟨k, hk⟩ := Int.eq_ofNat_of_zero_le h0
    obtain ⟨b, hb, hin⟩ := boxAt_some _ _ _ k hk
    have hw := box_holds_window lines x y b (List.getElem?_mem hb) hglyph
      (scanLeft lines y x + 1) hin (by omega) (by omega)
    have := boxAt_le (detectBoxes lines) (scanLeft lines y x) y k b hb
      ⟨by omega, by omega, hin.2.2.1, hin.2.2.2⟩
    omega

theorem rightBox_eq_boxAt (lines : List (List Char)) (x y : Nat)
    (hglyph : chAt lines x y = '▶' ∨ chAt lines x y = '>' ∨ chAt lines x y = '◀' ∨
      chAt lines x y = '<')
    (h0 : 0 ≤ rightBox lines (detectBoxes lines) x y) :
    rightBox lines (detectBoxes lines) x y =
      boxAt (detectBoxes lines) (scanRight lines y x : Nat) y := by
  have hrange := scanLeft_range lines y x
  have hgt := scanRight_gt lines y x
  unfold rightBox at h0 ⊢
  simp only at h0 ⊢
  by_cases hc : boxAt (detectBoxes lines) (scanRight lines y x : Nat) y ≥ 0
  · rw [if_pos hc]
  · exfalso
    rw [if_neg hc] at h0
    obtain ⟨k, hk⟩ := Int.eq_ofNat_of_zero_le h0
    obtain ⟨b, hb, hin⟩ := boxAt_some _ _ _ k hk
    have hw := box_holds_window lines x y b (List.getElem?_mem hb) hglyph
      ((scanRight lines y x : Nat) - 1) hin (by omega) (by omega)
    have := boxAt_le (detectBoxes lines) (scanRight lines y x : Nat) y k b hb
      ⟨by omega, by omega, hin.2.2.1, hin.2.2.2⟩
    omega

/-- Two arrow cells of one row never resolve to the same pair of boxes in the same order. -/
theorem ends_same_direction (lines : List (List Char)) (y x1 x2 : Nat) (h12 : x1 < x2)
    (hg1 : chAt lines x1 y = '▶' ∨ chAt lines x1 y = '>' ∨ chAt lines x1 y = '◀' ∨
      chAt lines x1 y = '<')
    (hg2 : chAt lines x2 y = '▶' ∨ chAt lines x2 y = '>' ∨ chAt lines x2 y = '◀' ∨
      chAt lines x2 y = '<')
    (A B : Nat)
    (hL1 : boxAt (detectBoxes lines) (scanLeft lines y x1) y = (A : Int))
    (hL2 : boxAt (detectBoxes lines) (scanLeft lines y x2) y = (A : Int))
    (hR1 : boxAt (detectBoxes lines) (scanRight lines y x1 : Nat) y = (B : Int))
    (hR2 : boxAt (detectBoxes lines) (scanRight lines y x2 : Nat) y = (B : Int)) :
    A = B := by
  have hr1 := scanLeft_range lines y x1
  have hr2 := scanLeft_range lines y x2
  have hgt1 := scanRight_gt lines y x1
  have hgt2 := scanRight_gt lines y x2
  have hxl2 : (x1 : Int) ≤ scanLeft lines y x2 :=
    scanLeft_ge_stopper lines y x2 x1 h12 (arrow_not_lineOrBlank _ hg1)
  have hxr1 : scanRight lines y x1 ≤ x2 :=
    scanRight_le_stopper lines y x1 x2 h12 (arrow_not_lineOrBlank _ hg2)
  obtain ⟨bA, hbA, hinA1⟩ := boxAt_some _ _ _ A hL1
  obtain ⟨bA2, hbA2, hinA2⟩ := boxAt_some _ _ _ A hL2
  obtain ⟨bB, hbB, hinB1⟩ := boxAt_some _ _ _ B hR1
  obtain ⟨bB2, hbB2, hinB2⟩ := boxAt_some _ _ _ B hR2
  have eA : bA2 = bA := by rw [hbA] at hbA2; exact (Option.some.inj hbA2).symm
  have eB : bB2 = bB := by rw [hbB] at hbB2; exact (Option.some.inj hbB2).symm
  subst eA
  subst eB
  -- the box `A` holds the first arrow cell, hence the right end of its window
  have hwA := box_holds_window lines x1 y bA2 (List.getElem?_mem hbA) hg1 (x1 : Nat)
    ⟨by omega, by omega, hinA1.2.2.1, hinA1.2.2.2⟩ (by omega) (by omega)
  have hBA := boxAt_le (detectBoxes lines) (scanRight lines y x1 : Nat) y A bA2 hbA
    ⟨by omega, by omega, hinA1.2.2.1, hinA1.2.2.2⟩
  -- the box `B` holds the second arrow cell, hence the left end of its window
  have hwB := box_holds_window lines x2 y bB2 (List.getElem?_mem hbB) hg2 (x2 : Nat)
    ⟨by omega, by omega, hinB1.2.2.1, hinB1.2.2.2⟩ (by omega) (by omega)
  have hAB := boxAt_le (detectBoxes lines) (scanLeft lines y x2) y B bB2 hbB
    ⟨by omega, by omega, hinB1.2.2.1, hinB1.2.2.2⟩
  omega

/-- Two arrow cells of one row never resolve to the same pair of boxes in opposite orders. -/
theorem ends_opposite_direction (lines : List (List Char)) (y x1 x2 : Nat) (h12 : x1 < x2)
    (hg1 : chAt lines x1 y = '▶' ∨ chAt lines x1 y = '>' ∨ chAt lines x1 y = '◀' ∨
      chAt lines x1 y = '<')
    (hg2 : chAt lines x2 y = '▶' ∨ chAt lines x2 y = '>' ∨ chAt lines x2 y = '◀' ∨
      chAt lines x2 y = '<')
    (A B : Nat)
    (hL1 : boxAt (detectBoxes lines) (scanLeft lines y x1) y = (A : Int))
    (hR2 : boxAt (detectBoxes lines) (scanRight lines y x2 : Nat) y = (A : Int))
    (hR1 : boxAt (detectBoxes lines) (scanRight lines y x1 : Nat) y = (B : Int))
    (hL2 : boxAt (detectBoxes lines) (scanLeft lines y x2) y = (B : Int)) :
    A = B := by
  have hr1 := scanLeft_range lines y x1
  have hr2 := scanLeft_range lines y x2
  have hgt1 := scanRight_gt lines y x1
  have hgt2 := scanRight_gt lines y x2
  have hxl2 : (x1 : Int) ≤ scanLeft lines y x2 :=
    scanLeft_ge_stopper lines y x2 x1 h12 (arrow_not_lineOrBlank _ hg1)
  have hxr1 : scanRight lines y x1 ≤ x2 :=
    scanRight_le_stopper lines y x1 x2 h12 (arrow_not_lineOrBlank _ hg2)
  obtain ⟨bA, hbA, hinA1⟩ := boxAt_some _ _ _ A hL1
  obtain ⟨bA2, hbA2, hinA2⟩ := boxAt_some _ _ _ A hR2
  obtain ⟨bB, hbB, hinB1⟩ := boxAt_some _ _ _ B hR1
  obtain ⟨bB2, hbB2, hinB2⟩ := boxAt_some _ _ _ B hL2
  have eA : bA2 = bA := by rw [hbA] at hbA2; exact (Option.some.inj hbA2).symm
  have eB : bB2 = bB := by rw [hbB] at hbB2; exact (Option.some.inj hbB2).symm
  subst eA
  subst eB
  -- `A` holds both outer ends, hence the right end of the first window
  have hBA := boxAt_le (detectBoxes lines) (scanRight lines y x1 : Nat) y A bA2 hbA
    ⟨by omega, by omega, hinA1.2.2.1, hinA1.2.2.2⟩
  by_contra hne
  have hlt : B < A := by omega
  by_cases hcase : (bB2.x : Int) < (scanRight lines y x1 : Nat)
  · -- `B` reaches into the first window, hence holds its left end
    have hwB := box_holds_window lines x1 y bB2 (List.getElem?_mem hbB) hg1
      ((scanRight lines y x1 : Nat) - 1)
      ⟨by omega, by omega, hinB1.2.2.1, hinB1.2.2.2⟩ (by omega) (by omega)
    have hAB := boxAt_le (detectBoxes lines) (scanLeft lines y x1) y B bB2 hbB
      ⟨by omega, by omega, hinB1.2.2.1, hinB1.2.2.2⟩
    omega
  · -- the left border of `B` is the right end of the first window: it crosses the top edge of `A`
    have hbx : bB2.x = scanRight lines y x1 := by omega
    have hbefore := detectBoxes_index_before lines B A bB2 bA2 hlt hbB hbA
    have hyBA : bB2.y < bA2.y := by
      unfold Box.before at hbefore
      omega
    have hclosedA := detectBoxes_closed lines bA2 (List.getElem?_mem hbA)
    have hclosedB := detectBoxes_closed lines bB2 (List.getElem?_mem hbB)
    have htop := (hclosedA.2.2.2.2.2.2.1 bB2.x (by omega) (by omega)).1
    have hstop := (closed_border_stops lines _ _ _ _ hclosedB bA2.y (by omega) (by omega)).1
    exact hstop (Or.inl htop)

theorem arrowAt_length_le_one (lines : List (List Char)) (boxes : List Box) (y x : Nat) :
    (arrowAt lines boxes y x).length ≤ 1 := by
  unfold arrowAt
  simp only
  split
  · simp
  split
  · split <;> simp
  split
  · split <;> simp
  · simp

theorem pairwise_of_length_le_one {α : Type} (R : α → α → Prop) (l : List α)
    (h : l.length ≤ 1) : l.Pairwise R := by
  match l, h with
  | [], _ => exact List.Pairwise.nil
  | [a], _ => exact List.pairwise_singleton R a
  | a :: b :: rest, h => simp at h

/-- Two different arrow cells of one row never push the same key on detected boxes. -/
theorem arrow_keys_distinct_lt (lines : List (List Char)) (y x1 x2 : Nat) (h12 : x1 < x2)
    (e1 e2 : Edge) (he1 : e1 ∈ arrowAt lines (detectBoxes lines) y x1)
    (he2 : e2 ∈ arrowAt lines (detectBoxes lines) y x2) : e1.key ≠ e2.key := by
  obtain ⟨_, hf1, ht1, hne1, hk1⟩ := arrowAt_mem lines _ y x1 e1 he1
  obtain ⟨_, hf2, ht2, hne2, hk2⟩ := arrowAt_mem lines _ y x2 e2 he2
  have hg1 : chAt lines x1 y = '▶' ∨ chAt lines x1 y = '>' ∨ chAt lines x1 y = '◀' ∨
      chAt lines x1 y = '<' := by
    rcases hk1 with ⟨_, h | h, _⟩ | ⟨_, h | h, _⟩
    · exact Or.inl h
    · exact Or.inr (Or.inl h)
    · exact Or.inr (Or.inr (Or.inl h))
    · exact Or.inr (Or.inr (Or.inr h))
  have hg2 : chAt lines x2 y = '▶' ∨ chAt lines x2 y = '>' ∨ chAt lines x2 y = '◀' ∨
      chAt lines x2 y = '<' := by
    rcases hk2 with ⟨_, h | h, _⟩ | ⟨_, h | h, _⟩
    · exact Or.inl h
    · exact Or.inr (Or.inl h)
    · exact Or.inr (Or.inr (Or.inl h))
    · exact Or.inr (Or.inr (Or.inr h))
  -- both ends of both cells are resolved by the first try of `boxAt`
  have hL1 : 0 ≤ leftBox lines (detectBoxes lines) x1 y := by
    rcases hk1 with ⟨_, _, h, _⟩ | ⟨_, _, _, h⟩ <;> rw [← h] <;> assumption
  have hR1 : 0 ≤ rightBox lines (detectBoxes lines) x1 y := by
    rcases hk1 with ⟨_, _, _, h⟩ | ⟨_, _, h, _⟩ <;> rw [← h] <;> assumption
  have hL2 : 0 ≤ leftBox lines (detectBoxes lines) x2 y := by
    rcases hk2 with ⟨_, _, h, _⟩ | ⟨_, _, _, h⟩ <;> rw [← h] <;> assumption
  have hR2 : 0 ≤ rightBox lines (detectBoxes lines) x2 y := by
    rcases hk2 with ⟨_, _, _, h⟩ | ⟨_, _, h, _⟩ <;> rw [← h] <;> assumption
  have eL1 := leftBox_eq_boxAt lines x1 y hg1 hL1
  have eR1 := rightBox_eq_boxAt lines x1 y hg1 hR1
  have eL2 := leftBox_eq_boxAt lines x2 y hg2 hL2
  have eR2 := rightBox_eq_boxAt lines x2 y hg2 hR2
  obtain ⟨A, hA⟩ := Int.eq_ofNat_of_zero_le hL1
  obtain ⟨B, hB⟩ := Int.eq_ofNat_of_zero_le hR1
  have hLR1 : leftBox lines (detectBoxes lines) x1 y ≠ rightBox lines (detectBoxes lines) x1 y := by
    rcases hk1 with ⟨_, _, h, h2⟩ | ⟨_, _, h, h2⟩
    · rw [← h, ← h2]; exact hne1
    · rw [← h, ← h2]; exact fun hh => hne1 hh.symm
  have hAB : A ≠ B := by
    intro h
    apply hLR1
    rw [hA, hB, h]
  intro hkey
  unfold Edge.key at hkey
  simp only [Prod.mk.injEq] at hkey
  obtain ⟨hfrom, hto, _⟩ := hkey
  have hcases : (leftBox lines (detectBoxes lines) x2 y = (A : Int) ∧
        rightBox lines (detectBoxes lines) x2 y = (B : Int)) ∨
      (leftBox lines (detectBoxes lines) x2 y = (B : Int) ∧
        rightBox lines (detectBoxes lines) x2 y = (A : Int)) := by
    rcases hk1 with ⟨_, _, a1, b1⟩ | ⟨_, _, a1, b1⟩ <;>
      rcases hk2 with ⟨_, _, a2, b2⟩ | ⟨_, _, a2, b2⟩
    · left; exact ⟨by rw [← a2, ← hfrom, a1, hA], by rw [← b2, ← hto, b1, hB]⟩
    · right; exact ⟨by rw [← b2, ← hto, b1, hB], by rw [← a2, ← hfrom, a1, hA]⟩
    · right; exact ⟨by rw [← a2, ← hfrom, a1, hB], by rw [← b2, ← hto, b1, hA]⟩
    · left; exact ⟨by rw [← b2, ← hto, b1, hA], by rw [← a2, ← hfrom, a1, hB]⟩
  rcases hcases with ⟨h1, h2⟩ | ⟨h1, h2⟩
  · exact hAB (ends_same_direction lines y x1 x2 h12 hg1 hg2 A B
      (by rw [← eL1, hA]) (by rw [← eL2, h1]) (by rw [← eR1, hB]) (by rw [← eR2, h2]))
  · exact hAB (ends_opposite_direction lines y x1 x2 h12 hg1 hg2 A B
      (by rw [← eL1, hA]) (by rw [← eR2, h2]) (by rw [← eR1, hB]) (by rw [← eL2, h1]))

/-- Two different arrow cells never push the same key on detected boxes. -/
theorem arrow_keys_distinct (lines : List (List Char)) (y1 x1 y2 x2 : Nat)
    (hne : (x1, y1) ≠ (x2, y2)) (e1 e2 : Edge)
    (he1 : e1 ∈ arrowAt lines (detectBoxes lines) y1 x1)
    (he2 : e2 ∈ arrowAt lines (detectBoxes lines) y2 x2) : e1.key ≠ e2.key := by
  by_cases hy : y1 = y2
  · subst hy
    have hx : x1 ≠ x2 := fun h => hne (by rw [h])
    rcases Nat.lt_or_gt_of_ne hx with h | h
    · exact arrow_keys_distinct_lt lines y1 x1 x2 h e1 e2 he1 he2
    · exact fun hk => arrow_keys_distinct_lt lines y1 x2 x1 h e2 e1 he2 he1 hk.symm
  · intro hk
    have h1 := (arrowAt_mem lines _ y1 x1 e1 he1).1
    have h2 := (arrowAt_mem lines _ y2 x2 e2 he2).1
    unfold Edge.key at hk
    simp only [Prod.mk.injEq] at hk
    exact hy (by rw [← h1, ← h2, hk.2.2])

theorem rawEdges_keys_pairwise (lines : List (List Char)) :
    (rawEdges lines (detectBoxes lines)).Pairwise (fun e1 e2 => e1.key ≠ e2.key) := by
  unfold rawEdges
  rw [List.pairwise_flatMap]
  constructor
  · intro y _
    rw [List.pairwise_flatMap]
    constructor
    · intro x _
      exact pairwise_of_length_le_one _ _ (arrowAt_length_le_one lines _ y x)
    · refine List.Pairwise.imp ?_ (List.pairwise_lt_range _)
      intro x1 x2 h e1 he1 e2 he2
      exact arrow_keys_distinct lines y x1 y x2 (by simp; omega) e1 e2 he1 he2
  · refine List.Pairwise.imp ?_ (List.pairwise_lt_range _)
    intro y1 y2 h e1 he1 e2 he2
    rw [List.mem_flatMap] at he1 he2
    obtain ⟨x1, _, he1⟩ := he1
    obtain ⟨x2, _, he2⟩ := he2
    exact arrow_keys_distinct lines y1 x1 y2 x2 (by simp; omega) e1 e2 he1 he2

theorem firstOccurrencesAfter_id (earlier edges : List Edge)
    (hp : edges.Pairwise (fun e1 e2 => e1.key ≠ e2.key))
    (hd : ∀ e ∈ edges, e.key ∉ earlier.map Edge.key) :
    firstOccurrencesAfter earlier edges = edges := by
  induction edges generalizing earlier with
  | nil => rfl
  | cons a rest ih =>
    unfold firstOccurrencesAfter
    rw [List.pairwise_cons] at hp
    rw [if_neg (hd a (List.mem_cons_self _ _))]
    congr 1
    apply ih _ hp.2
    intro e he
    rw [List.map_append, List.mem_append]
    rintro (h | h)
    · exact hd e (List.mem_cons_of_mem _ he) h
    · simp only [List.map_cons, List.map_nil, List.mem_singleton] at h
      exact hp.1 e he h.symm

/-- C27: on the boxes that `detectBoxes` returns for a grid, two different arrow cells of that
grid never produce connections with the same `(from, to, y)`; hence the keys of the raw list
of connections are pairwise distinct and the de-duplication of `detectHorizontalArrows`
returns the raw list unchanged. -/
theorem dedup_removes_nothing (lines : List (List Char)) :
    (∀ (y1 x1 y2 x2 : Nat) (e1 e2 : Edge), (x1, y1) ≠ (x2, y2) →
      e1 ∈ arrowAt lines (detectBoxes lines) y1 x1 →
      e2 ∈ arrowAt lines (detectBoxes lines) y2 x2 → e1.key ≠ e2.key) ∧
    ((rawEdges lines (detectBoxes lines)).map Edge.key).Nodup ∧
    detectHorizontalArrows lines (detectBoxes lines) = rawEdges lines (detectBoxes lines) := by
  refine ⟨?_, ?_, ?_⟩
  · intro y1 x1 y2 x2 e1 e2 hne he1 he2
    exact arrow_keys_distinct lines y1 x1 y2 x2 hne e1 e2 he1 he2
  · unfold List.Nodup
    rw [List.pairwise_map]
    exact rawEdges_keys_pairwise lines
  · unfold detectHorizontalArrows
    rw [dedupEdges_eq]
    unfold firstOccurrences
    exact firstOccurrencesAfter_id [] _ (rawEdges_keys_pairwise lines) (by simp)

theorem dedup_removes_nothing_witness :
    (((7 : Nat), (1 : Nat)) ≠ ((7 : Nat), (2 : Nat)) ∧
      ({ from_ := 0, to_ := 1, y := 1, kind := '→' } : Edge) ∈
        arrowAt diagramStacked (detectBoxes diagramStacked) 1 7 ∧
      ({ from_ := 0, to_ := 1, y := 2, kind := '→' } : Edge) ∈
        arrowAt diagramStacked (detectBoxes diagramStacked) 2 7) ∧
    ({ from_ := 0, to_ := 1, y := 1, kind := '→' } : Edge).key ≠
      ({ from_ := 0, to_ := 1, y := 2, kind := '→' } : Edge).key :=
  ⟨⟨by decide, by decide, by decide⟩,
    (dedup_removes_nothing diagramStacked).1 1 7 2 7 _ _ (by decide) (by decide) (by decide)⟩

/-! ## The parser of the template pipeline -/

theorem parser_chAt_eq (grid : List (List Char)) (x y : Int) :
    Parser.chAt grid x y = chAt grid x y := by
  unfold Parser.chAt chAt height
  simp only
  by_cases hy : y < 0 ∨ y ≥ (grid.length : Int)
  · rw [if_pos hy, if_neg (by omega)]
  · rw [if_neg hy]
    by_cases hx : x < 0 ∨ x ≥ ((grid.getD y.toNat []).length : Int)
    · rw [if_pos hx, if_neg (by omega)]
    · rw [if_neg hx, if_pos (by omega)]

theorem scanWhile_first (p : Nat → Bool) (fuel i t : Nat) (h0 : i ≤ t) (hf : t - i < fuel)
    (hb : ∀ k, i ≤ k → k < t → p k = true) (hs : p t = false) :
    scanWhile p fuel i = some t := by
  induction fuel generalizing i with
  | zero => omega
  | succ f ih =>
    unfold scanWhile
    by_cases hit : i = t
    · subst hit
      rw [if_neg (by rw [hs]; simp)]
    · rw [if_pos (hb i (Nat.le_refl i) (by omega))]
      exact ih (i + 1) (by omega) (by omega) (fun k hk1 hk2 => hb k (by omega) hk2)

theorem scanWhile_some (p : Nat → Bool) (fuel i t : Nat) (h : scanWhile p fuel i = some t) :
    i ≤ t ∧ (∀ k, i ≤ k → k < t → p k = true) ∧ p t = false := by
  induction fuel generalizing i with
  | zero => simp [scanWhile] at h
  | succ f ih =>
    unfold scanWhile at h
    split at h
    · rename_i hp
      obtain ⟨h1, h2, h3⟩ := ih (i + 1) h
      refine ⟨by omega, ?_, h3⟩
      intro k hk1 hk2
      by_cases hik : k = i
      · rw [hik]; exact hp
      · exact h2 k (by omega) hk2
    · rename_i hp
      have := Option.some.inj h
      subst this
      exact ⟨Nat.le_refl _, fun k hk1 hk2 => absurd hk2 (by omega), by simpa using hp⟩

/-- A scan that meets a failing cell within its fuel stops at or before that cell. -/
theorem scanWhile_total (p : Nat → Bool) (fuel i n : Nat) (h0 : i ≤ n) (hf : n - i < fuel)
    (hs : p n = false) : ∃ t, scanWhile p fuel i = some t ∧ i ≤ t ∧ t ≤ n := by
  induction fuel generalizing i with
  | zero => omega
  | succ f ih =>
    unfold scanWhile
    by_cases hp : p i = true
    · rw [if_pos hp]
      have hin : i ≠ n := by
        intro h
        rw [h, hs] at hp
        exact absurd hp (by simp)
      obtain ⟨t, ht, h1, h2⟩ := ih (i + 1) (by omega) (by omega)
      exact ⟨t, ht, by omega, h2⟩
    · rw [if_neg hp]
      exact ⟨i, rfl, Nat.le_refl _, h0⟩

theorem parser_chAt_blank_right (grid : List (List Char)) (x y : Nat)
    (h : (grid.getD y []).length ≤ x) : Parser.chAt grid x y = ' ' := by
  rw [parser_chAt_eq, chAt_nat]
  exact List.getD_eq_default _ _ h

theorem parser_chAt_blank_below (grid : List (List Char)) (x y : Nat)
    (h : grid.length ≤ y) : Parser.chAt grid x y = ' ' := by
  rw [parser_chAt_eq, chAt_nat, List.getD_eq_default grid [] h]
  rfl

/-- The scan to the right always stops: at the latest at the end of the row, or at once when
it starts beyond it. -/
theorem parser_scanRight_total (grid : List (List Char)) (x y : Nat) :
    ∃ xr, Parser.scanRight grid x y = some xr ∧ x < xr ∧
      xr ≤ max (x + 1) (grid.getD y []).length := by
  unfold Parser.scanRight
  obtain ⟨t, ht, h1, h2⟩ := scanWhile_total (fun xr => Parser.isH (Parser.chAt grid xr y))
    ((grid.getD y []).length + 1) (x + 1) (max (x + 1) (grid.getD y []).length)
    (Nat.le_max_left _ _) (by omega)
    (by
      simp only
      rw [parser_chAt_blank_right grid _ y (Nat.le_max_right _ _)]
      decide)
  exact ⟨t, ht, by omega, h2⟩

/-- The scan downwards always stops: at the latest below the last row, or at once when it
starts beyond it. -/
theorem parser_scanDown_total (grid : List (List Char)) (x y : Nat) :
    ∃ yb, Parser.scanDown grid x y = some yb ∧ y < yb ∧ yb ≤ max (y + 1) grid.length := by
  unfold Parser.scanDown
  obtain ⟨t, ht, h1, h2⟩ := scanWhile_total (fun yb => Parser.isV (Parser.chAt grid x yb))
    (grid.length + 1) (y + 1) (max (y + 1) grid.length)
    (Nat.le_max_left _ _) (by omega)
    (by
      simp only
      rw [parser_chAt_blank_below grid x _ (Nat.le_max_right _ _)]
      decide)
  exact ⟨t, ht, by omega, h2⟩

theorem parser_content_total (lines : List (List Char)) (x xr : Nat) (ys : List Nat)
    (h : ∀ yi ∈ ys, yi < lines.length) : ∃ c, Parser.content lines x xr ys = some c := by
  induction ys with
  | nil => exact ⟨[], rfl⟩
  | cons yi rest ih =>
    obtain ⟨c, hc⟩ := ih (fun k hk => h k (List.mem_cons_of_mem _ hk))
    have hy := h yi (List.mem_cons_self _ _)
    unfold Parser.content
    rw [List.getElem?_eq_getElem hy]
    simp only [hc]
    split
    · exact ⟨_, rfl⟩
    · exact ⟨_, rfl⟩

/-- What the body of the loops pushes at a cell: nothing, or one box whose corners are the
four glyphs and whose `xr`, `yb` are the ends of the two scans. -/
theorem parser_boxesAt_cases (lines : List (List Char)) (x y : Nat) :
    Parser.boxesAt lines x y = some [] ∨
    ∃ xr yb c, Parser.boxesAt lines x y =
        some [{ x := x, y := y, xr := xr, yb := yb, content := c }] ∧
      Parser.scanRight lines x y = some xr ∧ Parser.scanDown lines x y = some yb ∧
      Parser.chAt lines x y = '┌' ∧ Parser.chAt lines xr y = '┐' ∧
      Parser.chAt lines x yb = '└' ∧ Parser.chAt lines xr yb = '┘' ∧
      Parser.content lines x xr (List.range' (y + 1) (yb - (y + 1))) = some c := by
  obtain ⟨xr, hxr, _, _⟩ := parser_scanRight_total lines x y
  obtain ⟨yb, hyb, hylt, hyle⟩ := parser_scanDown_total lines x y
  unfold Parser.boxesAt
  rw [hxr, hyb]
  simp only
  by_cases h1 : Parser.chAt lines x y ≠ '┌'
  · left; rw [if_pos h1]
  rw [if_neg h1]
  by_cases h2 : Parser.chAt lines xr y ≠ '┐'
  · left; rw [if_pos h2]
  rw [if_neg h2]
  by_cases h3 : Parser.chAt lines x yb ≠ '└'
  · left; rw [if_pos h3]
  rw [if_neg h3]
  by_cases h4 : Parser.chAt lines xr yb ≠ '┘'
  · left; rw [if_pos h4]
  rw [if_neg h4]
  have hyb2 : yb < lines.length := by
    by_contra hc
    rw [parser_chAt_blank_below lines x yb (by omega)] at h3
    exact h3 (by decide)
  obtain ⟨c, hc⟩ := parser_content_total lines x xr (List.range' (y + 1) (yb - (y + 1)))
    (by
      intro yi hyi
      rw [List.mem_range'_1] at hyi
      omega)
  right
  refine ⟨xr, yb, c, ?_, rfl, rfl, ?_, ?_, ?_, ?_, hc⟩
  · rw [hc]
  · exact not_not.1 h1
  · exact not_not.1 h2
  · exact not_not.1 h3
  · exact not_not.1 h4

theorem parser_boxesAt_total (lines : List (List Char)) (x y : Nat) :
    ∃ l, Parser.boxesAt lines x y = some l := by
  rcases parser_boxesAt_cases lines x y with h | ⟨xr, yb, c, h, _⟩
  · exact ⟨_, h⟩
  · exact ⟨_, h⟩

theorem pushAll_eq {α : Type} (body : Nat → Option (List α)) (l : List Nat)
    (h : ∀ i ∈ l, ∃ r, body i = some r) :
    pushAll body l = some (l.flatMap (fun i => (body i).getD [])) := by
  induction l with
  | nil => rfl
  | cons i rest ih =>
    obtain ⟨r, hr⟩ := h i (List.mem_cons_self _ _)
    unfold pushAll
    rw [hr, ih (fun k hk => h k (List.mem_cons_of_mem _ hk))]
    simp [hr]

/-- The parser returns on every text, with the boxes of the cells in row-major order. -/
theorem parser_parseASCII_eq (ascii : List Char) :
    Parser.parseASCII ascii = some (Parser.boxesOf (linesOf ascii)) := by
  unfold Parser.parseASCII Parser.boxesOf linesOf
  simp only
  have hrow : ∀ y, pushAll (fun x => Parser.boxesAt (splitNL (replaceCRLF ascii)) x y)
      (List.range (width (splitNL (replaceCRLF ascii)))) =
      some ((List.range (width (splitNL (replaceCRLF ascii)))).flatMap
        (fun x => (Parser.boxesAt (splitNL (replaceCRLF ascii)) x y).getD [])) := by
    intro y
    exact pushAll_eq _ _ (fun x _ => parser_boxesAt_total _ x y)
  rw [pushAll_eq _ _ (fun y _ => ⟨_, hrow y⟩)]
  congr 1
  apply List.flatMap_congr
  intro y _
  rw [hrow y]
  rfl

theorem parser_mem_boxesOf (lines : List (List Char)) (b : ParsedBox)
    (hb : b ∈ Parser.boxesOf lines) :
    Parser.scanRight lines b.x b.y = some b.xr ∧ Parser.scanDown lines b.x b.y = some b.yb ∧
      Parser.chAt lines b.x b.y = '┌' ∧ Parser.chAt lines b.xr b.y = '┐' ∧
      Parser.chAt lines b.x b.yb = '└' ∧ Parser.chAt lines b.xr b.yb = '┘' ∧
      Parser.content lines b.x b.xr (List.range' (b.y + 1) (b.yb - (b.y + 1))) =
        some b.content := by
  unfold Parser.boxesOf at hb
  simp only [List.mem_flatMap, List.mem_range] at hb
  obtain ⟨y, _, x, _, hmem⟩ := hb
  rcases parser_boxesAt_cases lines x y with h | ⟨xr, yb, c, h, h1, h2, h3, h4, h5, h6, h7⟩
  · rw [h] at hmem
    simp at hmem
  · rw [h] at hmem
    simp only [Option.getD_some, List.mem_singleton] at hmem
    subst hmem
    exact ⟨h1, h2, h3, h4, h5, h6, h7⟩

/-- C25 (counterexample): on the text `textOpenBox` the parser returns the box with corners
`(0, 0)` and `(2, 2)`, although the cell `(1, 2)` between the corners of its bottom edge is a
blank, not a horizontal glyph, and the cell `(2, 1)` between the corners of its right edge is
the letter `x`, not a vertical glyph. -/
theorem parser_bottom_right_unchecked :
    Parser.parseASCII textOpenBox = some [{ x := 0, y := 0, xr := 2, yb := 2, content := [] }] ∧
    Parser.chAt (linesOf textOpenBox) (1 : Nat) (2 : Nat) = ' ' ∧
    Parser.isH (Parser.chAt (linesOf textOpenBox) (1 : Nat) (2 : Nat)) = false ∧
    Parser.chAt (linesOf textOpenBox) (2 : Nat) (1 : Nat) = 'x' ∧
    Parser.isV (Parser.chAt (linesOf textOpenBox) (2 : Nat) (1 : Nat)) = false := by
  decide

/-- C25 (amended): for every text and every box `{x, y, xr, yb}` that the parser returns for it,
`x < xr` and `y < yb`, the four corner cells hold `┌`, `┐`, `└`, `┘`, every cell between the
corners on the top edge classifies as horizontal (`isH`) and every cell between the corners on
the left edge classifies as vertical (`isV`).  The bottom and the right edge are not read. -/
theorem parser_closure_top_left (ascii : List Char) (boxes : List ParsedBox) (b : ParsedBox)
    (h : Parser.parseASCII ascii = some boxes) (hb : b ∈ boxes) :
    b.x < b.xr ∧ b.y < b.yb ∧
    Parser.chAt (linesOf ascii) b.x b.y = '┌' ∧ Parser.chAt (linesOf ascii) b.xr b.y = '┐' ∧
    Parser.chAt (linesOf ascii) b.x b.yb = '└' ∧ Parser.chAt (linesOf ascii) b.xr b.yb = '┘' ∧
    (∀ xi : Nat, b.x < xi → xi < b.xr →
      Parser.isH (Parser.chAt (linesOf ascii) xi b.y) = true) ∧
    (∀ yi : Nat, b.y < yi → yi < b.yb →
      Parser.isV (Parser.chAt (linesOf ascii) b.x yi) = true) := by
  rw [parser_parseASCII_eq] at h
  have h := Option.some.inj h
  subst h
  obtain ⟨h1, h2, h3, h4, h5, h6, _⟩ := parser_mem_boxesOf _ b hb
  unfold Parser.scanRight at h1
  unfold Parser.scanDown at h2
  obtain ⟨a1, a2, _⟩ := scanWhile_some _ _ _ _ h1
  obtain ⟨b1, b2, _⟩ := scanWhile_some _ _ _ _ h2
  refine ⟨by omega, by omega, h3, h4, h5, h6, ?_, ?_⟩
  · intro xi hx1 hx2
    exact a2 xi (by omega) hx2
  · intro yi hy1 hy2
    exact b2 yi (by omega) hy2

theorem parser_closure_top_left_witness :
    (Parser.parseASCII textOpenBox = some [{ x := 0, y := 0, xr := 2, yb := 2, content := [] }] ∧
      ({ x := 0, y := 0, xr := 2, yb := 2, content := [] } : ParsedBox) ∈
        [({ x := 0, y := 0, xr := 2, yb := 2, content := [] } : ParsedBox)]) ∧
    Parser.isH (Parser.chAt (linesOf textOpenBox) (1 : Nat) (0 : Nat)) = true ∧
    Parser.isV (Parser.chAt (linesOf textOpenBox) (0 : Nat) (1 : Nat)) = true :=
  ⟨⟨by decide, by decide⟩,
    (parser_closure_top_left textOpenBox [{ x := 0, y := 0, xr := 2, yb := 2, content := [] }]
      { x := 0, y := 0, xr := 2, yb := 2, content := [] }
      (by decide) (by decide)).2.2.2.2.2.2.1 1 (by decide) (by decide),
    (parser_closure_top_left textOpenBox [{ x := 0, y := 0, xr := 2, yb := 2, content := [] }]
      { x := 0, y := 0, xr := 2, yb := 2, content := [] }
      (by decide) (by decide)).2.2.2.2.2.2.2 1 (by decide) (by decide)⟩

/-! ## The strict detector and the parser's detector -/

theorem chAt_mem_or_blank (lines : List (List Char)) (x y : Nat) :
    chAt lines x y = ' ' ∨ ∃ l ∈ lines, chAt lines x y ∈ l := by
  by_cases hb : chAt lines x y = ' '
  · exact Or.inl hb
  · right
    obtain ⟨hy, hx, _⟩ := chAt_ne_blank lines x y hb
    unfold height at hy
    refine ⟨lines.getD y [], ?_, ?_⟩
    · rw [List.getD_eq_getElem lines [] hy]
      exact List.getElem_mem hy
    · rw [chAt_nat, List.getD_eq_getElem _ ' ' hx]
      exact List.getElem_mem hx

theorem isH_of_isHLine (c : Char) (h1 : c ≠ '━') (h2 : c ≠ '—') (h : isHLine c = true) :
    Parser.isH c = true := by
  unfold isHLine at h
  unfold Parser.isH
  simp only [Bool.or_eq_true, beq_iff_eq] at h ⊢
  rcases h with ((h | h) | h) | h
  · exact Or.inl h
  · exact Or.inr h
  · exact absurd h h1
  · exact absurd h h2

theorem isV_of_isVLine (c : Char) (h1 : c ≠ '┃') (h : isVLine c = true) :
    Parser.isV c = true := by
  unfold isVLine at h
  unfold Parser.isV
  simp only [Bool.or_eq_true, beq_iff_eq] at h ⊢
  rcases h with ((((h | h) | h) | h) | h) | h
  · exact Or.inl (Or.inl (Or.inl (Or.inl h)))
  · exact Or.inl (Or.inl (Or.inl (Or.inr h)))
  · exact absurd h h1
  · exact Or.inl (Or.inl (Or.inr h))
  · exact Or.inl (Or.inr h)
  · exact Or.inr h

/-- On a grid without heavy glyphs, the parser pushes a box at the top-left corner of every
closed rectangle, with the coordinates of the rectangle. -/
theorem parser_boxesAt_of_closed (lines : List (List Char))
    (hno : ∀ l ∈ lines, ∀ c ∈ l, c ≠ '━' ∧ c ≠ '—' ∧ c ≠ '┃')
    (x y xr yb : Nat) (hc : Closed lines x y xr yb) :
    ∃ c, Parser.boxesAt lines x y =
      some [{ x := x, y := y, xr := xr, yb := yb, content := c }] := by
  obtain ⟨hx, hy, htl, htr, hbl, hbr, hrows, hcols⟩ := hc
  have hglyph : ∀ (a b : Nat), chAt lines a b ≠ '━' ∧ chAt lines a b ≠ '—' ∧
      chAt lines a b ≠ '┃' := by
    intro a b
    rcases chAt_mem_or_blank lines a b with h | ⟨l, hl, hmem⟩
    · rw [h]; decide
    · exact hno l hl _ hmem
  have hxr : xr < (lines.getD y []).length := (chAt_ne_blank lines xr y (by rw [htr]; decide)).2.1
  have hyb : yb < lines.length := (chAt_ne_blank lines x yb (by rw [hbl]; decide)).1
  have h1 : Parser.scanRight lines x y = some xr := by
    unfold Parser.scanRight
    apply scanWhile_first _ _ _ _ (by omega) (by omega)
    · intro k hk1 hk2
      rw [parser_chAt_eq]
      exact isH_of_isHLine _ (hglyph k y).1 (hglyph k y).2.1 (hrows k (by omega) hk2).1
    · rw [parser_chAt_eq, htr]
      decide
  have h2 : Parser.scanDown lines x y = some yb := by
    unfold Parser.scanDown
    apply scanWhile_first _ _ _ _ (by omega) (by omega)
    · intro k hk1 hk2
      rw [parser_chAt_eq]
      exact isV_of_isVLine _ (hglyph x k).2.2 (hcols k (by omega) hk2).1
    · rw [parser_chAt_eq, hbl]
      decide
  obtain ⟨c, hcont⟩ := parser_content_total lines x xr (List.range' (y + 1) (yb - (y + 1)))
    (by
      intro yi hyi
      rw [List.mem_range'_1] at hyi
      omega)
  refine ⟨c, ?_⟩
  unfold Parser.boxesAt
  rw [h1, h2]
  simp only
  rw [if_neg (by rw [parser_chAt_eq, htl]; simp), if_neg (by rw [parser_chAt_eq, htr]; simp),
    if_neg (by rw [parser_chAt_eq, hbl]; simp), if_neg (by rw [parser_chAt_eq, hbr]; simp), hcont]

theorem sublist_flatMap {α β : Type} (l : List α) (f g : α → List β)
    (h : ∀ a ∈ l, (f a).Sublist (g a)) : (l.flatMap f).Sublist (l.flatMap g) := by
  induction l with
  | nil => exact List.Sublist.slnil
  | cons a rest ih =>
    rw [List.flatMap_cons, List.flatMap_cons]
    exact List.Sublist.append (h a (List.mem_cons_self _ _))
      (ih (fun b hb => h b (List.mem_cons_of_mem _ hb)))

theorem detectBoxes_coords_sublist (lines : List (List Char))
    (hno : ∀ l ∈ lines, ∀ c ∈ l, c ≠ '━' ∧ c ≠ '—' ∧ c ≠ '┃') :
    ((detectBoxes lines).map Box.coords).Sublist ((Parser.boxesOf lines).map ParsedBox.coords) := by
  rw [detectBoxes_eq]
  unfold Parser.boxesOf rowBoxes height
  rw [List.map_flatMap, List.map_flatMap]
  apply sublist_flatMap
  intro y _
  rw [List.map_flatMap, List.map_flatMap]
  apply sublist_flatMap
  intro x _
  cases hcb : cornerBox lines x y with
  | none => simp
  | some b =>
    obtain ⟨e1, e2, _, _, hclosed, _⟩ := cornerBox_some lines x y b hcb
    rw [e1, e2] at hclosed
    obtain ⟨c, hc⟩ := parser_boxesAt_of_closed lines hno x y b.xr b.yb hclosed
    rw [hc]
    simp [Box.coords, ParsedBox.coords, e1, e2]

/-- C28: for every text without the glyphs `━`, `—`, `┃`, the parser of `src/src` returns, and
the coordinate quadruples `(x, y, xr, yb)` of the boxes of `detectBoxes` form a sub-sequence of
the coordinate quadruples of the parser's boxes: each is the coordinates of a box of the parser,
and the common boxes come in the same relative order in both lists. -/
theorem strict_detector_refinement (text : List Char)
    (h1 : '━' ∉ text) (h2 : '—' ∉ text) (h3 : '┃' ∉ text) :
    ∃ pboxes, Parser.parseASCII text = some pboxes ∧
      ((detectBoxes (linesOf text)).map Box.coords).Sublist (pboxes.map ParsedBox.coords) ∧
      ∀ b ∈ detectBoxes (linesOf text), ∃ p ∈ pboxes, p.coords = b.coords := by
  have hno : ∀ l ∈ linesOf text, ∀ c ∈ l, c ≠ '━' ∧ c ≠ '—' ∧ c ≠ '┃' := by
    intro l hl c hc
    have hmem := linesOf_mem text l hl c hc
    exact ⟨fun h => h1 (h ▸ hmem), fun h => h2 (h ▸ hmem), fun h => h3 (h ▸ hmem)⟩
  have hsub := detectBoxes_coords_sublist (linesOf text) hno
  refine ⟨_, parser_parseASCII_eq text, hsub, ?_⟩
  intro b hb
  have := hsub.subset (List.mem_map_of_mem Box.coords hb)
  rw [List.mem_map] at this
  exact this

theorem strict_detector_refinement_witness :
    ('━' ∉ textSmallBox ∧ '—' ∉ textSmallBox ∧ '┃' ∉ textSmallBox) ∧
    (detectBoxes (linesOf textSmallBox)).map Box.coords = [(0, 0, 4, 2)] ∧
    ∃ pboxes, Parser.parseASCII textSmallBox = some pboxes ∧
      ((detectBoxes (linesOf textSmallBox)).map Box.coords).Sublist
        (pboxes.map ParsedBox.coords) ∧
      ∀ b ∈ detectBoxes (linesOf textSmallBox), ∃ p ∈ pboxes, p.coords = b.coords :=
  ⟨⟨by decide, by decide, by decide⟩, by decide,
    strict_detector_refinement textSmallBox (by decide) (by decide) (by decide)⟩

/-! ## The template layout -/

theorem insertByX_perm (a : ParsedBox) (l : List ParsedBox) :
    (insertByX a l).Perm (a :: l) := by
  induction l with
  | nil => exact List.Perm.refl _
  | cons b rest ih =>
    unfold insertByX
    split
    · exact List.Perm.refl _
    · exact (List.Perm.cons b ih).trans (List.Perm.swap a b rest)

theorem sortByX_perm (l : List ParsedBox) : (sortByX l).Perm l := by
  induction l with
  | nil => exact List.Perm.refl _
  | cons a rest ih =>
    unfold sortByX
    exact (insertByX_perm a _).trans (List.Perm.cons a ih)

theorem insertByX_sorted (a : ParsedBox) (l : List ParsedBox)
    (h : l.Pairwise (fun b c => b.x ≤ c.x)) :
    (insertByX a l).Pairwise (fun b c => b.x ≤ c.x) := by
  induction l with
  | nil => exact List.pairwise_singleton _ _
  | cons b rest ih =>
    unfold insertByX
    rw [List.pairwise_cons] at h
    split
    · rename_i hab
      rw [List.pairwise_cons]
      refine ⟨?_, List.pairwise_cons.2 h⟩
      intro c hc
      rcases List.mem_cons.1 hc with hc | hc
      · rw [hc]; exact hab
      · exact Nat.le_trans hab (h.1 c hc)
    · rename_i hab
      rw [List.pairwise_cons]
      refine ⟨?_, ih h.2⟩
      intro c hc
      rcases List.mem_cons.1 ((insertByX_perm a rest).subset hc) with hc | hc
      · rw [hc]; omega
      · exact h.1 c hc

theorem sortByX_sorted (l : List ParsedBox) :
    (sortByX l).Pairwise (fun b c => b.x ≤ c.x) := by
  induction l with
  | nil => exact List.Pairwise.nil
  | cons a rest ih =>
    unfold sortByX
    exact insertByX_sorted a _ ih

theorem insertByX_filter (a : ParsedBox) (l : List ParsedBox) (v : Nat) :
    (insertByX a l).filter (fun b => decide (b.x = v)) =
      (a :: l).filter (fun b => decide (b.x = v)) := by
  induction l with
  | nil => rfl
  | cons b rest ih =>
    unfold insertByX
    split
    · rfl
    · rename_i hab
      rw [List.filter_cons, ih]
      by_cases hbv : b.x = v
      · have hav : ¬ a.x = v := by omega
        simp [List.filter_cons, hbv, hav]
      · simp [List.filter_cons, hbv]

/-- The sort is stable: boxes with the same `x` keep their order. -/
theorem sortByX_filter (l : List ParsedBox) (v : Nat) :
    (sortByX l).filter (fun b => decide (b.x = v)) = l.filter (fun b => decide (b.x = v)) := by
  induction l with
  | nil => rfl
  | cons a rest ih =>
    unfold sortByX
    rw [insertByX_filter, List.filter_cons, List.filter_cons, ih]

/-- A list sorted by `x` is fixed by the boxes it holds for each value of `x`: what a stable
sort returns does not depend on the algorithm. -/
theorem sorted_unique (s t : List ParsedBox)
    (hs : s.Pairwise (fun b c => b.x ≤ c.x)) (ht : t.Pairwise (fun b c => b.x ≤ c.x))
    (h : ∀ v, s.filter (fun b => decide (b.x = v)) = t.filter (fun b => decide (b.x = v))) :
    s = t := by
  induction s generalizing t with
  | nil =>
    cases t with
    | nil => rfl
    | cons b t2 =>
      have := h b.x
      simp [List.filter_cons] at this
  | cons a s2 ih =>
    cases t with
    | nil =>
      have := h a.x
      simp [List.filter_cons] at this
    | cons b t2 =>
      rw [List.pairwise_cons] at hs ht
      have hab : a.x = b.x := by
        have h1 : a ∈ (b :: t2).filter (fun c => decide (c.x = a.x)) := by
          rw [← h a.x]; simp [List.filter_cons]
        have h2 : b ∈ (a :: s2).filter (fun c => decide (c.x = b.x)) := by
          rw [h b.x]; simp [List.filter_cons]
        have h1 := (List.mem_filter.1 h1).1
        have h2 := (List.mem_filter.1 h2).1
        have le1 : b.x ≤ a.x := by
          rcases List.mem_cons.1 h1 with e | e
          · rw [e]
          · exact ht.1 a e
        have le2 : a.x ≤ b.x := by
          rcases List.mem_cons.1 h2 with e | e
          · rw [e]
          · exact hs.1 b e
        omega
      have heq : a = b := by
        have := h a.x
        simp only [List.filter_cons, decide_True, if_true, hab] at this
        simp only [hab.symm, decide_True, if_true] at this
        exact (List.cons.inj this).1
      subst heq
      congr 1
      apply ih t2 hs.2 ht.2
      intro v
      have := h v
      simp only [List.filter_cons] at this
      by_cases hv : a.x = v
      · simp only [hv, decide_True, if_true] at this
        exact (List.cons.inj this).2
      · simpa [hv] using this

/-- Any stable ascending sort by `x` returns `sortByX`. -/
theorem stable_sort_eq_sortByX (l s : List ParsedBox)
    (hs : s.Pairwise (fun b c => b.x ≤ c.x))
    (hst : ∀ v, s.filter (fun b => decide (b.x = v)) = l.filter (fun b => decide (b.x = v))) :
    s = sortByX l :=
  sorted_unique s (sortByX l) hs (sortByX_sorted l)
    (fun v => (hst v).trans (sortByX_filter l v).symm)

theorem firstMinByX_eq_none (l : List ParsedBox) (h : firstMinByX l = none) : l = [] := by
  cases l with
  | nil => rfl
  | cons a rest =>
    unfold firstMinByX at h
    split at h
    · exact absurd h (by simp)
    · split at h <;> exact absurd h (by simp)

/-- The first box with the smallest `x`: the boxes before it have a larger `x`, the boxes after
it have no smaller one. -/
theorem firstMinByX_spec (l : List ParsedBox) (m : ParsedBox) (h : firstMinByX l = some m) :
    ∃ pre post, l = pre ++ m :: post ∧ (∀ c ∈ pre, m.x < c.x) ∧ (∀ c ∈ post, m.x ≤ c.x) := by
  induction l generalizing m with
  | nil => simp [firstMinByX] at h
  | cons a rest ih =>
    unfold firstMinByX at h
    split at h
    · rename_i hnone
      have hr := firstMinByX_eq_none rest hnone
      have := Option.some.inj h
      subst this
      subst hr
      exact ⟨[], [], rfl, by simp, by simp⟩
    · rename_i m2 hsome
      obtain ⟨pre, post, e, h1, h2⟩ := ih m2 hsome
      split at h
      · rename_i hle
        have := Option.some.inj h
        subst this
        refine ⟨[], rest, rfl, by simp, ?_⟩
        intro c hc
        rw [e] at hc
        rcases List.mem_append.1 hc with hc | hc
        · have := h1 c hc
          omega
        · rcases List.mem_cons.1 hc with hc | hc
          · rw [hc]; exact hle
          · have := h2 c hc
            omega
      · rename_i hle
        have := Option.some.inj h
        subst this
        refine ⟨a :: pre, post, by rw [e]; rfl, ?_, h2⟩
        intro c hc
        rcases List.mem_cons.1 hc with hc | hc
        · rw [hc]; omega
        · exact h1 c hc

/-- The sorted list starts with the first box of smallest `x` and goes on with the sorted list
of the other boxes. -/
theorem sortByX_select (l : List ParsedBox) :
    sortByX l =
      match firstMinByX l with
      | none => []
      | some m => m :: sortByX (l.erase m) := by
  induction l with
  | nil => rfl
  | cons a rest ih =>
    have hs : sortByX (a :: rest) = insertByX a (sortByX rest) := rfl
    rw [hs]
    cases hm : firstMinByX rest with
    | none =>
      have hr := firstMinByX_eq_none rest hm
      subst hr
      simp [firstMinByX, sortByX, insertByX]
    | some m =>
      rw [hm] at ih
      simp only at ih
      by_cases hle : a.x ≤ m.x
      · have hf : firstMinByX (a :: rest) = some a := by
          unfold firstMinByX
          rw [hm]
          simp only
          rw [if_pos hle]
        rw [hf]
        simp only [List.erase_cons_head]
        rw [ih]
        unfold insertByX
        rw [if_pos hle]
      · have hf : firstMinByX (a :: rest) = some m := by
          unfold firstMinByX
          rw [hm]
          simp only
          rw [if_neg hle]
        rw [hf]
        simp only
        have hne : ¬ ((a == m) = true) := by
          intro hh
          have := eq_of_beq hh
          rw [this] at hle
          omega
        rw [List.erase_cons_tail hne]
        have hs2 : sortByX (a :: rest.erase m) = insertByX a (sortByX (rest.erase m)) := rfl
        rw [hs2, ih]
        conv_lhs => unfold insertByX
        rw [if_neg hle]

theorem sortByX_getElem (k : Nat) (l : List ParsedBox) : (sortByX l)[k]? = nthByX k l := by
  induction k generalizing l with
  | zero =>
    rw [sortByX_select l]
    unfold nthByX
    cases firstMinByX l <;> simp
  | succ k ih =>
    rw [sortByX_select l]
    unfold nthByX
    cases firstMinByX l with
    | none => simp
    | some m => simp [ih]

theorem nthByX_eq_none (k : Nat) (l : List ParsedBox) : nthByX k l = none ↔ l.length ≤ k := by
  rw [← sortByX_getElem, List.getElem?_eq_none_iff, (sortByX_perm l).length_eq]

theorem nthByX_mem (k : Nat) (l : List ParsedBox) (b : ParsedBox) (h : nthByX k l = some b) :
    b ∈ l := by
  rw [← sortByX_getElem] at h
  exact (sortByX_perm l).subset (List.getElem?_mem h)

theorem contentAt_sortByX (l : List ParsedBox) (k : Nat) :
    contentAt (sortByX l) k = contentOf (nthByX k l) := by
  unfold contentAt
  rw [sortByX_getElem]
  cases nthByX k l <;> rfl

theorem boxTextsFrom_text (box : LayoutBox) (idx : Nat) (content : List (List Char)) :
    (boxTextsFrom box idx content).map (fun t => t.text) = content.map Renderer.escape := by
  induction content generalizing idx with
  | nil => rfl
  | cons line rest ih =>
    unfold boxTextsFrom
    rw [List.map_cons, List.map_cons, ih]

/-- C24: for every text, `convert` of `index.js` returns a document of width 900 and height 500
with exactly three box blocks, at the rectangles `(50, 90, 200×120)`, `(350, 90, 200×140)` and
`(650, 90, 200×120)` in this order, whatever boxes the parser detected; the text lines of the
three blocks are the escaped content lines of the detected boxes with the smallest, the second
smallest and the third smallest `x`, ties broken by detection order; such a box is one of the
detected boxes, it is missing exactly when fewer boxes were detected, and a missing box gives a
block without text lines; no other detected box reaches the document.  The sorted list of
`layoutTemplate` holds at each index `k` the box with the `k`-th smallest `x`. -/
theorem template_layout (text : List Char) :
    ∃ boxes svg, Parser.parseASCII text = some boxes ∧ convert text = some svg ∧
      svg.width = 900 ∧ svg.height = 500 ∧
      svg.boxes.map (fun b => (b.x, b.y, b.width, b.height)) =
        [(50, 90, 200, 120), (350, 90, 200, 140), (650, 90, 200, 120)] ∧
      svg.boxes.map (fun b => b.texts.map (fun t => t.text)) =
        [(contentOf (nthByX 0 boxes)).map Renderer.escape,
         (contentOf (nthByX 1 boxes)).map Renderer.escape,
         (contentOf (nthByX 2 boxes)).map Renderer.escape] ∧
      svg = renderSVG
        { host := { content := contentOf (nthByX 0 boxes), x := 50, y := 90, w := 200, h := 120 },
          plugin :=
            { content := contentOf (nthByX 1 boxes), x := 350, y := 90, w := 200, h := 140 },
          conductor :=
            { content := contentOf (nthByX 2 boxes), x := 650, y := 90, w := 200, h := 120 } } ∧
      (∀ k, (sortByX boxes)[k]? = nthByX k boxes) ∧
      (∀ k, nthByX k boxes = none ↔ boxes.length ≤ k) ∧
      (∀ k, boxes.length ≤ k → contentOf (nthByX k boxes) = []) ∧
      (∀ k b, nthByX k boxes = some b → b ∈ boxes) := by
  refine ⟨Parser.boxesOf (linesOf text),
    renderSVG (layoutTemplate (Parser.boxesOf (linesOf text))), parser_parseASCII_eq text, ?_, ?_⟩
  · unfold convert
    rw [parser_parseASCII_eq]
  · refine ⟨rfl, rfl, rfl, ?_, ?_, fun k => sortByX_getElem k _, fun k => nthByX_eq_none k _,
      ?_, fun k b h => nthByX_mem k _ b h⟩
    · unfold renderSVG layoutTemplate boxBlock
      simp only [List.map_cons, List.map_nil, boxTextsFrom_text, contentAt_sortByX]
    · unfold layoutTemplate
      simp only [contentAt_sortByX]
      rfl
    · intro k hk
      rw [(nthByX_eq_none k _).2 hk]
      rfl

theorem template_layout_witness :
    (Parser.parseASCII textTwoBoxes =
        some [{ x := 6, y := 0, xr := 10, yb := 2, content := [['R']] },
              { x := 0, y := 1, xr := 4, yb := 3, content := [['L']] }] ∧
      nthByX 0 [{ x := 6, y := 0, xr := 10, yb := 2, content := [['R']] },
                { x := 0, y := 1, xr := 4, yb := 3, content := [['L']] }] =
        some { x := 0, y := 1, xr := 4, yb := 3, content := [['L']] } ∧
      (2 : Nat) ≤ 2) ∧
    ∃ boxes svg, Parser.parseASCII textTwoBoxes = some boxes ∧
      convert textTwoBoxes = some svg ∧ contentOf (nthByX 2 boxes) = [] ∧
      svg.boxes.map (fun b => (b.x, b.y, b.width, b.height)) =
        [(50, 90, 200, 120), (350, 90, 200, 140), (650, 90, 200, 120)] :=
  ⟨⟨by decide, by decide, by decide⟩,
    match template_layout textTwoBoxes with
    | ⟨boxes, svg, h1, h2, _, _, h5, _, _, _, _, h10, _⟩ =>
      ⟨boxes, svg, h1, h2,
        h10 2 (by
          have e : boxes = [{ x := 6, y := 0, xr := 10, yb := 2, content := [['R']] },
              { x := 0, y := 1, xr := 4, yb := 3, content := [['L']] }] :=
            Option.some.inj (h1.symm.trans (by decide))
          rw [e]
          decide),
        h5⟩⟩

/-! ## The converter: reads stay inside the grid -/

theorem cellAt_total (s : ASCII2SVG) (hwf : WellFormed s) (x y : Nat)
    (hx : x < s.width) (hy : y < s.height) : ∃ c, cellAt s.grid x y = some c := by
  obtain ⟨h1, h2⟩ := hwf
  have hy2 : y < s.grid.length := by omega
  have hrow := h2 _ (List.getElem_mem hy2)
  unfold cellAt
  rw [List.getElem?_eq_getElem hy2]
  simp only
  have hx2 : x < (s.grid[y]).length := by omega
  exact ⟨_, List.getElem?_eq_getElem hx2⟩

theorem anyCell_total (read : Nat → Option Char) (p : Char → Bool) (l : List Nat)
    (h : ∀ i ∈ l, ∃ c, read i = some c) : ∃ b, anyCell read p l = some b := by
  induction l with
  | nil => exact ⟨false, rfl⟩
  | cons i rest ih =>
    obtain ⟨c, hc⟩ := h i (List.mem_cons_self _ _)
    unfold anyCell
    rw [hc]
    simp only
    split
    · exact ⟨true, rfl⟩
    · exact ih (fun k hk => h k (List.mem_cons_of_mem _ hk))

theorem runEnd_total (read : Nat → Option Char) (p : Char → Bool) (last : Nat) (l : List Nat)
    (h : ∀ i ∈ l, ∃ c, read i = some c) :
    ∃ e, runEnd read p last l = some e ∧ (e = last ∨ e ∈ l) := by
  induction l generalizing last with
  | nil => exact ⟨last, rfl, Or.inl rfl⟩
  | cons i rest ih =>
    obtain ⟨c, hc⟩ := h i (List.mem_cons_self _ _)
    unfold runEnd
    rw [hc]
    simp only
    split
    · obtain ⟨e, he, hmem⟩ := ih i (fun k hk => h k (List.mem_cons_of_mem _ hk))
      refine ⟨e, he, Or.inr ?_⟩
      rcases hmem with hmem | hmem
      · rw [hmem]; exact List.mem_cons_self _ _
      · exact List.mem_cons_of_mem _ hmem
    · exact ⟨last, rfl, Or.inl rfl⟩

theorem couldBeTopLeft_total (s : ASCII2SVG) (hwf : WellFormed s) (x y : Nat)
    (hx : x < s.width) (hy : y < s.height) : ∃ b, ASCII2SVG.couldBeTopLeft s x y = some b := by
  obtain ⟨c, hc⟩ := cellAt_total s hwf x y hx hy
  unfold ASCII2SVG.couldBeTopLeft
  rw [hc]
  simp only
  split
  · exact ⟨false, rfl⟩
  · obtain ⟨b1, hb1⟩ := anyCell_total (fun i => cellAt s.grid i y)
      (fun c => c == '─' || c == '━' || c == '═' || c == '-' || c == '┬' || c == '┼')
      (List.range' (x + 1) (min (x + 5) s.width - (x + 1)))
      (by
        intro i hi
        rw [List.mem_range'_1] at hi
        exact cellAt_total s hwf i y (by omega) hy)
    obtain ⟨b2, hb2⟩ := anyCell_total (fun i => cellAt s.grid x i)
      (fun c => c == '│' || c == '┃' || c == '║' || c == '|' || c == '├' || c == '┼')
      (List.range' (y + 1) (min (y + 5) s.height - (y + 1)))
      (by
        intro i hi
        rw [List.mem_range'_1] at hi
        exact cellAt_total s hwf x i hx (by omega))
    rw [hb1, hb2]
    exact ⟨_, rfl⟩

theorem topRunEnd_total (s : ASCII2SVG) (hwf : WellFormed s) (startX startY : Nat)
    (hy : startY < s.height) :
    ∃ e, ASCII2SVG.topRunEnd s startX startY = some e ∧ startX ≤ e ∧
      (e = startX ∨ e < s.width) := by
  unfold ASCII2SVG.topRunEnd
  obtain ⟨e, he, hmem⟩ := runEnd_total (fun x => cellAt s.grid x startY) isTopRunChar startX
    (List.range' startX (s.width - startX))
    (by
      intro i hi
      rw [List.mem_range'_1] at hi
      exact cellAt_total s hwf i startY (by omega) hy)
  refine ⟨e, he, ?_, ?_⟩
  · rcases hmem with h | h
    · omega
    · rw [List.mem_range'_1] at h; omega
  · rcases hmem with h | h
    · exact Or.inl h
    · rw [List.mem_range'_1] at h; right; omega

theorem leftRunEnd_total (s : ASCII2SVG) (hwf : WellFormed s) (startX startY : Nat)
    (hx : startX < s.width) :
    ∃ e, ASCII2SVG.leftRunEnd s startX startY = some e ∧ startY ≤ e ∧
      (e = startY ∨ e < s.height) := by
  unfold ASCII2SVG.leftRunEnd
  obtain ⟨e, he, hmem⟩ := runEnd_total (fun y => cellAt s.grid startX y) isLeftRunChar startY
    (List.range' startY (s.height - startY))
    (by
      intro i hi
      rw [List.mem_range'_1] at hi
      exact cellAt_total s hwf startX i hx (by omega))
  refine ⟨e, he, ?_, ?_⟩
  · rcases hmem with h | h
    · omega
    · rw [List.mem_range'_1] at h; omega
  · rcases hmem with h | h
    · exact Or.inl h
    · rw [List.mem_range'_1] at h; right; omega

theorem searchBottomRight_total (s : ASCII2SVG) (hwf : WellFormed s) (endX endY : Nat)
    (l : List (Int × Int)) :
    ∃ r, ASCII2SVG.searchBottomRight s endX endY l = some r ∧
      ∀ nx ny, r = some (nx, ny) → nx < s.width ∧ ny < s.height := by
  induction l with
  | nil => exact ⟨none, rfl, fun nx ny h => absurd h (by simp)⟩
  | cons d rest ih =>
    obtain ⟨dx, dy⟩ := d
    unfold ASCII2SVG.searchBottomRight
    simp only
    split
    · rename_i hin
      obtain ⟨c, hc⟩ := cellAt_total s hwf ((endX : Int) + dx).toNat ((endY : Int) + dy).toNat
        (by omega) (by omega)
      rw [hc]
      simp only
      split
      · refine ⟨_, rfl, ?_⟩
        intro nx ny h
        have h := Option.some.inj h
        simp only [Prod.mk.injEq] at h
        omega
      · exact ih
    · exact ih

theorem adjustCorner_total (s : ASCII2SVG) (hwf : WellFormed s) (endX endY : Nat) :
    ∃ ex ey, ASCII2SVG.adjustCorner s endX endY = some (ex, ey) := by
  unfold ASCII2SVG.adjustCorner
  split
  · rename_i hin
    obtain ⟨c, hc⟩ := cellAt_total s hwf endX endY hin.1 hin.2
    rw [hc]
    simp only
    split
    · obtain ⟨r, hr, _⟩ := searchBottomRight_total s hwf endX endY offsets
      rw [hr]
      cases r with
      | none => exact ⟨_, _, rfl⟩
      | some found => exact ⟨found.1, found.2, rfl⟩
    · exact ⟨_, _, rfl⟩
  · exact ⟨_, _, rfl⟩

theorem contentLine_total (s : ASCII2SVG) (hwf : WellFormed s) (y : Nat) (xs : List Nat) :
    ∃ line, ASCII2SVG.contentLine s y xs = some line := by
  induction xs with
  | nil => exact ⟨[], rfl⟩
  | cons x rest ih =>
    obtain ⟨line, hline⟩ := ih
    unfold ASCII2SVG.contentLine
    split
    · rename_i hin
      obtain ⟨c, hc⟩ := cellAt_total s hwf x y hin.1 hin.2
      rw [hc, hline]
      exact ⟨_, rfl⟩
    · exact ⟨line, hline⟩

theorem converter_content_total (s : ASCII2SVG) (hwf : WellFormed s) (startX endX : Nat)
    (ys : List Nat) : ∃ c, ASCII2SVG.content s startX endX ys = some c := by
  induction ys with
  | nil => exact ⟨[], rfl⟩
  | cons y rest ih =>
    obtain ⟨c, hc⟩ := ih
    obtain ⟨line, hline⟩ := contentLine_total s hwf y
      (List.range' (startX + 1) (endX - (startX + 1)))
    unfold ASCII2SVG.content
    rw [hline, hc]
    simp only
    split
    · exact ⟨_, rfl⟩
    · exact ⟨_, rfl⟩

/-- On a well-formed grid `findBoxFromCorner` returns, with `null` or with a box, at every
cell of the grid. -/
theorem findBoxFromCorner_total (s : ASCII2SVG) (hwf : WellFormed s) (startX startY : Nat)
    (hx : startX < s.width) (hy : startY < s.height) :
    ∃ r, ASCII2SVG.findBoxFromCorner s startX startY = some r := by
  obtain ⟨endX, h1, _, _⟩ := topRunEnd_total s hwf startX startY hy
  obtain ⟨endY, h2, _, _⟩ := leftRunEnd_total s hwf startX startY hx
  unfold ASCII2SVG.findBoxFromCorner
  rw [h1, h2]
  simp only
  split
  · exact ⟨_, rfl⟩
  · obtain ⟨ex, ey, h3⟩ := adjustCorner_total s hwf endX endY
    rw [h3]
    simp only
    obtain ⟨c, h4⟩ := converter_content_total s hwf startX ex
      (List.range' (startY + 1) (ey - (startY + 1)))
    rw [h4]
    exact ⟨_, rfl⟩

/-! ## The converter: what the detectors depend on -/

theorem runEnd_congr (read1 read2 : Nat → Option Char) (p : Char → Bool) (last : Nat)
    (l : List Nat) (h : ∀ i, read1 i = read2 i) : runEnd read1 p last l = runEnd read2 p last l := by
  have : read1 = read2 := funext h
  rw [this]

theorem topRunEnd_congr (s t : ASCII2SVG) (h : SameGrid s t) (x y : Nat) :
    ASCII2SVG.topRunEnd t x y = ASCII2SVG.topRunEnd s x y := by
  unfold ASCII2SVG.topRunEnd
  rw [h.1, h.2.1]

theorem leftRunEnd_congr (s t : ASCII2SVG) (h : SameGrid s t) (x y : Nat) :
    ASCII2SVG.leftRunEnd t x y = ASCII2SVG.leftRunEnd s x y := by
  unfold ASCII2SVG.leftRunEnd
  rw [h.1, h.2.2]

theorem couldBeTopLeft_congr (s t : ASCII2SVG) (h : SameGrid s t) (x y : Nat) :
    ASCII2SVG.couldBeTopLeft t x y = ASCII2SVG.couldBeTopLeft s x y := by
  unfold ASCII2SVG.couldBeTopLeft
  rw [h.1, h.2.1, h.2.2]

theorem searchBottomRight_congr (s t : ASCII2SVG) (h : SameGrid s t) (endX endY : Nat)
    (l : List (Int × Int)) :
    ASCII2SVG.searchBottomRight t endX endY l = ASCII2SVG.searchBottomRight s endX endY l := by
  induction l with
  | nil => rfl
  | cons d rest ih =>
    obtain ⟨dx, dy⟩ := d
    unfold ASCII2SVG.searchBottomRight
    rw [h.1, h.2.1, h.2.2, ih]

theorem adjustCorner_congr (s t : ASCII2SVG) (h : SameGrid s t) (endX endY : Nat) :
    ASCII2SVG.adjustCorner t endX endY = ASCII2SVG.adjustCorner s endX endY := by
  unfold ASCII2SVG.adjustCorner
  rw [searchBottomRight_congr s t h, h.1, h.2.1, h.2.2]

theorem contentLine_congr (s t : ASCII2SVG) (h : SameGrid s t) (y : Nat) (xs : List Nat) :
    ASCII2SVG.contentLine t y xs = ASCII2SVG.contentLine s y xs := by
  induction xs with
  | nil => rfl
  | cons x rest ih =>
    unfold ASCII2SVG.contentLine
    rw [h.1, h.2.1, h.2.2, ih]

theorem converter_content_congr (s t : ASCII2SVG) (h : SameGrid s t) (startX endX : Nat)
    (ys : List Nat) :
    ASCII2SVG.content t startX endX ys = ASCII2SVG.content s startX endX ys := by
  induction ys with
  | nil => rfl
  | cons y rest ih =>
    unfold ASCII2SVG.content
    rw [contentLine_congr s t h, ih]

/-- The result of `findBoxFromCorner` depends on the grid, and through `styleIndex` on the
number of boxes recorded so far. -/
theorem findBoxFromCorner_congr (s t : ASCII2SVG) (h : SameGrid s t) (x y : Nat) :
    ASCII2SVG.findBoxFromCorner t x y =
      (ASCII2SVG.findBoxFromCorner s x y).map
        (Option.map (fun b => { b with styleIndex := t.boxes.length % boxStylesLength })) := by
  unfold ASCII2SVG.findBoxFromCorner
  rw [topRunEnd_congr s t h, leftRunEnd_congr s t h]
  cases ASCII2SVG.topRunEnd s x y with
  | none => rfl
  | some endX =>
    cases ASCII2SVG.leftRunEnd s x y with
    | none => rfl
    | some endY =>
      simp only
      split
      · rfl
      · rw [adjustCorner_congr s t h]
        cases ASCII2SVG.adjustCorner s endX endY with
        | none => rfl
        | some e =>
          obtain ⟨ex, ey⟩ := e
          simp only
          rw [converter_content_congr s t h]
          cases ASCII2SVG.content s x ex (List.range' (y + 1) (ey - (y + 1))) with
          | none => rfl
          | some c => rfl

theorem findBoxFromCorner_styleIndex (s : ASCII2SVG) (x y : Nat) (b : LooseBox)
    (h : ASCII2SVG.findBoxFromCorner s x y = some (some b)) :
    b.styleIndex = s.boxes.length % boxStylesLength ∧ b.x = x ∧ b.y = y := by
  unfold ASCII2SVG.findBoxFromCorner at h
  split at h
  · exact absurd h (by simp)
  split at h
  · exact absurd h (by simp)
  simp only at h
  split at h
  · exact absurd h (by simp)
  split at h
  · exact absurd h (by simp)
  split at h
  · exact absurd h (by simp)
  have h := Option.some.inj (Option.some.inj h)
  subst h
  exact ⟨rfl, rfl, rfl⟩

theorem recordedAt_congr (s t : ASCII2SVG) (h : SameGrid s t) (c : Nat × Nat) :
    (recordedAt t c).map unstyled = (recordedAt s c).map unstyled := by
  unfold recordedAt
  rw [findBoxFromCorner_congr s t h]
  cases ASCII2SVG.findBoxFromCorner s c.1 c.2 with
  | none => rfl
  | some r =>
    cases r with
    | none => rfl
    | some b =>
      simp only [Option.map_some']
      by_cases hg : b.width ≥ 10 ∧ b.height ≥ 3
      · rw [if_pos hg, if_pos hg]
        rfl
      · rw [if_neg hg, if_neg hg]

theorem recorded_congr (s t : ASCII2SVG) (h : SameGrid s t) (cs : List (Nat × Nat)) :
    (recorded t cs).map unstyled = (recorded s cs).map unstyled := by
  unfold recorded
  rw [List.map_flatMap, List.map_flatMap]
  apply List.flatMap_congr
  intro c _
  exact recordedAt_congr s t h c

theorem restyleFrom_unstyled (n : Nat) (l : List LooseBox) :
    restyleFrom n (l.map unstyled) = restyleFrom n l := by
  induction l generalizing n with
  | nil => rfl
  | cons b rest ih =>
    rw [List.map_cons]
    unfold restyleFrom
    rw [ih]
    rfl

theorem restyleFrom_congr (n : Nat) (l1 l2 : List LooseBox)
    (h : l1.map unstyled = l2.map unstyled) : restyleFrom n l1 = restyleFrom n l2 := by
  rw [← restyleFrom_unstyled n l1, ← restyleFrom_unstyled n l2, h]

theorem restyleFrom_append (n : Nat) (l1 l2 : List LooseBox) :
    restyleFrom n (l1 ++ l2) = restyleFrom n l1 ++ restyleFrom (n + l1.length) l2 := by
  induction l1 generalizing n with
  | nil => rfl
  | cons b rest ih =>
    have e : n + (b :: rest).length = n + 1 + rest.length := by
      rw [List.length_cons]; omega
    rw [e, List.cons_append]
    show _ :: restyleFrom (n + 1) (rest ++ l2) = (_ :: restyleFrom (n + 1) rest) ++ _
    rw [ih, List.cons_append]

theorem length_restyleFrom (n : Nat) (l : List LooseBox) :
    (restyleFrom n l).length = l.length := by
  induction l generalizing n with
  | nil => rfl
  | cons b rest ih =>
    unfold restyleFrom
    rw [List.length_cons, List.length_cons, ih]

theorem corners_eq (s : ASCII2SVG) (hwf : WellFormed s) :
    ASCII2SVG.corners s = some (cornerList s) := by
  unfold ASCII2SVG.corners cornerList
  have hin : ∀ y ∈ List.range (s.height - 2),
      pushAll (fun x =>
        match ASCII2SVG.couldBeTopLeft s x y with
        | none => none
        | some true => some [(x, y)]
        | some false => some []) (List.range (s.width - 2)) =
      some ((List.range (s.width - 2)).flatMap (fun x =>
        if ASCII2SVG.couldBeTopLeft s x y = some true then [(x, y)] else [])) := by
    intro y hy
    rw [List.mem_range] at hy
    rw [pushAll_eq]
    · congr 1
      apply List.flatMap_congr
      intro x hx
      rw [List.mem_range] at hx
      obtain ⟨b, hb⟩ := couldBeTopLeft_total s hwf x y (by omega) (by omega)
      rw [hb]
      cases b <;> simp
    · intro x hx
      rw [List.mem_range] at hx
      obtain ⟨b, hb⟩ := couldBeTopLeft_total s hwf x y (by omega) (by omega)
      rw [hb]
      cases b
      · exact ⟨_, rfl⟩
      · exact ⟨_, rfl⟩
  rw [pushAll_eq _ _ (fun y hy => ⟨_, hin y hy⟩)]
  congr 1
  apply List.flatMap_congr
  intro y hy
  rw [hin y hy]
  rfl

theorem cornerList_mem (s : ASCII2SVG) (c : Nat × Nat) (h : c ∈ cornerList s) :
    c.1 < s.width - 2 ∧ c.2 < s.height - 2 ∧ ASCII2SVG.couldBeTopLeft s c.1 c.2 = some true := by
  unfold cornerList at h
  simp only [List.mem_flatMap, List.mem_range] at h
  obtain ⟨y, hy, x, hx, hmem⟩ := h
  split at hmem
  · rename_i ht
    rw [List.mem_singleton] at hmem
    subst hmem
    exact ⟨hx, hy, ht⟩
  · simp at hmem

theorem recorded_cons (s : ASCII2SVG) (c : Nat × Nat) (cs : List (Nat × Nat)) :
    recorded s (c :: cs) = recordedAt s c ++ recorded s cs := by
  unfold recorded
  rw [List.flatMap_cons]

/-- The loop over the corners appends, in the order of the corners, the boxes that are at
least 10 columns wide and 3 rows high, with consecutive style indices. -/
theorem pushBoxes_eq (s : ASCII2SVG) (hwf : WellFormed s) (cs : List (Nat × Nat))
    (hcs : ∀ c ∈ cs, c.1 < s.width ∧ c.2 < s.height) :
    ASCII2SVG.pushBoxes s cs =
      some { s with boxes := s.boxes ++ restyleFrom s.boxes.length (recorded s cs) } := by
  induction cs generalizing s with
  | nil =>
    unfold ASCII2SVG.pushBoxes
    simp [recorded, restyleFrom]
  | cons c rest ih =>
    obtain ⟨x, y⟩ := c
    have hc := hcs (x, y) (List.mem_cons_self _ _)
    have hrest : ∀ c ∈ rest, c.1 < s.width ∧ c.2 < s.height :=
      fun c h => hcs c (List.mem_cons_of_mem _ h)
    obtain ⟨r, hr⟩ := findBoxFromCorner_total s hwf x y hc.1 hc.2
    have hskip : recordedAt s (x, y) = [] →
        ASCII2SVG.pushBoxes s rest =
          some { s with
            boxes := s.boxes ++ restyleFrom s.boxes.length (recorded s ((x, y) :: rest)) } := by
      intro he
      rw [recorded_cons, he, List.nil_append]
      exact ih s hwf hrest
    unfold ASCII2SVG.pushBoxes
    rw [hr]
    cases r with
    | none =>
      simp only
      apply hskip
      unfold recordedAt
      rw [hr]
    | some box =>
      simp only
      by_cases hg : box.width ≥ 10 ∧ box.height ≥ 3
      · rw [if_pos hg]
        have hwf2 : WellFormed { s with boxes := s.boxes ++ [box] } := hwf
        have hsame : SameGrid s { s with boxes := s.boxes ++ [box] } := ⟨rfl, rfl, rfl⟩
        rw [ih _ hwf2 hrest]
        have hrec : recordedAt s (x, y) = [box] := by
          unfold recordedAt
          rw [hr]
          simp only
          rw [if_pos hg]
        have hstyle := (findBoxFromCorner_styleIndex s x y box hr).1
        rw [recorded_cons, hrec, restyleFrom_append]
        rw [restyleFrom_congr _ _ _ (recorded_congr s _ hsame rest)]
        simp only [List.length_append, List.length_singleton, List.append_assoc]
        congr 3
        unfold restyleFrom
        rw [← hstyle]
        rfl
      · rw [if_neg hg]
        apply hskip
        unfold recordedAt
        rw [hr]
        simp only
        rw [if_neg hg]

/-- `detectBoxesAdvanced` returns on a well-formed grid; it appends to `this.boxes` the boxes of
at least 10 columns and 3 rows found at the candidate corners, and changes nothing else. -/
theorem detectBoxesAdvanced_eq (s : ASCII2SVG) (hwf : WellFormed s) :
    ASCII2SVG.detectBoxesAdvanced s =
      some { s with
        boxes := s.boxes ++ restyleFrom s.boxes.length (recorded s (cornerList s)) } := by
  unfold ASCII2SVG.detectBoxesAdvanced
  rw [corners_eq s hwf]
  simp only
  apply pushBoxes_eq s hwf
  intro c hc
  have := cornerList_mem s c hc
  omega

theorem arrowsAt_total (s : ASCII2SVG) (hwf : WellFormed s) (x y : Nat)
    (hx : x < s.width) (hy : y < s.height) : ∃ l, ASCII2SVG.arrowsAt s x y = some l := by
  obtain ⟨c, hc⟩ := cellAt_total s hwf x y hx hy
  unfold ASCII2SVG.arrowsAt
  rw [hc]
  simp only
  split
  · obtain ⟨e, he, _⟩ := runEnd_total (fun backX => cellAt s.grid backX y) isShaftChar x
      (List.range x).reverse
      (by
        intro i hi
        rw [List.mem_reverse, List.mem_range] at hi
        exact cellAt_total s hwf i y (by omega) hy)
    rw [he]
    simp only
    split
    · exact ⟨_, rfl⟩
    · exact ⟨_, rfl⟩
  · exact ⟨_, rfl⟩

/-- `detectArrowsSimple` returns on a well-formed grid; it appends the arrows of the grid to
`this.arrows` and changes nothing else. -/
theorem detectArrowsSimple_eq (s : ASCII2SVG) (hwf : WellFormed s) :
    ASCII2SVG.detectArrowsSimple s = some { s with arrows := s.arrows ++ arrowList s } := by
  unfold ASCII2SVG.detectArrowsSimple arrowList
  have hin : ∀ y ∈ List.range s.height,
      pushAll (fun x => ASCII2SVG.arrowsAt s x y) (List.range (s.width - 1)) =
      some ((List.range (s.width - 1)).flatMap (fun x => (ASCII2SVG.arrowsAt s x y).getD [])) := by
    intro y hy
    rw [List.mem_range] at hy
    apply pushAll_eq
    intro x hx
    rw [List.mem_range] at hx
    exact arrowsAt_total s hwf x y (by omega) hy
  rw [pushAll_eq _ _ (fun y hy => ⟨_, hin y hy⟩)]
  simp only
  congr 3
  apply List.flatMap_congr
  intro y hy
  rw [hin y hy]
  rfl

/-! ## The converter: the grid after `parseASCII` -/

theorem foldl_max_mem (l : List Nat) (a : Nat) : l.foldl max a = a ∨ l.foldl max a ∈ l := by
  induction l generalizing a with
  | nil => exact Or.inl rfl
  | cons b rest ih =>
    rw [List.foldl_cons]
    rcases ih (max a b) with h | h
    · rw [h]
      rcases Nat.le_total a b with hab | hab
      · right
        rw [Nat.max_eq_right hab]
        exact List.mem_cons_self _ _
      · left
        exact Nat.max_eq_left hab
    · exact Or.inr (List.mem_cons_of_mem _ h)

theorem width_attained (lines : List (List Char)) (h : lines ≠ []) :
    ∃ l ∈ lines, l.length = width lines := by
  unfold width
  rcases foldl_max_mem (lines.map List.length) 0 with h0 | hm
  · cases lines with
    | nil => exact absurd rfl h
    | cons l rest =>
      refine ⟨l, List.mem_cons_self _ _, ?_⟩
      have := mem_le_foldl_max ((l :: rest).map List.length) 0 l.length
        (List.mem_map_of_mem _ (List.mem_cons_self _ _))
      omega
  · rw [List.mem_map] at hm
    obtain ⟨l, hl, e⟩ := hm
    exact ⟨l, hl, e⟩

theorem length_padEnd (line : List Char) (n : Nat) (h : line.length ≤ n) :
    (padEnd line n).length = n := by
  unfold padEnd
  rw [List.length_append, List.length_replicate]
  omega

theorem parseASCII_of_blank (s : ASCII2SVG) (text : List Char)
    (h : ASCII2SVG.linesOf text = []) : ASCII2SVG.parseASCII s text = s := by
  unfold ASCII2SVG.parseASCII
  simp only [h, List.length_nil, if_true]

theorem parseASCII_of_nonblank (s : ASCII2SVG) (text : List Char)
    (h : ASCII2SVG.linesOf text ≠ []) :
    ASCII2SVG.parseASCII s text =
      { s with
        grid := (ASCII2SVG.linesOf text).map
          (fun line => padEnd line (width (ASCII2SVG.linesOf text))),
        width := width (ASCII2SVG.linesOf text),
        height := (ASCII2SVG.linesOf text).length } := by
  unfold ASCII2SVG.parseASCII
  have hlen : ¬ (ASCII2SVG.linesOf text).length = 0 := by
    intro h0
    exact h (List.length_eq_zero.1 h0)
  simp only [if_neg hlen]
  rfl

theorem wellFormed_new : WellFormed ASCII2SVG.new := by
  unfold WellFormed ASCII2SVG.new
  simp

/-- After `parseASCII` the grid is well-formed: on a text with a non-blank line it is rebuilt
with rows of equal length, on another text the state is left as it was. -/
theorem parseASCII_wellFormed (s : ASCII2SVG) (text : List Char)
    (h : WellFormed s ∨ ASCII2SVG.linesOf text ≠ []) :
    WellFormed (ASCII2SVG.parseASCII s text) := by
  by_cases hb : ASCII2SVG.linesOf text = []
  · rw [parseASCII_of_blank s text hb]
    rcases h with h | h
    · exact h
    · exact absurd hb h
  · rw [parseASCII_of_nonblank s text hb]
    unfold WellFormed
    simp only [List.length_map, List.mem_map, true_and]
    rintro row ⟨line, hline, rfl⟩
    exact length_padEnd line _ (length_le_width _ line hline)

/-- The result of `parseASCII` depends on the text and, when the text has no non-blank line,
on the grid before the call. -/
theorem parseASCII_sameGrid (s t : ASCII2SVG) (text : List Char) (h : SameGrid s t) :
    SameGrid (ASCII2SVG.parseASCII s text) (ASCII2SVG.parseASCII t text) := by
  by_cases hb : ASCII2SVG.linesOf text = []
  · rw [parseASCII_of_blank s text hb, parseASCII_of_blank t text hb]
    exact h
  · rw [parseASCII_of_nonblank s text hb, parseASCII_of_nonblank t text hb]
    exact ⟨rfl, rfl, rfl⟩

/-- C30: for every text with at least one non-blank line, whatever the state before, after
`parseASCII` the grid has one row for each non-blank line of the text, in their order, each
line padded with blanks to the maximum length of those lines; `height` is their number and
`width` that maximum, which one of the lines attains; every row has `width` cells; hence every
read `grid[y][x]` with `x < width` and `y < height` finds a cell, and `couldBeTopLeft`,
`findBoxFromCorner` and the loop body of `detectArrowsSimple` at such a cell, as well as the
whole of `detectBoxesAdvanced` and `detectArrowsSimple`, return without reading outside the
grid. -/
theorem converter_grid_invariant (s : ASCII2SVG) (text : List Char)
    (h : ASCII2SVG.linesOf text ≠ []) :
    (ASCII2SVG.parseASCII s text).grid =
      (ASCII2SVG.linesOf text).map (fun line => padEnd line (width (ASCII2SVG.linesOf text))) ∧
    (ASCII2SVG.parseASCII s text).height = (ASCII2SVG.linesOf text).length ∧
    (ASCII2SVG.parseASCII s text).grid.length = (ASCII2SVG.parseASCII s text).height ∧
    (ASCII2SVG.parseASCII s text).width = width (ASCII2SVG.linesOf text) ∧
    (∀ l ∈ ASCII2SVG.linesOf text, l.length ≤ (ASCII2SVG.parseASCII s text).width) ∧
    (∃ l ∈ ASCII2SVG.linesOf text, l.length = (ASCII2SVG.parseASCII s text).width) ∧
    (∀ row ∈ (ASCII2SVG.parseASCII s text).grid,
      row.length = (ASCII2SVG.parseASCII s text).width) ∧
    (∀ x y, x < (ASCII2SVG.parseASCII s text).width → y < (ASCII2SVG.parseASCII s text).height →
      (∃ c, cellAt (ASCII2SVG.parseASCII s text).grid x y = some c) ∧
      (∃ b, ASCII2SVG.couldBeTopLeft (ASCII2SVG.parseASCII s text) x y = some b) ∧
      (∃ r, ASCII2SVG.findBoxFromCorner (ASCII2SVG.parseASCII s text) x y = some r) ∧
      (∃ l, ASCII2SVG.arrowsAt (ASCII2SVG.parseASCII s text) x y = some l)) ∧
    (∃ s2, ASCII2SVG.detectBoxesAdvanced (ASCII2SVG.parseASCII s text) = some s2 ∧
      s2.grid = (ASCII2SVG.parseASCII s text).grid ∧
      ∃ s3, ASCII2SVG.detectArrowsSimple s2 = some s3 ∧
        s3.grid = (ASCII2SVG.parseASCII s text).grid) := by
  have hwf := parseASCII_wellFormed s text (Or.inr h)
  have hp := parseASCII_of_nonblank s text h
  have hw : (ASCII2SVG.parseASCII s text).width = width (ASCII2SVG.linesOf text) := by rw [hp]
  refine ⟨by rw [hp], by rw [hp], hwf.1, hw, ?_, ?_, hwf.2, ?_, ?_⟩
  · intro l hl
    rw [hw]
    exact length_le_width _ l hl
  · rw [hw]
    exact width_attained _ h
  · intro x y hx hy
    exact ⟨cellAt_total _ hwf x y hx hy, couldBeTopLeft_total _ hwf x y hx hy,
      findBoxFromCorner_total _ hwf x y hx hy, arrowsAt_total _ hwf x y hx hy⟩
  · refine ⟨_, detectBoxesAdvanced_eq _ hwf, rfl, ?_⟩
    exact ⟨_, detectArrowsSimple_eq _ hwf, rfl⟩

theorem converter_grid_invariant_witness :
    ASCII2SVG.linesOf textSmallBox ≠ [] ∧
    (ASCII2SVG.parseASCII ASCII2SVG.new textSmallBox).height = 3 ∧
    (ASCII2SVG.parseASCII ASCII2SVG.new textSmallBox).width = 5 ∧
    ∃ c, cellAt (ASCII2SVG.parseASCII ASCII2SVG.new textSmallBox).grid 4 2 = some c :=
  ⟨by decide, by decide, by decide,
    ((converter_grid_invariant ASCII2SVG.new textSmallBox (by decide)).2.2.2.2.2.2.2.1 4 2
      (by decide) (by decide)).1⟩

/-! ## The converter: which boxes are recorded -/

theorem mem_recorded (s : ASCII2SVG) (cs : List (Nat × Nat)) (b : LooseBox) :
    b ∈ recorded s cs ↔
      ∃ c ∈ cs, ASCII2SVG.findBoxFromCorner s c.1 c.2 = some (some b) ∧
        b.width ≥ 10 ∧ b.height ≥ 3 := by
  unfold recorded
  rw [List.mem_flatMap]
  constructor
  · rintro ⟨c, hc, hmem⟩
    refine ⟨c, hc, ?_⟩
    unfold recordedAt at hmem
    split at hmem
    · rename_i b2 hfind
      split at hmem
      · rename_i hg
        rw [List.mem_singleton] at hmem
        subst hmem
        exact ⟨hfind, hg⟩
      · simp at hmem
    · simp at hmem
  · rintro ⟨c, hc, hfind, hg⟩
    refine ⟨c, hc, ?_⟩
    unfold recordedAt
    rw [hfind]
    simp only
    rw [if_pos hg]
    exact List.mem_singleton_self b

theorem mem_restyleFrom (n : Nat) (l : List LooseBox) (b2 : LooseBox) :
    unstyled b2 ∈ (restyleFrom n l).map unstyled ↔ unstyled b2 ∈ l.map unstyled := by
  rw [← restyleFrom_unstyled n l]
  have hmap : ∀ (m : Nat) (k : List LooseBox),
      (restyleFrom m (k.map unstyled)).map unstyled = k.map unstyled := by
    intro m k
    induction k generalizing m with
    | nil => rfl
    | cons a rest ih =>
      rw [List.map_cons]
      show unstyled _ :: (restyleFrom (m + 1) (rest.map unstyled)).map unstyled = _
      rw [ih]
      rfl
  rw [hmap]

theorem restyleFrom_keeps (n : Nat) (l : List LooseBox) :
    ∀ b2 ∈ restyleFrom n l, ∃ b ∈ l, unstyled b2 = unstyled b ∧
      b2.styleIndex < boxStylesLength := by
  induction l generalizing n with
  | nil => intro b2 h; simp [restyleFrom] at h
  | cons a rest ih =>
    intro b2 h
    unfold restyleFrom at h
    rcases List.mem_cons.1 h with h | h
    · subst h
      exact ⟨a, List.mem_cons_self _ _, rfl, Nat.mod_lt _ (by decide)⟩
    · obtain ⟨b, hb, e⟩ := ih (n + 1) b2 h
      exact ⟨b, List.mem_cons_of_mem _ hb, e⟩

/-- C22 (counterexample): on the text `textSmallBox`, a closed rectangle of 5 columns and 3
rows, the only candidate corner is `(0, 0)` and `findBoxFromCorner` returns for it the box of
width 5 and height 3 with the content line `A`, but `detectBoxesAdvanced` records no box. -/
theorem small_box_not_recorded :
    ASCII2SVG.corners (ASCII2SVG.parseASCII ASCII2SVG.new textSmallBox) = some [(0, 0)] ∧
    ASCII2SVG.findBoxFromCorner (ASCII2SVG.parseASCII ASCII2SVG.new textSmallBox) 0 0 =
      some (some { x := 0, y := 0, width := 5, height := 3, content := [['A']],
                   styleIndex := 0 }) ∧
    ASCII2SVG.detectBoxesAdvanced (ASCII2SVG.parseASCII ASCII2SVG.new textSmallBox) =
      some (ASCII2SVG.parseASCII ASCII2SVG.new textSmallBox) ∧
    (ASCII2SVG.parseASCII ASCII2SVG.new textSmallBox).boxes = [] := by
  decide

theorem unstyled_eq (a b : LooseBox) (h : unstyled a = unstyled b) :
    a.width = b.width ∧ a.height = b.height := by
  have h1 : (unstyled a).width = (unstyled b).width := by rw [h]
  have h2 : (unstyled a).height = (unstyled b).height := by rw [h]
  exact ⟨h1, h2⟩

/-- C22 (amended): on a well-formed grid `detectBoxesAdvanced` returns and changes `this.boxes`
only, by appending boxes; a box that `findBoxFromCorner` returns for a candidate corner is
recorded (up to its style index) exactly when its width is at least 10 and its height at least
3, every appended box is such a box, and the appended boxes are those boxes in the order of
the corners with consecutive style indices. -/
theorem boxes_recorded_iff_large (s : ASCII2SVG) (hwf : WellFormed s) :
    ∃ s2, ASCII2SVG.detectBoxesAdvanced s = some s2 ∧
      s2.grid = s.grid ∧ s2.arrows = s.arrows ∧ s2.labels = s.labels ∧
      ∃ added, s2.boxes = s.boxes ++ added ∧
        added = restyleFrom s.boxes.length (recorded s (cornerList s)) ∧
        (∀ b2 ∈ added, b2.width ≥ 10 ∧ b2.height ≥ 3 ∧
          ∃ c ∈ cornerList s, ∃ b,
            ASCII2SVG.findBoxFromCorner s c.1 c.2 = some (some b) ∧ unstyled b2 = unstyled b) ∧
        (∀ c ∈ cornerList s, ∀ b, ASCII2SVG.findBoxFromCorner s c.1 c.2 = some (some b) →
          ((∃ b2 ∈ added, unstyled b2 = unstyled b) ↔ b.width ≥ 10 ∧ b.height ≥ 3)) := by
  refine ⟨_, detectBoxesAdvanced_eq s hwf, rfl, rfl, rfl, _, rfl, rfl, ?_, ?_⟩
  · intro b2 hb2
    obtain ⟨b3, hb3, e, _⟩ := restyleFrom_keeps _ _ b2 hb2
    obtain ⟨c, hc, hfind, hg⟩ := (mem_recorded s _ b3).1 hb3
    have ew : b2.width = b3.width := (unstyled_eq b2 b3 e).1
    have eh : b2.height = b3.height := (unstyled_eq b2 b3 e).2
    exact ⟨by rw [ew]; exact hg.1, by rw [eh]; exact hg.2, c, hc, b3, hfind, e⟩
  · intro c hc b hfind
    constructor
    · rintro ⟨b2, hb2, e⟩
      obtain ⟨b3, hb3, e3, _⟩ := restyleFrom_keeps _ _ b2 hb2
      obtain ⟨_, _, _, hg⟩ := (mem_recorded s _ b3).1 hb3
      have e4 : unstyled b3 = unstyled b := e3.symm.trans e
      have ew : b3.width = b.width := (unstyled_eq b3 b e4).1
      have eh : b3.height = b.height := (unstyled_eq b3 b e4).2
      rw [← ew, ← eh]
      exact hg
    · intro hg
      have hmem : b ∈ recorded s (cornerList s) := (mem_recorded s _ b).2 ⟨c, hc, hfind, hg⟩
      have h1 : unstyled b ∈ (recorded s (cornerList s)).map unstyled :=
        List.mem_map_of_mem _ hmem
      have h2 := (mem_restyleFrom s.boxes.length _ b).2 h1
      rw [List.mem_map] at h2
      obtain ⟨b2, hb2, e⟩ := h2
      exact ⟨b2, hb2, e⟩

theorem boxes_recorded_iff_large_witness :
    cornerList (ASCII2SVG.parseASCII ASCII2SVG.new textWideBox) = [(0, 0)] ∧
    ∃ s2, ASCII2SVG.detectBoxesAdvanced (ASCII2SVG.parseASCII ASCII2SVG.new textWideBox) =
        some s2 ∧
      s2.grid = (ASCII2SVG.parseASCII ASCII2SVG.new textWideBox).grid ∧
      s2.arrows = (ASCII2SVG.parseASCII ASCII2SVG.new textWideBox).arrows ∧
      s2.labels = (ASCII2SVG.parseASCII ASCII2SVG.new textWideBox).labels ∧
      ∃ added, s2.boxes = (ASCII2SVG.parseASCII ASCII2SVG.new textWideBox).boxes ++ added ∧
        added = [{ x := 0, y := 0, width := 10, height := 3,
                   content := ["Hello".toList], styleIndex := 0 }] :=
  match boxes_recorded_iff_large (ASCII2SVG.parseASCII ASCII2SVG.new textWideBox)
      (parseASCII_wellFormed ASCII2SVG.new textWideBox (Or.inl wellFormed_new)) with
  | ⟨s2, h1, h2, h3, h4, added, h5, h6, _⟩ =>
    ⟨by decide, s2, h1, h2, h3, h4, added, h5, h6.trans (by decide)⟩

/-! ## The converter: the search for a bottom-right corner -/

/-- C29: on the grid of `textShiftedCorner`, from the corner `(0, 0)` the scan of the top
border ends at column 4 and the scan of the left border at row 2, runs of 5 columns and 3
rows; the cell `(4, 2)` is no corner glyph and the search of its neighbourhood finds `┘` at
`(5, 2)`, so `findBoxFromCorner` returns a box of width 6, not 5.  On the grid of
`textNoCorner`, the runs end at `(4, 2)` too, that cell holds `x`, the search finds no corner
glyph at all, and `findBoxFromCorner` still returns the box of width 5 and height 3. -/
theorem loose_detector_changes_extent :
    (ASCII2SVG.topRunEnd (ASCII2SVG.parseASCII ASCII2SVG.new textShiftedCorner) 0 0 = some 4 ∧
      ASCII2SVG.leftRunEnd (ASCII2SVG.parseASCII ASCII2SVG.new textShiftedCorner) 0 0 = some 2 ∧
      cellAt (ASCII2SVG.parseASCII ASCII2SVG.new textShiftedCorner).grid 4 2 = some 'x' ∧
      isBottomRightChar 'x' = false ∧
      ASCII2SVG.searchBottomRight (ASCII2SVG.parseASCII ASCII2SVG.new textShiftedCorner) 4 2
        offsets = some (some (5, 2)) ∧
      ASCII2SVG.findBoxFromCorner (ASCII2SVG.parseASCII ASCII2SVG.new textShiftedCorner) 0 0 =
        some (some { x := 0, y := 0, width := 6, height := 3, content := [],
                     styleIndex := 0 }) ∧
      (6 : Int) ≠ ((4 : Nat) : Int) - ((0 : Nat) : Int) + 1) ∧
    (ASCII2SVG.topRunEnd (ASCII2SVG.parseASCII ASCII2SVG.new textNoCorner) 0 0 = some 4 ∧
      ASCII2SVG.leftRunEnd (ASCII2SVG.parseASCII ASCII2SVG.new textNoCorner) 0 0 = some 2 ∧
      cellAt (ASCII2SVG.parseASCII ASCII2SVG.new textNoCorner).grid 4 2 = some 'x' ∧
      ASCII2SVG.searchBottomRight (ASCII2SVG.parseASCII ASCII2SVG.new textNoCorner) 4 2
        offsets = some none ∧
      (∀ row ∈ (ASCII2SVG.parseASCII ASCII2SVG.new textNoCorner).grid,
        ∀ c ∈ row, isBottomRightChar c = false) ∧
      ASCII2SVG.findBoxFromCorner (ASCII2SVG.parseASCII ASCII2SVG.new textNoCorner) 0 0 =
        some (some { x := 0, y := 0, width := 5, height := 3, content := [['A']],
                     styleIndex := 0 })) := by
  decide

/-! ## The converter: labels and the document -/

theorem matchItems_bounds (items : List Item) (str : List Char) (n : Nat)
    (h : matchItems items str = some n) : minLen items ≤ n ∧ n ≤ str.length := by
  induction items generalizing str n with
  | nil =>
    rw [matchItems] at h
    have := Option.some.inj h
    subst this
    exact ⟨Nat.le_refl _, Nat.zero_le _⟩
  | cons item rest ih =>
    cases item with
    | one p =>
      cases str with
      | nil => simp [matchItems] at h
      | cons c tail =>
        rw [matchItems] at h
        split at h
        · cases hm : matchItems rest tail with
          | none => rw [hm] at h; simp at h
          | some k =>
            rw [hm] at h
            have := Option.some.inj h
            subst this
            have := ih tail k hm
            simp only [minLen, List.length_cons]
            omega
        · simp at h
    | opt p =>
      have hskip : matchItems rest str = some n → minLen (Item.opt p :: rest) ≤ n ∧
          n ≤ str.length := by
        intro hs
        have := ih str n hs
        simp only [minLen]
        exact this
      cases str with
      | nil =>
        rw [matchItems] at h
        exact hskip h
      | cons c tail =>
        rw [matchItems] at h
        split at h
        · cases hm : matchItems rest tail with
          | none =>
            rw [hm] at h
            exact hskip h
          | some k =>
            rw [hm] at h
            have := Option.some.inj h
            subst this
            have := ih tail k hm
            simp only [minLen, List.length_cons]
            omega
        · exact hskip h
    | star p =>
      rw [matchItems] at h
      obtain ⟨k, hk, hf⟩ := List.exists_of_findSome?_eq_some h
      rw [List.mem_reverse, List.mem_range] at hk
      have htw : (str.takeWhile p).length ≤ str.length :=
        (List.takeWhile_sublist p).length_le
      cases hm : matchItems rest (str.drop k) with
      | none => rw [hm] at hf; simp at hf
      | some j =>
        rw [hm] at hf
        have := Option.some.inj hf
        subst this
        have := ih (str.drop k) j hm
        rw [List.length_drop] at this
        simp only [minLen]
        omega

theorem searchMatch_bounds (items : List Item) (str : List Char) (pos index n : Nat)
    (h : searchMatch items str pos = some (index, n)) :
    pos ≤ index ∧ index + n ≤ pos + str.length ∧ minLen items ≤ n := by
  induction str generalizing pos with
  | nil =>
    rw [searchMatch] at h
    cases hm : matchItems items [] with
    | none => rw [hm] at h; simp at h
    | some k =>
      rw [hm] at h
      have := Option.some.inj h
      simp only [Prod.mk.injEq] at this
      have hb := matchItems_bounds items [] k hm
      simp only [List.length_nil] at hb ⊢
      omega
  | cons c tail ih =>
    rw [searchMatch] at h
    cases hm : matchItems items (c :: tail) with
    | some k =>
      rw [hm] at h
      have := Option.some.inj h
      simp only [Prod.mk.injEq] at this
      have hb := matchItems_bounds items (c :: tail) k hm
      omega
    | none =>
      rw [hm] at h
      have := ih (pos + 1) h
      simp only [List.length_cons]
      omega

/-- The loop of `exec` calls ends for a pattern that cannot match the empty string. -/
theorem execAll_total (items : List Item) (hmin : 1 ≤ minLen items) (line : List Char)
    (fuel lastIndex : Nat) (h1 : lastIndex ≤ line.length) (h2 : line.length - lastIndex < fuel) :
    ∃ r, execAll items line fuel lastIndex = some r := by
  induction fuel generalizing lastIndex with
  | zero => omega
  | succ f ih =>
    rw [execAll]
    cases hs : searchMatch items (line.drop lastIndex) lastIndex with
    | none => exact ⟨[], rfl⟩
    | some m =>
      obtain ⟨index, n⟩ := m
      have hb := searchMatch_bounds items _ lastIndex index n hs
      rw [List.length_drop] at hb
      obtain ⟨r, hr⟩ := ih (index + n) (by omega) (by omega)
      simp only [hr]
      exact ⟨_, rfl⟩

theorem patterns_minLen : ∀ p ∈ patterns, 1 ≤ minLen p.1 := by
  decide

theorem labelsOfLine_total (line : List Char) (y : Nat) (ps : List (List Item × Nat))
    (h : ∀ p ∈ ps, 1 ≤ minLen p.1) : ∃ r, labelsOfLine line y ps = some r := by
  induction ps with
  | nil => exact ⟨[], rfl⟩
  | cons p rest ih =>
    obtain ⟨items, priority⟩ := p
    obtain ⟨found, hf⟩ := execAll_total items (h (items, priority) (List.mem_cons_self _ _))
      line (line.length + 1) 0 (Nat.zero_le _) (by omega)
    obtain ⟨later, hl⟩ := ih (fun q hq => h q (List.mem_cons_of_mem _ hq))
    rw [labelsOfLine, hf, hl]
    exact ⟨_, rfl⟩

/-- `detectLabels` returns on a well-formed grid; it appends the labels of the grid to
`this.labels` and changes nothing else. -/
theorem detectLabels_eq (s : ASCII2SVG) (hwf : WellFormed s) :
    ASCII2SVG.detectLabels s = some { s with labels := s.labels ++ labelList s } := by
  unfold ASCII2SVG.detectLabels labelList
  rw [pushAll_eq]
  intro y hy
  rw [List.mem_range] at hy
  have hy2 : y < s.grid.length := by rw [hwf.1]; exact hy
  rw [List.getElem?_eq_getElem hy2]
  exact labelsOfLine_total _ y patterns patterns_minLen

theorem generateBoxes_total (l : List LooseBox) (h : ∀ b ∈ l, b.styleIndex < boxStylesLength) :
    ∃ r, generateBoxes l = some r ∧ r.length = l.length := by
  induction l with
  | nil => exact ⟨[], rfl, rfl⟩
  | cons b rest ih =>
    obtain ⟨r, hr, hlen⟩ := ih (fun c hc => h c (List.mem_cons_of_mem _ hc))
    have hb := h b (List.mem_cons_self _ _)
    rw [generateBoxes]
    unfold generateBox
    simp only [if_pos hb, hr]
    exact ⟨_, rfl, by rw [List.length_cons, List.length_cons, hlen]⟩

theorem debugLines_total (grid : List (List Char)) (ys : List Nat)
    (h : ∀ y ∈ ys, y < grid.length) : ∃ r, debugLines grid ys = some r := by
  induction ys with
  | nil => exact ⟨[], rfl⟩
  | cons y rest ih =>
    obtain ⟨r, hr⟩ := ih (fun k hk => h k (List.mem_cons_of_mem _ hk))
    have hy := h y (List.mem_cons_self _ _)
    rw [debugLines, List.getElem?_eq_getElem hy, hr]
    exact ⟨_, rfl⟩

/-- `generateSVG` returns on a well-formed state whose boxes have a style; the root has the
size `svgWidth × svgHeight`, and the boxes, arrows and labels of the state are written in
their order. -/
theorem generateSVG_total (s : ASCII2SVG) (hwf : WellFormed s) (hst : Styled s) :
    ∃ svg, ASCII2SVG.generateSVG s = some svg ∧
      svg.width = ASCII2SVG.svgWidth s ∧ svg.height = ASCII2SVG.svgHeight s ∧
      generateBoxes s.boxes = some svg.boxes ∧ svg.boxes.length = s.boxes.length ∧
      svg.arrows = s.arrows.map generateArrow ∧ svg.labels = s.labels.map generateLabel := by
  obtain ⟨r, hr, hlen⟩ := generateBoxes_total s.boxes hst
  unfold ASCII2SVG.generateSVG
  rw [hr]
  simp only
  split
  · obtain ⟨lines, hl⟩ := debugLines_total s.grid (List.range (min 10 s.height))
      (by
        intro y hy
        rw [List.mem_range] at hy
        rw [hwf.1]
        omega)
    rw [hl]
    exact ⟨_, rfl, rfl, rfl, rfl, hlen, rfl, rfl⟩
  · exact ⟨_, rfl, rfl, rfl, rfl, hlen, rfl, rfl⟩

theorem cornerList_congr (s t : ASCII2SVG) (h : SameGrid s t) : cornerList t = cornerList s := by
  unfold cornerList
  rw [h.2.1, h.2.2]
  apply List.flatMap_congr
  intro y _
  apply List.flatMap_congr
  intro x _
  rw [couldBeTopLeft_congr s t h]

theorem arrowsAt_congr (s t : ASCII2SVG) (h : SameGrid s t) (x y : Nat) :
    ASCII2SVG.arrowsAt t x y = ASCII2SVG.arrowsAt s x y := by
  unfold ASCII2SVG.arrowsAt
  rw [h.1]

theorem arrowList_congr (s t : ASCII2SVG) (h : SameGrid s t) : arrowList t = arrowList s := by
  unfold arrowList
  rw [h.2.1, h.2.2]
  apply List.flatMap_congr
  intro y _
  apply List.flatMap_congr
  intro x _
  rw [arrowsAt_congr s t h]

theorem labelList_congr (s t : ASCII2SVG) (h : SameGrid s t) : labelList t = labelList s := by
  unfold labelList
  rw [h.1, h.2.2]

theorem styled_restyleFrom (old : List LooseBox) (n : Nat) (l : List LooseBox)
    (h : ∀ b ∈ old, b.styleIndex < boxStylesLength) :
    ∀ b ∈ old ++ restyleFrom n l, b.styleIndex < boxStylesLength := by
  intro b hb
  rcases List.mem_append.1 hb with hb | hb
  · exact h b hb
  · obtain ⟨_, _, _, hlt⟩ := restyleFrom_keeps n l b hb
    exact hlt

/-- The three detectors in a row, on a well-formed state. -/
theorem detectors_eq (s : ASCII2SVG) (hwf : WellFormed s) :
    ∃ s2 s3, ASCII2SVG.detectBoxesAdvanced s = some s2 ∧
      ASCII2SVG.detectArrowsSimple s2 = some s3 ∧
      ASCII2SVG.detectLabels s3 = some (afterDetection s) := by
  have e2 := detectBoxesAdvanced_eq s hwf
  obtain ⟨s2, hs2⟩ : ∃ s2 : ASCII2SVG, s2 =
      { s with
        boxes := s.boxes ++ restyleFrom s.boxes.length (recorded s (cornerList s)) } :=
    ⟨_, rfl⟩
  rw [← hs2] at e2
  have hg2 : SameGrid s s2 := by rw [hs2]; exact ⟨rfl, rfl, rfl⟩
  have hwf2 : WellFormed s2 := by rw [hs2]; exact hwf
  have e3 := detectArrowsSimple_eq s2 hwf2
  obtain ⟨s3, hs3⟩ : ∃ s3 : ASCII2SVG, s3 = { s2 with arrows := s2.arrows ++ arrowList s2 } :=
    ⟨_, rfl⟩
  rw [← hs3] at e3
  have hg3 : SameGrid s s3 := by rw [hs3]; exact hg2
  have hwf3 : WellFormed s3 := by rw [hs3]; exact hwf2
  refine ⟨s2, s3, e2, e3, ?_⟩
  rw [detectLabels_eq s3 hwf3, labelList_congr s s3 hg3, hs3]
  simp only
  rw [arrowList_congr s s2 hg2, hs2]
  rfl

/-- The method `convert` returns on every text when the state before the call is well-formed
and its boxes have a style: the state after the call is the parsed state with the boxes, arrows
and labels of the grid appended, and the document is `generateSVG` of that state. -/
theorem convert_eq (s : ASCII2SVG) (text : List Char) (hwf : WellFormed s) (hst : Styled s) :
    ∃ svg, ASCII2SVG.convert s text =
        some (afterDetection (ASCII2SVG.parseASCII s text), svg) ∧
      ASCII2SVG.generateSVG (afterDetection (ASCII2SVG.parseASCII s text)) = some svg := by
  have hwf1 := parseASCII_wellFormed s text (Or.inl hwf)
  obtain ⟨s2, s3, h2, h3, h4⟩ := detectors_eq _ hwf1
  have hboxes : (ASCII2SVG.parseASCII s text).boxes = s.boxes := by
    by_cases hb : ASCII2SVG.linesOf text = []
    · rw [parseASCII_of_blank s text hb]
    · rw [parseASCII_of_nonblank s text hb]
  have hst4 : Styled (afterDetection (ASCII2SVG.parseASCII s text)) := by
    unfold Styled afterDetection
    simp only
    apply styled_restyleFrom
    rw [hboxes]
    exact hst
  have hwf4 : WellFormed (afterDetection (ASCII2SVG.parseASCII s text)) := hwf1
  obtain ⟨svg, hsvg, _⟩ := generateSVG_total _ hwf4 hst4
  refine ⟨svg, ?_, hsvg⟩
  unfold ASCII2SVG.convert
  rw [h2]
  simp only
  rw [h3]
  simp only
  rw [h4]
  simp only
  rw [hsvg]

/-- C23: for every text the exported `ascii2svg.convert` returns a document whose root width is
`max(800, 8·W + 80)` and whose root height is `max(400, 20·H + 140)`, with `W` and `H` the
width and the height of the parsed grid; this width is a multiple of 8 and therefore never the
900 that the test expects.  The one-line text `a` gives a root of 800 by 400. -/
theorem converter_width_never_900 :
    (∀ text : List Char, ∃ svg, ascii2svg.convert text = some svg ∧
      svg.width = max 800 (8 * (ASCII2SVG.parseASCII ASCII2SVG.new text).width + 80) ∧
      svg.height = max 400 (20 * (ASCII2SVG.parseASCII ASCII2SVG.new text).height + 140) ∧
      svg.width % 8 = 0 ∧ svg.width ≠ 900) ∧
    (ascii2svg.convert ['a']).map (fun svg => (svg.width, svg.height)) = some (800, 400) := by
  constructor
  · intro text
    obtain ⟨svg, hconv, hgen⟩ := convert_eq ASCII2SVG.new text wellFormed_new
      (by intro b hb; simp [ASCII2SVG.new] at hb)
    have hwf := parseASCII_wellFormed ASCII2SVG.new text (Or.inl wellFormed_new)
    have hgen2 := hgen
    unfold ASCII2SVG.generateSVG at hgen2
    have hw : svg.width = ASCII2SVG.svgWidth (afterDetection (ASCII2SVG.parseASCII ASCII2SVG.new text)) ∧
        svg.height =
          ASCII2SVG.svgHeight (afterDetection (ASCII2SVG.parseASCII ASCII2SVG.new text)) := by
      split at hgen2
      · exact absurd hgen2 (by simp)
      · split at hgen2
        · split at hgen2
          · exact absurd hgen2 (by simp)
          · have := Option.some.inj hgen2
            subst this
            exact ⟨rfl, rfl⟩
        · have := Option.some.inj hgen2
          subst this
          exact ⟨rfl, rfl⟩
    have hw1 : svg.width = max 800 (8 * (ASCII2SVG.parseASCII ASCII2SVG.new text).width + 80) := by
      rw [hw.1]
      unfold ASCII2SVG.svgWidth afterDetection cellWidth padding
      simp only
      congr 1
      omega
    have hh1 : svg.height =
        max 400 (20 * (ASCII2SVG.parseASCII ASCII2SVG.new text).height + 140) := by
      rw [hw.2]
      unfold ASCII2SVG.svgHeight afterDetection cellHeight padding
      simp only
      congr 1
      omega
    refine ⟨svg, ?_, hw1, hh1, ?_, ?_⟩
    · unfold ascii2svg.convert
      rw [hconv]
    · rw [hw1]; omega
    · rw [hw1]; omega
  · decide

/-! ## The converter: a second call on the same instance -/

theorem parseASCII_fixed (s t : ASCII2SVG) (text : List Char)
    (h : SameGrid t (ASCII2SVG.parseASCII s text)) : ASCII2SVG.parseASCII t text = t := by
  by_cases hb : ASCII2SVG.linesOf text = []
  · exact parseASCII_of_blank t text hb
  · rw [parseASCII_of_nonblank s text hb] at h
    rw [parseASCII_of_nonblank t text hb]
    obtain ⟨h1, h2, h3⟩ := h
    simp only at h1 h2 h3
    rw [← h1, ← h2, ← h3]

theorem map_unstyled_restyleFrom (n : Nat) (l : List LooseBox) :
    (restyleFrom n l).map unstyled = l.map unstyled := by
  induction l generalizing n with
  | nil => rfl
  | cons a rest ih =>
    show unstyled _ :: (restyleFrom (n + 1) rest).map unstyled = _
    rw [ih]
    rfl

theorem append_self_eq (α : Type) (l m : List α) (h : l ++ m = l) : m = [] := by
  have := congrArg List.length h
  rw [List.length_append] at this
  exact List.length_eq_zero.1 (by omega)

/-- C26 (counterexample): on the text `textWideBox` the first call of `convert` on a new
instance leaves one box in `this.boxes` and writes one box; the second call on the same
instance leaves two boxes, the second with the next style index, and writes two boxes. -/
theorem second_convert_differs :
    (ASCII2SVG.convert ASCII2SVG.new textWideBox).map (fun r => (r.1.boxes, r.2.boxes.length)) =
      some ([{ x := 0, y := 0, width := 10, height := 3, content := ["Hello".toList],
               styleIndex := 0 }], 1) ∧
    ((ASCII2SVG.convert ASCII2SVG.new textWideBox).bind
        (fun r => ASCII2SVG.convert r.1 textWideBox)).map
        (fun r => (r.1.boxes, r.2.boxes.length)) =
      some ([{ x := 0, y := 0, width := 10, height := 3, content := ["Hello".toList],
               styleIndex := 0 },
             { x := 0, y := 0, width := 10, height := 3, content := ["Hello".toList],
               styleIndex := 1 }], 2) := by
  decide

theorem parseASCII_keeps (s : ASCII2SVG) (text : List Char) :
    (ASCII2SVG.parseASCII s text).boxes = s.boxes ∧
    (ASCII2SVG.parseASCII s text).arrows = s.arrows ∧
    (ASCII2SVG.parseASCII s text).labels = s.labels := by
  by_cases hb : ASCII2SVG.linesOf text = []
  · rw [parseASCII_of_blank s text hb]
    exact ⟨rfl, rfl, rfl⟩
  · rw [parseASCII_of_nonblank s text hb]
    exact ⟨rfl, rfl, rfl⟩

theorem state_ext (a b : ASCII2SVG) (h1 : a.grid = b.grid) (h2 : a.boxes = b.boxes)
    (h3 : a.arrows = b.arrows) (h4 : a.labels = b.labels) (h5 : a.width = b.width)
    (h6 : a.height = b.height) : a = b := by
  cases a
  cases b
  simp only at h1 h2 h3 h4 h5 h6
  subst h1 h2 h3 h4 h5 h6
  rfl

/-- What a second run of the detectors appends is what the first run appended, the boxes with
the style indices that follow. -/
theorem afterDetection_twice (p : ASCII2SVG) (hb : p.boxes = []) (ha : p.arrows = [])
    (hl : p.labels = []) :
    (afterDetection (afterDetection p)).boxes =
      (afterDetection p).boxes ++
        restyleFrom (afterDetection p).boxes.length (afterDetection p).boxes ∧
    (afterDetection (afterDetection p)).arrows =
      (afterDetection p).arrows ++ (afterDetection p).arrows ∧
    (afterDetection (afterDetection p)).labels =
      (afterDetection p).labels ++ (afterDetection p).labels := by
  have hg : SameGrid p (afterDetection p) := ⟨rfl, rfl, rfl⟩
  have e1 : (afterDetection p).boxes = restyleFrom 0 (recorded p (cornerList p)) := by
    unfold afterDetection
    simp only [hb, List.nil_append, List.length_nil]
  have e2 : (afterDetection p).arrows = arrowList p := by
    unfold afterDetection
    simp only [ha, List.nil_append]
  have e3 : (afterDetection p).labels = labelList p := by
    unfold afterDetection
    simp only [hl, List.nil_append]
  refine ⟨?_, ?_, ?_⟩
  · show (afterDetection p).boxes ++ restyleFrom (afterDetection p).boxes.length
        (recorded (afterDetection p) (cornerList (afterDetection p))) = _
    rw [cornerList_congr p _ hg]
    congr 1
    apply restyleFrom_congr
    rw [recorded_congr p _ hg, e1, map_unstyled_restyleFrom]
  · show (afterDetection p).arrows ++ arrowList (afterDetection p) = _
    rw [arrowList_congr p _ hg, e2]
  · show (afterDetection p).labels ++ labelList (afterDetection p) = _
    rw [labelList_congr p _ hg, e3]

/-- C26 (amended): for every text, the exported `ascii2svg.convert` returns what the method
`convert` returns on a new instance, the same document for each call.  A second call of the
method on the same instance with the same text returns as well; it keeps grid, width and
height and appends to `boxes`, `arrows` and `labels` once more what the first call left there,
the boxes with the style indices that follow; the document has the same size, twice the boxes,
and the arrows and labels twice.  The state and the document of the second call are those of
the first exactly when the first call left no box, no arrow and no label. -/
theorem repeated_convert_appends (text : List Char) :
    ∃ s1 svg1 s2 svg2,
      ASCII2SVG.convert ASCII2SVG.new text = some (s1, svg1) ∧
      ascii2svg.convert text = some svg1 ∧
      ASCII2SVG.convert s1 text = some (s2, svg2) ∧
      s2.grid = s1.grid ∧ s2.width = s1.width ∧ s2.height = s1.height ∧
      s2.boxes = s1.boxes ++ restyleFrom s1.boxes.length s1.boxes ∧
      s2.arrows = s1.arrows ++ s1.arrows ∧
      s2.labels = s1.labels ++ s1.labels ∧
      svg2.width = svg1.width ∧ svg2.height = svg1.height ∧
      svg2.boxes.length = 2 * svg1.boxes.length ∧
      svg2.arrows = svg1.arrows ++ svg1.arrows ∧
      svg2.labels = svg1.labels ++ svg1.labels ∧
      (s2 = s1 ↔ s1.boxes = [] ∧ s1.arrows = [] ∧ s1.labels = []) ∧
      (svg2 = svg1 ↔ s1.boxes = [] ∧ s1.arrows = [] ∧ s1.labels = []) := by
  have hst0 : Styled ASCII2SVG.new := by
    intro b hb
    simp [ASCII2SVG.new] at hb
  obtain ⟨svg1, hconv1, hgen1⟩ := convert_eq ASCII2SVG.new text wellFormed_new hst0
  obtain ⟨p, hp⟩ : ∃ p, p = ASCII2SVG.parseASCII ASCII2SVG.new text := ⟨_, rfl⟩
  rw [← hp] at hconv1 hgen1
  have hwfp : WellFormed p := by
    rw [hp]
    exact parseASCII_wellFormed _ text (Or.inl wellFormed_new)
  have hkeep := parseASCII_keeps ASCII2SVG.new text
  rw [← hp] at hkeep
  have hb : p.boxes = [] := hkeep.1
  have ha : p.arrows = [] := hkeep.2.1
  have hl : p.labels = [] := hkeep.2.2
  have hwf1 : WellFormed (afterDetection p) := hwfp
  have hst1 : Styled (afterDetection p) := by
    unfold Styled afterDetection
    simp only
    apply styled_restyleFrom
    rw [hb]
    intro b h
    simp at h
  have hfix : ASCII2SVG.parseASCII (afterDetection p) text = afterDetection p := by
    apply parseASCII_fixed ASCII2SVG.new
    rw [← hp]
    exact ⟨rfl, rfl, rfl⟩
  obtain ⟨svg2, hconv2, hgen2⟩ := convert_eq (afterDetection p) text hwf1 hst1
  rw [hfix] at hconv2 hgen2
  obtain ⟨t1, ht1, hw1, hh1, _, hlen1, har1, hla1⟩ := generateSVG_total _ hwf1 hst1
  have hst2 : Styled (afterDetection (afterDetection p)) := by
    unfold Styled
    intro b hb2
    have : b ∈ (afterDetection p).boxes ++
        restyleFrom (afterDetection p).boxes.length
          (recorded (afterDetection p) (cornerList (afterDetection p))) := hb2
    exact styled_restyleFrom _ _ _ hst1 b this
  obtain ⟨t2, ht2, hw2, hh2, _, hlen2, har2, hla2⟩ :=
    generateSVG_total (afterDetection (afterDetection p)) hwf1 hst2
  have et1 : t1 = svg1 := Option.some.inj (ht1.symm.trans hgen1)
  have et2 : t2 = svg2 := Option.some.inj (ht2.symm.trans hgen2)
  subst et1
  subst et2
  obtain ⟨hB, hA, hL⟩ := afterDetection_twice p hb ha hl
  have hempty : afterDetection (afterDetection p) = afterDetection p ↔
      (afterDetection p).boxes = [] ∧ (afterDetection p).arrows = [] ∧
        (afterDetection p).labels = [] := by
    constructor
    · intro h
      rw [h] at hB hA hL
      have h1 := append_self_eq _ _ _ hB.symm
      have h2 := append_self_eq _ _ _ hA.symm
      have h3 := append_self_eq _ _ _ hL.symm
      refine ⟨?_, h2, h3⟩
      have := congrArg List.length h1
      rw [length_restyleFrom] at this
      exact List.length_eq_zero.1 this
    · rintro ⟨h1, h2, h3⟩
      apply state_ext
      · rfl
      · rw [hB, h1]; rfl
      · rw [hA, h2]; rfl
      · rw [hL, h3]; rfl
      · rfl
      · rfl
  refine ⟨afterDetection p, t1, afterDetection (afterDetection p), t2, hconv1, ?_, hconv2,
    rfl, rfl, rfl, hB, hA, hL, ?_, ?_, ?_, ?_, ?_, hempty, ?_⟩
  · unfold ascii2svg.convert
    rw [hconv1]
  · rw [hw1, hw2]; rfl
  · rw [hh1, hh2]; rfl
  · rw [hlen1, hlen2, hB, List.length_append, length_restyleFrom]
    omega
  · rw [har1, har2, hA, List.map_append]
  · rw [hla1, hla2, hL, List.map_append]
  · constructor
    · intro h
      have hb1 : (afterDetection p).boxes = [] := by
        have : t2.boxes.length = t1.boxes.length := by rw [h]
        rw [hlen1, hlen2, hB, List.length_append, length_restyleFrom] at this
        exact List.length_eq_zero.1 (by omega)
      have ha1 : (afterDetection p).arrows = [] := by
        have : t2.arrows.length = t1.arrows.length := by rw [h]
        rw [har1, har2, hA, List.length_map, List.length_map, List.length_append] at this
        exact List.length_eq_zero.1 (by omega)
      have hl1 : (afterDetection p).labels = [] := by
        have : t2.labels.length = t1.labels.length := by rw [h]
        rw [hla1, hla2, hL, List.length_map, List.length_map, List.length_append] at this
        exact List.length_eq_zero.1 (by omega)
      exact ⟨hb1, ha1, hl1⟩
    · intro h
      have := hempty.2 h
      rw [this] at ht2
      exact Option.some.inj (ht2.symm.trans ht1)

theorem repeated_convert_appends_witness :
    ∃ s1 svg1 s2 svg2,
      ASCII2SVG.convert ASCII2SVG.new textWideBox = some (s1, svg1) ∧
      ASCII2SVG.convert s1 textWideBox = some (s2, svg2) ∧
      s2.boxes = s1.boxes ++ restyleFrom s1.boxes.length s1.boxes ∧
      svg2.boxes.length = 2 * svg1.boxes.length :=
  match repeated_convert_appends textWideBox with
  | ⟨s1, svg1, s2, svg2, h1, _, h3, _, _, _, h7, _, _, _, _, h12, _⟩ =>
    ⟨s1, svg1, s2, svg2, h1, h3, h7, h12⟩

/-! ## The converter: arrow tracing -/

/-- The trace back from column `n - 1` down to column 0: it stops at the first cell that does
not satisfy `p`, and `last` moves to the leftmost cell of the run. -/
theorem runEnd_down (read : Nat → Option Char) (p : Char → Bool) (n last : Nat)
    (h : ∀ i, i < n → ∃ c, read i = some c) :
    ∃ e, runEnd read p last (List.range n).reverse = some e ∧
      ((e = last ∧ (n = 0 ∨ ∃ c, read (n - 1) = some c ∧ p c = false)) ∨
        (e < n ∧ (∀ k, e ≤ k → k < n → ∃ c, read k = some c ∧ p c = true) ∧
          (e = 0 ∨ ∃ c, read (e - 1) = some c ∧ p c = false))) := by
  induction n generalizing last with
  | zero => exact ⟨last, rfl, Or.inl ⟨rfl, Or.inl rfl⟩⟩
  | succ n ih =>
    obtain ⟨c, hc⟩ := h n (Nat.lt_succ_self n)
    rw [List.range_succ, List.reverse_append, List.reverse_singleton, List.singleton_append,
      runEnd, hc]
    simp only
    by_cases hp : p c = true
    · rw [if_pos hp]
      obtain ⟨e, he, hcase⟩ := ih n (fun i hi => h i (by omega))
      refine ⟨e, he, Or.inr ?_⟩
      rcases hcase with ⟨e1, e2⟩ | ⟨e1, e2, e3⟩
      · subst e1
        refine ⟨Nat.lt_succ_self _, ?_, ?_⟩
        · intro k hk1 hk2
          have : k = e := by omega
          subst this
          exact ⟨c, hc, hp⟩
        · rcases e2 with e2 | e2
          · exact Or.inl e2
          · exact Or.inr e2
      · refine ⟨by omega, ?_, e3⟩
        intro k hk1 hk2
        by_cases hkn : k = n
        · subst hkn
          exact ⟨c, hc, hp⟩
        · exact e2 k hk1 (by omega)
    · rw [if_neg hp]
      refine ⟨last, rfl, Or.inl ⟨rfl, Or.inr ⟨c, ?_, ?_⟩⟩⟩
      · rw [Nat.add_sub_cancel]; exact hc
      · simpa using hp

theorem shaftAt_iff (s : ASCII2SVG) (x y : Nat) :
    shaftAt s x y = true ↔ ∃ c, cellAt s.grid x y = some c ∧ isShaftChar c = true := by
  unfold shaftAt
  cases cellAt s.grid x y with
  | none => simp
  | some c => simp

theorem shaftAt_false_of (s : ASCII2SVG) (x y : Nat) (c : Char)
    (h : cellAt s.grid x y = some c) (hp : isShaftChar c = false) : shaftAt s x y = false := by
  unfold shaftAt
  rw [h]
  exact hp

/-- What the loop body of `detectArrowsSimple` pushes at a cell of the grid: one arrow when the
cell holds an arrowhead and its left neighbour a shaft glyph, nothing otherwise; the arrow
starts at the leftmost column of the run of shaft glyphs that ends at `x - 1`. -/
theorem arrowsAt_spec (s : ASCII2SVG) (hwf : WellFormed s) (x y : Nat)
    (hx : x < s.width) (hy : y < s.height) :
    (ASCII2SVG.arrowsAt s x y = some [] ∧
      ¬ (arrowHeadAt s x y = true ∧ 1 ≤ x ∧ shaftAt s (x - 1) y = true)) ∨
    (∃ startX, ASCII2SVG.arrowsAt s x y =
        some [{ startX := startX, startY := y, endX := x + 1, endY := y }] ∧
      arrowHeadAt s x y = true ∧ 1 ≤ x ∧ shaftAt s (x - 1) y = true ∧ startX < x ∧
      (∀ k, startX ≤ k → k < x → shaftAt s k y = true) ∧
      (startX = 0 ∨ shaftAt s (startX - 1) y = false)) := by
  obtain ⟨c, hc⟩ := cellAt_total s hwf x y hx hy
  have hhead : arrowHeadAt s x y = isArrowChar c := by
    unfold arrowHeadAt
    rw [hc]
  unfold ASCII2SVG.arrowsAt
  rw [hc]
  simp only
  by_cases ha : isArrowChar c = true
  · rw [if_pos ha]
    obtain ⟨e, he, hcase⟩ := runEnd_down (fun backX => cellAt s.grid backX y) isShaftChar x x
      (fun i hi => cellAt_total s hwf i y (by omega) hy)
    rw [he]
    simp only
    rcases hcase with ⟨e1, e2⟩ | ⟨e1, e2, e3⟩
    · left
      subst e1
      rw [if_neg (Nat.lt_irrefl _)]
      refine ⟨rfl, ?_⟩
      rintro ⟨_, h1, h2⟩
      rcases e2 with e2 | ⟨d, hd, hpd⟩
      · omega
      · rw [shaftAt_false_of s _ y d hd hpd] at h2
        exact absurd h2 (by simp)
    · right
      rw [if_pos e1]
      refine ⟨e, rfl, by rw [hhead]; exact ha, by omega, ?_, e1, ?_, ?_⟩
      · exact (shaftAt_iff s _ y).2 (e2 (x - 1) (by omega) (by omega))
      · intro k hk1 hk2
        exact (shaftAt_iff s k y).2 (e2 k hk1 hk2)
      · rcases e3 with e3 | ⟨d, hd, hpd⟩
        · exact Or.inl e3
        · exact Or.inr (shaftAt_false_of s _ y d hd hpd)
  · left
    rw [if_neg ha]
    refine ⟨rfl, ?_⟩
    rintro ⟨h1, _⟩
    rw [hhead] at h1
    exact ha h1

theorem arrowsAt_mem (s : ASCII2SVG) (x y : Nat) (a : Arrow)
    (h : a ∈ (ASCII2SVG.arrowsAt s x y).getD []) :
    a.startY = y ∧ a.endX = x + 1 ∧ a.endY = y := by
  unfold ASCII2SVG.arrowsAt at h
  split at h
  · simp at h
  · split at h
    · split at h
      · simp at h
      · split at h
        · simp only [Option.getD_some, List.mem_singleton] at h
          subst h
          exact ⟨rfl, rfl, rfl⟩
        · simp at h
    · simp at h

theorem arrowsAt_length (s : ASCII2SVG) (x y : Nat) :
    ((ASCII2SVG.arrowsAt s x y).getD []).length ≤ 1 := by
  unfold ASCII2SVG.arrowsAt
  split
  · simp
  · split
    · split
      · simp
      · split <;> simp
    · simp

theorem mem_arrowList (s : ASCII2SVG) (a : Arrow) :
    a ∈ arrowList s ↔
      ∃ y, y < s.height ∧ ∃ x, x < s.width - 1 ∧ a ∈ (ASCII2SVG.arrowsAt s x y).getD [] := by
  unfold arrowList
  simp only [List.mem_flatMap, List.mem_range]

/-- C31: on a well-formed grid `detectArrowsSimple` returns and appends to `this.arrows` the
list `arrowList`, changing nothing else.  An arrow is in that list exactly when it is the arrow
of a cell `(x, y)` with `x < width - 1` that holds one of the six arrowheads and whose left
neighbour holds one of `─`, `-`, `═`: its `startY` and `endY` are `y`, its `endX` is `x + 1`,
and its `startX` is the leftmost column of the maximal run of shaft glyphs that ends at
`x - 1`, so `startX < x`.  The arrows come in row-major order of their cells, one for a cell. -/
theorem arrow_tracing (s : ASCII2SVG) (hwf : WellFormed s) :
    ASCII2SVG.detectArrowsSimple s = some { s with arrows := s.arrows ++ arrowList s } ∧
    (∀ a, a ∈ arrowList s ↔
      ∃ x y, y < s.height ∧ x + 1 < s.width ∧ arrowHeadAt s x y = true ∧ 1 ≤ x ∧
        shaftAt s (x - 1) y = true ∧
        a.startY = y ∧ a.endY = y ∧ a.endX = x + 1 ∧ a.startX < x ∧
        (∀ k, a.startX ≤ k → k < x → shaftAt s k y = true) ∧
        (a.startX = 0 ∨ shaftAt s (a.startX - 1) y = false)) ∧
    (arrowList s).Pairwise
      (fun a b => a.startY < b.startY ∨ (a.startY = b.startY ∧ a.endX < b.endX)) := by
  refine ⟨detectArrowsSimple_eq s hwf, ?_, ?_⟩
  · intro a
    rw [mem_arrowList]
    constructor
    · rintro ⟨y, hy, x, hx, hmem⟩
      rcases arrowsAt_spec s hwf x y (by omega) hy with ⟨h0, _⟩ | ⟨st, h1, h2, h3, h4, h5, h6, h7⟩
      · rw [h0] at hmem
        simp at hmem
      · rw [h1] at hmem
        simp only [Option.getD_some, List.mem_singleton] at hmem
        subst hmem
        exact ⟨x, y, hy, by omega, h2, h3, h4, rfl, rfl, rfl, h5, h6, h7⟩
    · rintro ⟨x, y, hy, hx, h2, h3, h4, e1, e2, e3, h5, h6, h7⟩
      refine ⟨y, hy, x, by omega, ?_⟩
      rcases arrowsAt_spec s hwf x y (by omega) hy with ⟨_, hn⟩ | ⟨st, h1, _, _, _, g5, g6, g7⟩
      · exact absurd ⟨h2, h3, h4⟩ hn
      · rw [h1]
        simp only [Option.getD_some, List.mem_singleton]
        have hst : a.startX = st := by
          rcases Nat.lt_trichotomy a.startX st with hlt | heq | hgt
          · rcases g7 with g7 | g7
            · omega
            · have := h6 (st - 1) (by omega) (by omega)
              rw [g7] at this
              exact absurd this (by simp)
          · exact heq
          · rcases h7 with h7 | h7
            · omega
            · have := g6 (a.startX - 1) (by omega) (by omega)
              rw [h7] at this
              exact absurd this (by simp)
        cases a
        simp only at e1 e2 e3 hst
        subst e1 e3 hst
        simp only [Arrow.mk.injEq, true_and]
        exact e2
  · unfold arrowList
    rw [List.pairwise_flatMap]
    constructor
    · intro y _
      rw [List.pairwise_flatMap]
      constructor
      · intro x _
        exact pairwise_of_length_le_one _ _ (arrowsAt_length s x y)
      · refine List.Pairwise.imp ?_ (List.pairwise_lt_range _)
        intro x1 x2 hlt a ha b hb
        have h1 := arrowsAt_mem s x1 y a ha
        have h2 := arrowsAt_mem s x2 y b hb
        right
        omega
    · refine List.Pairwise.imp ?_ (List.pairwise_lt_range _)
      intro y1 y2 hlt a ha b hb
      rw [List.mem_flatMap] at ha hb
      obtain ⟨x1, _, ha⟩ := ha
      obtain ⟨x2, _, hb⟩ := hb
      have h1 := arrowsAt_mem s x1 y1 a ha
      have h2 := arrowsAt_mem s x2 y2 b hb
      left
      omega

theorem arrow_tracing_witness :
    WellFormed (ASCII2SVG.parseASCII ASCII2SVG.new textArrows) ∧
    arrowList (ASCII2SVG.parseASCII ASCII2SVG.new textArrows) =
      [{ startX := 1, startY := 0, endX := 4, endY := 0 },
       { startX := 5, startY := 0, endX := 7, endY := 0 }] ∧
    ASCII2SVG.detectArrowsSimple (ASCII2SVG.parseASCII ASCII2SVG.new textArrows) =
      some { ASCII2SVG.parseASCII ASCII2SVG.new textArrows with
        arrows := (ASCII2SVG.parseASCII ASCII2SVG.new textArrows).arrows ++
          arrowList (ASCII2SVG.parseASCII ASCII2SVG.new textArrows) } :=
  ⟨parseASCII_wellFormed ASCII2SVG.new textArrows (Or.inl wellFormed_new), by decide,
    (arrow_tracing (ASCII2SVG.parseASCII ASCII2SVG.new textArrows)
      (parseASCII_wellFormed ASCII2SVG.new textArrows (Or.inl wellFormed_new))).1⟩

/-! ## Escaping -/

theorem escapeHTML_cons (c : Char) (s : List Char) :
    escapeHTML (c :: s) = escapeHTML [c] ++ escapeHTML s := by
  unfold escapeHTML
  rw [List.flatMap_cons, List.flatMap_cons, List.flatMap_nil, List.append_nil]

theorem escapeHTML_single (c : Char) :
    (c = '&' ∧ escapeHTML [c] = "&amp;".toList) ∨ (c = '<' ∧ escapeHTML [c] = "&lt;".toList) ∨
    (c = '>' ∧ escapeHTML [c] = "&gt;".toList) ∨ (c = '"' ∧ escapeHTML [c] = "&quot;".toList) ∨
    (c ≠ '&' ∧ c ≠ '<' ∧ c ≠ '>' ∧ c ≠ '"' ∧ escapeHTML [c] = [c]) := by
  by_cases h1 : c = '&'
  · subst h1; exact Or.inl ⟨rfl, by decide⟩
  by_cases h2 : c = '<'
  · subst h2; exact Or.inr (Or.inl ⟨rfl, by decide⟩)
  by_cases h3 : c = '>'
  · subst h3; exact Or.inr (Or.inr (Or.inl ⟨rfl, by decide⟩))
  by_cases h4 : c = '"'
  · subst h4; exact Or.inr (Or.inr (Or.inr (Or.inl ⟨rfl, by decide⟩)))
  · exact Or.inr (Or.inr (Or.inr (Or.inr ⟨h1, h2, h3, h4, by simp [escapeHTML, h1, h2, h3, h4]⟩)))

theorem escapeHTML_no_markup (s : List Char) :
    '<' ∉ escapeHTML s ∧ '>' ∉ escapeHTML s ∧ '"' ∉ escapeHTML s := by
  induction s with
  | nil => simp [escapeHTML]
  | cons c s ih =>
    rw [escapeHTML_cons]
    simp only [List.mem_append, not_or]
    rcases escapeHTML_single c with ⟨_, h⟩ | ⟨_, h⟩ | ⟨_, h⟩ | ⟨_, h⟩ | ⟨_, h2, h3, h4, h⟩
    · rw [h]; exact ⟨⟨by decide, ih.1⟩, ⟨by decide, ih.2.1⟩, ⟨by decide, ih.2.2⟩⟩
    · rw [h]; exact ⟨⟨by decide, ih.1⟩, ⟨by decide, ih.2.1⟩, ⟨by decide, ih.2.2⟩⟩
    · rw [h]; exact ⟨⟨by decide, ih.1⟩, ⟨by decide, ih.2.1⟩, ⟨by decide, ih.2.2⟩⟩
    · rw [h]; exact ⟨⟨by decide, ih.1⟩, ⟨by decide, ih.2.1⟩, ⟨by decide, ih.2.2⟩⟩
    · rw [h]
      simp only [List.mem_singleton]
      exact ⟨⟨fun e => h2 e.symm, ih.1⟩, ⟨fun e => h3 e.symm, ih.2.1⟩,
        ⟨fun e => h4 e.symm, ih.2.2⟩⟩

theorem ampsOk_escapeHTML (s : List Char) : ampsOk (escapeHTML s) = true := by
  induction s with
  | nil => rfl
  | cons c s ih =>
    rw [escapeHTML_cons]
    rcases escapeHTML_single c with ⟨_, h⟩ | ⟨_, h⟩ | ⟨_, h⟩ | ⟨_, h⟩ | ⟨h1, _, _, _, h⟩
    · rw [h]; simp [ampsOk, startsEntity, ih]
    · rw [h]; simp [ampsOk, startsEntity, ih]
    · rw [h]; simp [ampsOk, startsEntity, ih]
    · rw [h]; simp [ampsOk, startsEntity, ih]
    · rw [h]; simp [ampsOk, h1, ih]

theorem ampsOk_split (l pre post : List Char) (h : ampsOk l = true)
    (e : l = pre ++ '&' :: post) : startsEntity post = true := by
  induction pre generalizing l with
  | nil =>
    rw [e, List.nil_append] at h
    simp only [ampsOk, Bool.and_eq_true] at h
    simpa using h.1
  | cons a pre ih =>
    rw [e, List.cons_append] at h
    simp only [ampsOk, Bool.and_eq_true] at h
    exact ih _ h.2 rfl

theorem unescape_escapeHTML (s : List Char) : unescapeHTML (escapeHTML s) = s := by
  unfold unescapeHTML
  induction s with
  | nil => rfl
  | cons c s ih =>
    rw [escapeHTML_cons]
    rcases escapeHTML_single c with ⟨e, h⟩ | ⟨e, h⟩ | ⟨e, h⟩ | ⟨e, h⟩ | ⟨h1, _, _, _, h⟩
    · rw [h, e]; simp [unescapeFrom, ih]
    · rw [h, e]; simp [unescapeFrom, ih]
    · rw [h, e]; simp [unescapeFrom, ih]
    · rw [h, e]; simp [unescapeFrom, ih]
    · rw [h]; simp [unescapeFrom, h1, ih]

/-- C32: for every string `s`, `escapeHTML(s)` holds none of the characters `<`, `>`, `"`;
every `&` in it is followed by the rest of one of `&amp;`, `&lt;`, `&gt;`, `&quot;`; replacing
the four entities back gives `s`, so `escapeHTML` is injective; and the title of a node group,
which is the escaped label, holds none of `<`, `>`, `"`. -/
theorem escapeHTML_safe :
    (∀ s, '<' ∉ escapeHTML s ∧ '>' ∉ escapeHTML s ∧ '"' ∉ escapeHTML s) ∧
    (∀ s pre post, escapeHTML s = pre ++ '&' :: post →
      "amp;".toList <+: post ∨ "lt;".toList <+: post ∨ "gt;".toList <+: post ∨
        "quot;".toList <+: post) ∧
    (∀ s, unescapeHTML (escapeHTML s) = s) ∧
    Function.Injective escapeHTML ∧
    (∀ b i, '<' ∉ (nodeGroup b i).title ∧ '>' ∉ (nodeGroup b i).title ∧
      '"' ∉ (nodeGroup b i).title) := by
  refine ⟨escapeHTML_no_markup, ?_, unescape_escapeHTML, ?_, ?_⟩
  · intro s pre post e
    have := ampsOk_split _ pre post (ampsOk_escapeHTML s) e
    unfold startsEntity at this
    simp only [Bool.or_eq_true, List.isPrefixOf_iff_prefix] at this
    rcases this with ((h | h) | h) | h
    · exact Or.inl h
    · exact Or.inr (Or.inl h)
    · exact Or.inr (Or.inr (Or.inl h))
    · exact Or.inr (Or.inr (Or.inr h))
  · intro s t h
    rw [← unescape_escapeHTML s, ← unescape_escapeHTML t, h]
  · intro b i
    exact escapeHTML_no_markup _

theorem escapeHTML_safe_witness :
    escapeHTML "a&<".toList = "a".toList ++ '&' :: "amp;&lt;".toList ∧
    ("amp;".toList <+: "amp;&lt;".toList ∨ "lt;".toList <+: "amp;&lt;".toList ∨
      "gt;".toList <+: "amp;&lt;".toList ∨ "quot;".toList <+: "amp;&lt;".toList) :=
  ⟨by decide, escapeHTML_safe.2.1 "a&<".toList "a".toList "amp;&lt;".toList (by decide)⟩

/-! ## Termination of the parser's scans -/

theorem scanWhile_some_fuel (p : Nat → Bool) (fuel i t : Nat)
    (h : scanWhile p fuel i = some t) : t - i < fuel := by
  induction fuel generalizing i with
  | zero => simp [scanWhile] at h
  | succ f ih =>
    unfold scanWhile at h
    split at h
    · have := ih (i + 1) h
      omega
    · have := Option.some.inj h
      omega

/-- More fuel does not change the result of a scan that stopped. -/
theorem scanWhile_more_fuel (p : Nat → Bool) (fuel fuel2 i t : Nat)
    (h : scanWhile p fuel i = some t) (hf : fuel ≤ fuel2) : scanWhile p fuel2 i = some t := by
  obtain ⟨h1, h2, h3⟩ := scanWhile_some p fuel i t h
  have h4 := scanWhile_some_fuel p fuel i t h
  exact scanWhile_first p fuel2 i t h1 (by omega) h2 h3

/-- C33: for every text, `parseASCII` of `src/src` returns.  The scan
`while (isH(chAt(xr,y))) xr++` from `x + 1` stops, whatever the cell `(x, y)`, at some `xr`
that every larger number of steps allowed gives as well, and with `xr` at most the length of
row `y` when the cell holds `┌`, the only case in which the scan is run; likewise the scan
`while (isV(chAt(x,yb))) yb++` from `y + 1` stops at some `yb`, at most the height when the
cell holds `┌`.  For every box that is accepted, `yb` is smaller than the height, so all the
interior rows `lines[yi]` with `y < yi < yb` exist. -/
theorem parser_scans_terminate (text : List Char) :
    (∃ boxes, Parser.parseASCII text = some boxes) ∧
    (∀ x y : Nat, ∃ xr, Parser.scanRight (linesOf text) x y = some xr ∧ x < xr ∧
      Parser.isH (Parser.chAt (linesOf text) xr y) = false ∧
      (∀ fuel, ((linesOf text).getD y []).length < fuel →
        scanWhile (fun k => Parser.isH (Parser.chAt (linesOf text) k y)) fuel (x + 1) =
          some xr) ∧
      (Parser.chAt (linesOf text) x y = '┌' → xr ≤ ((linesOf text).getD y []).length)) ∧
    (∀ x y : Nat, ∃ yb, Parser.scanDown (linesOf text) x y = some yb ∧ y < yb ∧
      Parser.isV (Parser.chAt (linesOf text) x yb) = false ∧
      (∀ fuel, (linesOf text).length < fuel →
        scanWhile (fun k => Parser.isV (Parser.chAt (linesOf text) x k)) fuel (y + 1) =
          some yb) ∧
      (Parser.chAt (linesOf text) x y = '┌' → yb ≤ (linesOf text).length)) ∧
    (∀ boxes b, Parser.parseASCII text = some boxes → b ∈ boxes →
      b.yb < (linesOf text).length ∧
      ∀ yi, b.y < yi → yi < b.yb → ∃ line, (linesOf text)[yi]? = some line) := by
  refine ⟨⟨_, parser_parseASCII_eq text⟩, ?_, ?_, ?_⟩
  · intro x y
    obtain ⟨xr, h1, h2, h3⟩ := parser_scanRight_total (linesOf text) x y
    refine ⟨xr, h1, h2, ?_, ?_, ?_⟩
    · unfold Parser.scanRight at h1
      exact (scanWhile_some _ _ _ _ h1).2.2
    · intro fuel hf
      unfold Parser.scanRight at h1
      exact scanWhile_more_fuel _ _ fuel _ _ h1 (by omega)
    · intro hc
      rw [parser_chAt_eq] at hc
      have := (chAt_ne_blank (linesOf text) x y (by rw [hc]; decide)).2.1
      omega
  · intro x y
    obtain ⟨yb, h1, h2, h3⟩ := parser_scanDown_total (linesOf text) x y
    refine ⟨yb, h1, h2, ?_, ?_, ?_⟩
    · unfold Parser.scanDown at h1
      exact (scanWhile_some _ _ _ _ h1).2.2
    · intro fuel hf
      unfold Parser.scanDown at h1
      exact scanWhile_more_fuel _ _ fuel _ _ h1 (by omega)
    · intro hc
      rw [parser_chAt_eq] at hc
      have := (chAt_ne_blank (linesOf text) x y (by rw [hc]; decide)).1
      unfold height at this
      omega
  · intro boxes b hp hb
    rw [parser_parseASCII_eq] at hp
    have hp := Option.some.inj hp
    subst hp
    obtain ⟨_, _, _, _, h5, _, _⟩ := parser_mem_boxesOf _ b hb
    rw [parser_chAt_eq] at h5
    have hlt := (chAt_ne_blank (linesOf text) b.x b.yb (by rw [h5]; decide)).1
    unfold height at hlt
    refine ⟨hlt, ?_⟩
    intro yi _ hyi
    exact ⟨_, List.getElem?_eq_getElem (by omega)⟩

theorem parser_scans_terminate_witness :
    (Parser.chAt (linesOf textSmallBox) (0 : Nat) (0 : Nat) = '┌' ∧
      Parser.parseASCII textSmallBox =
        some [{ x := 0, y := 0, xr := 4, yb := 2, content := [['A']] }]) ∧
    (∃ xr, Parser.scanRight (linesOf textSmallBox) 0 0 = some xr ∧
      xr ≤ ((linesOf textSmallBox).getD 0 []).length) ∧
    (∃ yb, Parser.scanDown (linesOf textSmallBox) 0 0 = some yb ∧
      yb ≤ (linesOf textSmallBox).length) ∧
    (2 : Nat) < (linesOf textSmallBox).length :=
  ⟨⟨by decide, by decide⟩,
    match (parser_scans_terminate textSmallBox).2.1 0 0 with
    | ⟨xr, h1, _, _, _, h5⟩ => ⟨xr, h1, h5 (by decide)⟩,
    match (parser_scans_terminate textSmallBox).2.2.1 0 0 with
    | ⟨yb, h1, _, _, _, h5⟩ => ⟨yb, h1, h5 (by decide)⟩,
    ((parser_scans_terminate textSmallBox).2.2.2
      [{ x := 0, y := 0, xr := 4, yb := 2, content := [['A']] }]
      { x := 0, y := 0, xr := 4, yb := 2, content := [['A']] } (by decide) (by decide)).1⟩

end Ascii2Html
